import Mathlib

/-! Buddy allocator `my_mem.c`: shallow embedding and verification.

The allocator state of `my_mem.c` (`struct memory_manager_state`) is embedded as a record,
and every function of `my_mem.c` as a function on that record.

* Addresses are byte offsets from `state.memory`; a `Block *` is the offset of the first
  byte of the block, and a pointer that may be `NULL` is an `Option Nat` (`none` is `NULL`).
* The arrays `free`, `used`, `num_free`, `num_used` are functions of the index.  A doubly
  linked list is the list of its blocks from the head on, so `next` and `prev` of a block
  are its neighbours in that list; unlinking a block through its own links is `List.erase`
  on the list of its header class, which is what the pointer code does whenever the block
  is linked on that list.
* The header field `size_pow2` of the block stored at an offset is read through the map
  `size_pow2` of the record; the bytes of the region are not read before `push_new_block`
  has written them.
* Pointers and `size_t` are 64 bits.  A block that `split_initial_memory` places below
  `state.memory` has the offset `2 ^ 64 - distance`, the value of
  `(unsigned char *)a - state.memory` as a `size_t`.
* `1 << i` is an `int` shift.  Its value is `2 ^ i` for `i ≤ 30`.  Where a call sequence
  reaches a larger count with an effect on the result, in `smallest_block` (sizes above
  `2 ^ 31 - sizeof(Block)`) and in `split_initial_memory` (regions of `2 ^ 31` bytes or
  more), the shift is `shl_int`, the value on x86-64: `1 << 31` is `INT_MIN`, which is
  `2 ^ 64 - 2 ^ 31` as a `size_t`, and the count of a 32-bit shift is taken modulo 32.
  The other shifts are `2 ^ i`.  On the blocks of a region below `2 ^ 32` bytes their count
  is at most 30, with two exceptions.  The modulus `1 << 31` of `try_merge` on a block of
  class 30 gives the same test as `2 ^ 31` (`Core.modulus_class_30`).  The `int` result
  of `stats_block_size(31)`, `(size_t)INT_MIN - sizeof(Block)` cut to 32 bits, is
  `2 ^ 31 - sizeof(Block)`.
* `try_merge` compares the two pointers through their offsets.  For two blocks on the same
  side of `state.memory` this is the order of the addresses; two blocks on different sides
  are refused in either order (`Core.no_merge_across`).
* The `int` counters are integers.  The parameters `my_mem_size` and `size` are
  `unsigned int`; the bound `2 ^ 32` on the region length is a hypothesis.
* A call that dereferences `NULL`, or that indexes the arrays at `MAX_OS_POW2` or beyond,
  has no result (`none`); a theorem that a call returns shows a result `some _`.
* The platform is LP64: `sizeof(Block) = 24` and `MAX_OS_POW2 = 64`.
-/

namespace MyMem

/-- Value of `sizeof(Block)`: two pointers and a `size_t` of 8 bytes each. -/
def sizeof_Block : Nat := 24

/-- Value of `sizeof(void *) * 8`, the length of the four arrays of the state. -/
def MAX_OS_POW2 : Nat := 64

/-- Record `mem_stats_struct` of `my_mem.h`. -/
structure mem_stats_struct where
  num_blocks_used : Int
  num_blocks_free : Int
  smallest_block_free : Int
  smallest_block_used : Int
  largest_block_free : Int
  largest_block_used : Int
  deriving DecidableEq, Repr

/-- Record `struct memory_manager_state`; `size_pow2` is the header field of the block
stored at an offset of the region. -/
structure memory_manager_state where
  mem_size : Nat
  max_pow2 : Nat
  free : Nat → List Nat
  used : Nat → List Nat
  num_free : Nat → Int
  num_used : Nat → Int
  size_pow2 : Nat → Nat

/-- Assignment `arr[i] = v`. -/
def set_at {α : Type} (arr : Nat → α) (i : Nat) (v : α) : Nat → α :=
  fun j => if j = i then v else arr j

/-- Function `push_new_block`: write the header and link the block at the head of
`free[size_pow2]`. -/
def push_new_block (s : memory_manager_state) (block size_pow2 : Nat) :
    memory_manager_state :=
  { s with
    size_pow2 := set_at s.size_pow2 block size_pow2
    free := set_at s.free size_pow2 (block :: s.free size_pow2)
    num_free := set_at s.num_free size_pow2 (s.num_free size_pow2 + 1) }

/-- Function `pop_free_block`: unlink and return the head of `free[size_pow2]`; on an empty
list the head is `NULL` and `block->next` has no value. -/
def pop_free_block (s : memory_manager_state) (size_pow2 : Nat) :
    Option (Nat × memory_manager_state) :=
  match s.free size_pow2 with
  | [] => none
  | block :: next =>
    some (block, { s with
      free := set_at s.free size_pow2 next
      num_free := set_at s.num_free size_pow2 (s.num_free size_pow2 - 1) })

/-- Function `remove_free_block`: unlink the block from the free list of its header class. -/
def remove_free_block (s : memory_manager_state) (block : Nat) : memory_manager_state :=
  { s with
    free := set_at s.free (s.size_pow2 block) ((s.free (s.size_pow2 block)).erase block)
    num_free := set_at s.num_free (s.size_pow2 block)
      (s.num_free (s.size_pow2 block) - 1) }

/-- Function `split_free_block`. -/
def split_free_block (s : memory_manager_state) (size_pow2 : Nat) :
    Option memory_manager_state :=
  match pop_free_block s size_pow2 with
  | none => none
  | some (block, s1) =>
    let next_size := size_pow2 - 1
    let block2 := block + 2 ^ next_size
    some (push_new_block (push_new_block s1 block next_size) block2 next_size)

/-- Function `alloc_block`: move the head of `free[size_pow2]` to the head of
`used[size_pow2]`. -/
def alloc_block (s : memory_manager_state) (size_pow2 : Nat) :
    Option (Nat × memory_manager_state) :=
  match pop_free_block s size_pow2 with
  | none => none
  | some (block, s1) =>
    some (block, { s1 with
      used := set_at s1.used size_pow2 (block :: s1.used size_pow2)
      num_used := set_at s1.num_used size_pow2 (s1.num_used size_pow2 + 1) })

/-- Function `try_merge`. -/
def try_merge (s : memory_manager_state) (a b : Nat) : Bool × memory_manager_state :=
  let lo := if b < a then b else a
  let hi := if b < a then a else b
  let diff := lo
  let properly_aligned := diff % 2 ^ (s.size_pow2 lo + 1) == 0
  let adjacent := lo + 2 ^ s.size_pow2 lo == hi
  if properly_aligned && adjacent then
    let s1 := remove_free_block s lo
    let s2 := remove_free_block s1 hi
    (true, push_new_block s2 lo (s2.size_pow2 lo + 1))
  else
    (false, s)

/-- The `for` loop of `try_defrag` over `trav = head->next, ...`: the state after the first
successful `try_merge(trav, head)`, or `none` when the loop ends without a merge. -/
def defrag_scan (head : Nat) : List Nat → memory_manager_state → Option memory_manager_state
  | [], _ => none
  | trav :: next, s =>
    match try_merge s trav head with
    | (true, s1) => some s1
    | (false, s1) => defrag_scan head next s1

/-- Function `try_defrag`, by recursion on `MAX_OS_POW2 - size_pow2`: at
`size_pow2 = MAX_OS_POW2` the index is outside the arrays. -/
def try_defrag_from : Nat → Nat → memory_manager_state → Option memory_manager_state
  | 0, _, _ => none
  | room + 1, size_pow2, s =>
    if 2 ≤ s.num_free size_pow2 then
      match s.free size_pow2 with
      | [] => none
      | head :: next =>
        match defrag_scan head next s with
        | some s1 => try_defrag_from room (size_pow2 + 1) s1
        | none => some s
    else some s

/-- Function `try_defrag`. -/
def try_defrag (s : memory_manager_state) (size_pow2 : Nat) : Option memory_manager_state :=
  try_defrag_from (MAX_OS_POW2 - size_pow2) size_pow2 s

/-- Function `free_block`. -/
def free_block (s : memory_manager_state) (block : Nat) : Option memory_manager_state :=
  let k := s.size_pow2 block
  let s1 := { s with
    used := set_at s.used k ((s.used k).erase block)
    num_used := set_at s.num_used k (s.num_used k - 1) }
  let s2 := push_new_block s1 block (s1.size_pow2 block)
  try_defrag s2 (s2.size_pow2 block)

/-- The `int` expression `1 << i` converted to `size_t`, as x86-64 computes it: the count is
taken modulo 32, and `1 << 31` is `INT_MIN`, whose conversion to `size_t` is
`2 ^ 64 - 2 ^ 31`. -/
def shl_int (i : Nat) : Nat :=
  if i % 32 = 31 then 2 ^ 64 - 2 ^ 31 else 2 ^ (i % 32)

/-- The `for` loop of `split_initial_memory` from index `i` down with cursor `mem`; at
`i = 0` the test `(1 << 0) > sizeof(Block)` fails.  The step `mem += (1 << i)` adds an
`int` to a pointer of 64 bits: at `i = 31` it moves the cursor back by `2 ^ 31`. -/
def split_initial_loop : Nat → Nat → memory_manager_state → memory_manager_state
  | 0, _, s => s
  | i + 1, mem, s =>
    if sizeof_Block < shl_int (i + 1) then
      if s.mem_size &&& shl_int (i + 1) ≠ 0 then
        split_initial_loop i ((mem + shl_int (i + 1)) % 2 ^ 64)
          (push_new_block s mem (i + 1))
      else split_initial_loop i mem s
    else s

/-- Function `split_initial_memory`. -/
def split_initial_memory (s : memory_manager_state) : memory_manager_state :=
  split_initial_loop s.max_pow2 0 s

/-- The loop `while ((my_mem_size >>= 1)) ++state.max_pow2;` of `mem_init`; the first
argument bounds the number of rounds. -/
def max_pow2_loop : Nat → Nat → Nat → Nat
  | 0, _, max_pow2 => max_pow2
  | rounds + 1, my_mem_size, max_pow2 =>
    if my_mem_size >>> 1 ≠ 0 then max_pow2_loop rounds (my_mem_size >>> 1) (max_pow2 + 1)
    else max_pow2

/-- Function `mem_init` on a region of `my_mem_size` bytes. -/
def mem_init (my_mem_size : Nat) : memory_manager_state :=
  split_initial_memory
    { mem_size := my_mem_size
      max_pow2 := max_pow2_loop my_mem_size my_mem_size 0
      free := fun _ => []
      used := fun _ => []
      num_free := fun _ => 0
      num_used := fun _ => 0
      size_pow2 := fun _ => 0 }

/-- Function `mem_reset`. -/
def mem_reset (s : memory_manager_state) : memory_manager_state :=
  mem_init (s.mem_size % 2 ^ 32)

/-- Function `mem_max_alloc`: `state.mem_size - sizeof(Block)` as an `unsigned`. -/
def mem_max_alloc (s : memory_manager_state) : Nat :=
  (s.mem_size + (2 ^ 32 - sizeof_Block)) % 2 ^ 32

/-- The `while` loop of `smallest_block`; the first argument bounds the number of rounds. -/
def smallest_block_loop (n : Nat) : Nat → Nat → Nat
  | 0, res => res
  | rounds + 1, res =>
    if 0 < n >>> (res + 1) then smallest_block_loop n rounds (res + 1) else res

/-- Function `smallest_block`; the test `n > (1 << res)` compares the `size_t` with the
`int` shift. -/
def smallest_block (n : Nat) : Nat :=
  let n1 := n + sizeof_Block
  let res := smallest_block_loop n1 n1 0
  if shl_int res < n1 then res + 1 else res

/-- The search loop of `my_malloc`,
`while (state.num_free[best_free] == 0) if (++best_free > state.max_pow2) return NULL;`,
by recursion on `max_pow2 - best_free`; `none` is the `return NULL`. -/
def find_best_free (num_free : Nat → Int) (max_pow2 : Nat) : Nat → Nat → Option Nat
  | 0, best_free => if num_free best_free = 0 then none else some best_free
  | gap + 1, best_free =>
    if num_free best_free = 0 then
      if max_pow2 < best_free + 1 then none
      else find_best_free num_free max_pow2 gap (best_free + 1)
    else some best_free

/-- The loop `while (best_free > req_pow2) split_free_block(best_free--);` of `my_malloc`. -/
def split_loop (req_pow2 : Nat) : Nat → memory_manager_state → Option memory_manager_state
  | 0, s => some s
  | best_free + 1, s =>
    if req_pow2 < best_free + 1 then
      match split_free_block s (best_free + 1) with
      | none => none
      | some s1 => split_loop req_pow2 best_free s1
    else some s

/-- Function `my_malloc`: the returned pointer (`none` for `NULL`) and the state after the
call. -/
def my_malloc (s : memory_manager_state) (size : Nat) :
    Option (Option Nat × memory_manager_state) :=
  if size = 0 then some (none, s)
  else
    let req_pow2 := smallest_block size
    match find_best_free s.num_free s.max_pow2 (s.max_pow2 - req_pow2) req_pow2 with
    | none => some (none, s)
    | some best_free =>
      match split_loop req_pow2 best_free s with
      | none => none
      | some s1 =>
        match alloc_block s1 req_pow2 with
        | none => none
        | some (block, s2) => some (some (block + sizeof_Block), s2)

/-- Function `my_free`. -/
def my_free (s : memory_manager_state) (mem_pointer : Option Nat) :
    Option memory_manager_state :=
  match mem_pointer with
  | none => some s
  | some p => free_block s (p - sizeof_Block)

/-- Function `stats_block_size`. -/
def stats_block_size (size_pow2 : Nat) : Int :=
  (2 : Int) ^ size_pow2 - sizeof_Block

/-- The counting loop of `mem_get_stats` over `i = 0 .. max_pow2`. -/
def count_blocks (num : Nat → Int) : Nat → Int
  | 0 => num 0
  | i + 1 => count_blocks num i + num (i + 1)

/-- The ascending loops of `mem_get_stats`: the first index `i ≤ max_pow2` from `i` on with
`num[i] > 0`; the first argument is `max_pow2 + 1 - i`. -/
def scan_up (num : Nat → Int) : Nat → Nat → Option Nat
  | 0, _ => none
  | left + 1, i => if 0 < num i then some i else scan_up num left (i + 1)

/-- The descending loops of `mem_get_stats`, `for (size_t i = ...; i >= 0; --i)`: the first
index from `i` down with `num[i] > 0`; below index 0 the unsigned index wraps and leaves the
arrays (`none`). -/
def scan_down (num : Nat → Int) : Nat → Option Nat
  | 0 => if 0 < num 0 then some 0 else none
  | i + 1 => if 0 < num (i + 1) then some (i + 1) else scan_down num i

/-- The two scans of `mem_get_stats` for one kind of block: the fields `smallest_block_*`
and `largest_block_*`. -/
def stats_extremes (num : Nat → Int) (max_pow2 : Nat) (total : Int) : Option (Int × Int) :=
  if 0 < total then
    let smallest :=
      match scan_up num (max_pow2 + 1) 0 with
      | some i => stats_block_size i
      | none => 0
    match scan_down num max_pow2 with
    | some i => some (smallest, stats_block_size i)
    | none => none
  else some (0, 0)

/-- Function `mem_get_stats`. -/
def mem_get_stats (s : memory_manager_state) : Option mem_stats_struct :=
  let num_blocks_used := count_blocks s.num_used s.max_pow2
  let num_blocks_free := count_blocks s.num_free s.max_pow2
  match stats_extremes s.num_used s.max_pow2 num_blocks_used with
  | none => none
  | some (smallest_used, largest_used) =>
    match stats_extremes s.num_free s.max_pow2 num_blocks_free with
    | none => none
    | some (smallest_free, largest_free) =>
      some { num_blocks_used := num_blocks_used
             num_blocks_free := num_blocks_free
             smallest_block_free := smallest_free
             smallest_block_used := smallest_used
             largest_block_free := largest_free
             largest_block_used := largest_used }

/-- The loop `for (i = 0; i < count; ++i) my_malloc(size);` of the tests in `test.c`: the
state after `count` calls in a row. -/
def malloc_repeat (size : Nat) : Nat → memory_manager_state → Option memory_manager_state
  | 0, s => some s
  | count + 1, s =>
    match my_malloc s size with
    | none => none
    | some (_, s1) => malloc_repeat size count s1

/-- The state after `my_malloc(1)` right after `mem_init` on a region of 64 bytes; the call
splits the block of class 6 and returns offset 56. -/
def state_after_malloc : memory_manager_state :=
  ((my_malloc (mem_init 64) 1).getD (none, mem_init 64)).2

/-- The state after `my_free` of offset 56 in `state_after_malloc`. -/
def state_after_free : memory_manager_state :=
  (my_free state_after_malloc (some 56)).getD (mem_init 64)

/-- The state after a second `my_malloc(1)` in `state_after_malloc`; the call returns
offset 24. -/
def state_after_two_mallocs : memory_manager_state :=
  ((my_malloc state_after_malloc 1).getD (none, mem_init 64)).2

/-- The state after `split_free_block(6)` right after `mem_init` on a region of 64 bytes:
the blocks at the offsets 32 and 0 are on free list 5. -/
def state_after_split : memory_manager_state :=
  (split_free_block (mem_init 64) 6).getD (mem_init 64)

/-- The state after `my_malloc(2 ^ 31)` right after `mem_init` on a region of `2 ^ 31`
bytes; the call returns offset 24. -/
def state_after_big_malloc : memory_manager_state :=
  ((my_malloc (mem_init (2 ^ 31)) (2 ^ 31)).getD (none, mem_init (2 ^ 31))).2

/-- The state after `my_malloc(1)` right after `mem_init` on a region of `2 ^ 31 + 64`
bytes; the call splits the block of class 6, which lies `2 ^ 31` bytes before the region,
and returns the offset `2 ^ 64 - 2 ^ 31 + 56`. -/
def state_after_low_malloc : memory_manager_state :=
  ((my_malloc (mem_init (2 ^ 31 + 64)) 1).getD (none, mem_init (2 ^ 31 + 64))).2

/-! ## Call sequences and invariants -/

/-- States reached from `mem_init` on a region of `L` bytes (`L` an `unsigned int`) by calls
of `my_malloc` and `my_free`, together with the pointers returned and not yet freed;
`my_free` is called on `NULL` or on one of these pointers only. -/
inductive Reach (L : Nat) : memory_manager_state → List Nat → Prop
  | init : L < 2 ^ 32 → Reach L (mem_init L) []
  | malloc_ok {s s1 : memory_manager_state} {out : List Nat} {n p : Nat} :
      Reach L s out → my_malloc s n = some (some p, s1) → Reach L s1 (p :: out)
  | malloc_null {s s1 : memory_manager_state} {out : List Nat} {n : Nat} :
      Reach L s out → my_malloc s n = some (none, s1) → Reach L s1 out
  | free_ptr {s s1 : memory_manager_state} {out : List Nat} {p : Nat} :
      Reach L s out → p ∈ out → my_free s (some p) = some s1 → Reach L s1 (out.erase p)
  | free_null {s s1 : memory_manager_state} {out : List Nat} :
      Reach L s out → my_free s none = some s1 → Reach L s1 out

/-- The cursor of `split_initial_memory` at bit `i` of the length `L < 2 ^ 32`: the bits of
`L` above `i`, moved back by `2 ^ 32` (the step `1 << 31` counts `- 2 ^ 31` for `2 ^ 31`)
when bit 31 is one of them. -/
def init_offset (L i : Nat) : Nat :=
  if L.testBit 31 = true ∧ i < 31 then L / 2 ^ (i + 1) * 2 ^ (i + 1) + (2 ^ 64 - 2 ^ 32)
  else L / 2 ^ (i + 1) * 2 ^ (i + 1)

/-- The block that `split_initial_memory` makes for bit `i` of the length `L`: class `i`,
at the cursor of that bit. -/
def InitBlk (L i D : Nat) : Prop :=
  L.testBit i = true ∧ sizeof_Block < 2 ^ i ∧ D = init_offset L i

/-- Block `d` of class `k` is on a free or a used list. -/
def IsBlk (s : memory_manager_state) (k d : Nat) : Prop :=
  d ∈ s.free k ∨ d ∈ s.used k

/-- Geometry of a set `B` of blocks (class, offset): aligned, inside the initial blocks,
pairwise disjoint, and covering the initial blocks. -/
structure Geo (L : Nat) (B : Nat → Nat → Prop) : Prop where
  aligned : ∀ k d, B k d → 2 ^ k ∣ d
  confined : ∀ k d, B k d → ∃ i D, InitBlk L i D ∧ k ≤ i ∧ D ≤ d ∧ d + 2 ^ k ≤ D + 2 ^ i
  disjoint : ∀ k d k1 d1, B k d → B k1 d1 → d < d1 + 2 ^ k1 → d1 < d + 2 ^ k →
    k = k1 ∧ d = d1
  cover : ∀ i D, InitBlk L i D → ∀ x, D ≤ x → x < D + 2 ^ i →
    ∃ k d, B k d ∧ d ≤ x ∧ x < d + 2 ^ k

/-- No two blocks of the list are buddies of class `k`. -/
def NoBuddy (l : List Nat) (k : Nat) : Prop :=
  ∀ a, a ∈ l → a + 2 ^ k ∈ l → 2 ^ (k + 1) ∣ a → False

/-- The bytes held by the blocks that the counters count. -/
def total_bytes (s : memory_manager_state) : Int :=
  ∑ k in Finset.range MAX_OS_POW2, (s.num_free k + s.num_used k) * 2 ^ k

/-- The bytes of the region that `mem_init` hands to the free lists. -/
def usable_bytes (L : Nat) : Int :=
  ∑ i in Finset.range MAX_OS_POW2,
    if L.testBit i = true ∧ sizeof_Block < 2 ^ i then (2 : Int) ^ i else 0

/-- The invariant of the lists, counters and headers, without the buddy condition. -/
structure Core (L : Nat) (s : memory_manager_state) : Prop where
  len : L < 2 ^ 32
  mem_size : s.mem_size = L
  max_pow2 : s.max_pow2 = Nat.log2 L
  cnt_free : ∀ k, s.num_free k = (s.free k).length
  cnt_used : ∀ k, s.num_used k = (s.used k).length
  nodup : ∀ k, (s.free k ++ s.used k).Nodup
  hdr : ∀ k d, IsBlk s k d → s.size_pow2 d = k
  geo : Geo L (IsBlk s)
  bytes : total_bytes s = usable_bytes L

/-- The invariant between two public calls. -/
def Inv (L : Nat) (s : memory_manager_state) : Prop :=
  Core L s ∧ ∀ k, NoBuddy (s.free k) k

/-- The invariant inside `my_malloc` and `my_free`: the head of free list `k` is the one
block whose buddy may be free. -/
def InvP (L : Nat) (s : memory_manager_state) (k : Nat) : Prop :=
  Core L s ∧ s.free k ≠ [] ∧ NoBuddy (s.free k).tail k ∧ ∀ j, j ≠ k → NoBuddy (s.free j) j

/-- The states that calls of `my_malloc(n)` alone reach on a region of `2 ^ M` bytes, with
`r = smallest_block(n)`: `c` used blocks, all of class `r`, and no free block below `r`. -/
def Filled (M r : Nat) (s : memory_manager_state) (c : Nat) : Prop :=
  Inv (2 ^ M) s ∧ s.max_pow2 = M ∧ (∀ k, k < r → s.num_free k = 0) ∧
    (∀ k, k ≠ r → s.num_used k = 0) ∧ s.num_used r = c

/-- The outstanding pointers are the payload addresses of the blocks on the used lists. -/
def OutInv (s : memory_manager_state) (out : List Nat) : Prop :=
  out.Nodup ∧ ∀ p, p ∈ out ↔ ∃ k d, d ∈ s.used k ∧ p = d + sizeof_Block

/-- The set of blocks after a block of class `k + 1` is replaced by its two halves. -/
def SplitSet (B : Nat → Nat → Prop) (k d : Nat) : Nat → Nat → Prop :=
  fun k1 d1 => (B k1 d1 ∧ ¬ (k1 = k + 1 ∧ d1 = d)) ∨ (k1 = k ∧ (d1 = d ∨ d1 = d + 2 ^ k))

/-- The set of blocks after two buddies of class `k` are replaced by their parent. -/
def MergeSet (B : Nat → Nat → Prop) (k d : Nat) : Nat → Nat → Prop :=
  fun k1 d1 => (B k1 d1 ∧ ¬ (k1 = k ∧ (d1 = d ∨ d1 = d + 2 ^ k))) ∨ (k1 = k + 1 ∧ d1 = d)

/-- A set of free blocks `F` and a set of used blocks `U` in the state between two public
calls: geometry, no block both free and used, no two free buddies. -/
structure Sys (L : Nat) (F U : Nat → Nat → Prop) : Prop where
  geo : Geo L (fun k d => F k d ∨ U k d)
  excl : ∀ k d, F k d → U k d → False
  nobuddy : ∀ k a, 2 ^ (k + 1) ∣ a → F k a → F k (a + 2 ^ k) → False

/-- The fields `smallest_block_*` and `largest_block_*` that `mem_get_stats` reports for the
counters `num` of the classes `0 .. M` with sum `total`: with a positive sum they are the
payload sizes of the smallest class `lo` and the largest class `hi` with a positive counter,
where the descending scan stops at `hi`; otherwise they are 0.  With counters that are not
negative the sum is positive exactly when some class has a positive counter. -/
def ExtremesOf (num : Nat → Int) (M : Nat) (total smallest largest : Int) : Prop :=
  (0 < total → ∃ lo hi, lo ≤ hi ∧ hi ≤ M ∧ 0 < num lo ∧ 0 < num hi ∧
    (∀ j, j < lo → num j ≤ 0) ∧ (∀ j, hi < j → j ≤ M → num j ≤ 0) ∧
    scan_down num M = some hi ∧
    smallest = 2 ^ lo - sizeof_Block ∧ largest = 2 ^ hi - sizeof_Block) ∧
  (total ≤ 0 → smallest = 0 ∧ largest = 0) ∧
  ((∀ k, k ≤ M → 0 ≤ num k) → (0 < total ↔ ∃ k, k ≤ M ∧ 0 < num k))

/-- The relation `Reach` with the requested size kept beside every outstanding pointer: the
list holds the pairs (pointer, size) of the calls `my_malloc(size)` whose pointer has not
been freed. -/
inductive ReachSized (L : Nat) : memory_manager_state → List (Nat × Nat) → Prop
  | init : L < 2 ^ 32 → ReachSized L (mem_init L) []
  | malloc_ok {s s1 : memory_manager_state} {al : List (Nat × Nat)} {n p : Nat} :
      ReachSized L s al → my_malloc s n = some (some p, s1) → ReachSized L s1 ((p, n) :: al)
  | malloc_null {s s1 : memory_manager_state} {al : List (Nat × Nat)} {n : Nat} :
      ReachSized L s al → my_malloc s n = some (none, s1) → ReachSized L s1 al
  | free_ptr {s s1 : memory_manager_state} {al : List (Nat × Nat)} {p n : Nat} :
      ReachSized L s al → (p, n) ∈ al → my_free s (some p) = some s1 →
      ReachSized L s1 (al.erase (p, n))
  | free_null {s s1 : memory_manager_state} {al : List (Nat × Nat)} :
      ReachSized L s al → my_free s none = some s1 → ReachSized L s1 al

/-! ## Arithmetic of dyadic blocks -/

theorem two_pow_split {k k1 : Nat} (h : k ≤ k1) : 2 ^ k1 = 2 ^ k * 2 ^ (k1 - k) := by
  rw [← pow_add]; congr 1; omega

/-- Two aligned blocks that share a byte are nested. -/
theorem dyadic_nest {k d k1 d1 : Nat} (hd : 2 ^ k ∣ d) (hd1 : 2 ^ k1 ∣ d1) (hk : k ≤ k1)
    (h1 : d < d1 + 2 ^ k1) (h2 : d1 < d + 2 ^ k) : d1 ≤ d ∧ d + 2 ^ k ≤ d1 + 2 ^ k1 := by
  obtain ⟨a, rfl⟩ := hd
  obtain ⟨b, rfl⟩ := hd1
  rw [two_pow_split hk] at h1 h2 ⊢
  have hm : 0 < 2 ^ k := by positivity
  generalize 2 ^ (k1 - k) = c at *
  generalize 2 ^ k = m at *
  have e1 : m * c * b + m * c = m * (c * b + c) := by ring
  have e2 : m * a + m = m * (a + 1) := by ring
  have e3 : m * c * b = m * (c * b) := by ring
  rw [e1] at h1
  rw [e2, e3] at h2
  have h3 := Nat.lt_of_mul_lt_mul_left h1
  have h4 := Nat.lt_of_mul_lt_mul_left h2
  rw [e1, e2, e3]
  exact ⟨Nat.mul_le_mul_left m (by omega), Nat.mul_le_mul_left m (by omega)⟩

/-- Two aligned blocks of one class that share a byte are equal. -/
theorem dyadic_same {k d d1 : Nat} (hd : 2 ^ k ∣ d) (hd1 : 2 ^ k ∣ d1)
    (h1 : d < d1 + 2 ^ k) (h2 : d1 < d + 2 ^ k) : d = d1 := by
  have := dyadic_nest hd hd1 (le_refl k) h1 h2
  omega

theorem not_dvd_add_half {k a : Nat} (h : 2 ^ (k + 1) ∣ a) : ¬ 2 ^ (k + 1) ∣ a + 2 ^ k := by
  intro h2
  have h3 : 2 ^ (k + 1) ∣ 2 ^ k := (Nat.dvd_add_right h).mp h2
  have h4 := Nat.le_of_dvd (by positivity) h3
  rw [pow_succ] at h4
  have : 0 < 2 ^ k := by positivity
  omega

theorem dvd_half {k a : Nat} (h : 2 ^ (k + 1) ∣ a) : 2 ^ k ∣ a :=
  Nat.dvd_trans (pow_dvd_pow 2 (Nat.le_succ k)) h

theorem dvd_add_half {k a : Nat} (h : 2 ^ (k + 1) ∣ a) : 2 ^ k ∣ a + 2 ^ k :=
  Nat.dvd_add (dvd_half h) (dvd_refl _)

/-- An aligned block of class `k` is the lower or the upper half of an aligned block of
class `k + 1`. -/
theorem lower_or_upper {k d : Nat} (h : 2 ^ k ∣ d) :
    2 ^ (k + 1) ∣ d ∨ (2 ^ k ≤ d ∧ 2 ^ (k + 1) ∣ d - 2 ^ k) := by
  obtain ⟨a, rfl⟩ := h
  rcases Nat.even_or_odd' a with ⟨b, rfl | rfl⟩
  · left; exact ⟨b, by rw [pow_succ]; ring⟩
  · right
    have hm : 0 < 2 ^ k := by positivity
    refine ⟨by nlinarith, ⟨b, ?_⟩⟩
    have : 2 ^ k * (2 * b + 1) = 2 ^ (k + 1) * b + 2 ^ k := by rw [pow_succ]; ring
    rw [this]; omega

/-! ## The loops of `mem_init` and `smallest_block` -/

theorem max_pow2_loop_eq (rounds n acc : Nat) (h : n ≤ rounds) :
    max_pow2_loop rounds n acc = acc + Nat.log2 n := by
  induction rounds generalizing n acc with
  | zero =>
    have : n = 0 := by omega
    subst this
    simp [max_pow2_loop, Nat.log2]
  | succ r ih =>
    unfold max_pow2_loop
    rw [Nat.shiftRight_eq_div_pow, pow_one]
    by_cases h2 : n / 2 = 0
    · have hn : n < 2 := by omega
      rw [if_neg (by simpa using h2)]
      have : Nat.log2 n = 0 := by
        rw [Nat.log2]; rw [if_neg (by omega)]
      omega
    · rw [if_pos h2, ih _ _ (by omega)]
      have hn : 2 ≤ n := by omega
      conv_rhs => rw [Nat.log2, if_pos hn]
      omega

theorem mem_init_max_pow2_loop (L : Nat) : max_pow2_loop L L 0 = Nat.log2 L := by
  rw [max_pow2_loop_eq L L 0 (le_refl L)]; simp

theorem smallest_block_loop_spec (n : Nat) (rounds res : Nat)
    (h1 : 2 ^ res ≤ n) (h2 : n < 2 ^ (res + rounds + 1)) :
    2 ^ smallest_block_loop n rounds res ≤ n ∧
      n < 2 ^ (smallest_block_loop n rounds res + 1) := by
  induction rounds generalizing res with
  | zero => exact ⟨h1, h2⟩
  | succ r ih =>
    unfold smallest_block_loop
    rw [Nat.shiftRight_eq_div_pow]
    by_cases h : 0 < n / 2 ^ (res + 1)
    · rw [if_pos h]
      have h3 : 2 ^ (res + 1) ≤ n := by
        have := (Nat.div_pos_iff (by positivity)).mp h
        exact this
      exact ih (res + 1) h3 (by rw [show res + 1 + r + 1 = res + (r + 1) + 1 by omega]; exact h2)
    · rw [if_neg h]
      have h3 : n < 2 ^ (res + 1) := by
        by_contra hc
        exact h ((Nat.div_pos_iff (by positivity)).mpr (by omega))
      exact ⟨h1, h3⟩

theorem shl_int_of_le {i : Nat} (h : i ≤ 30) : shl_int i = 2 ^ i := by
  unfold shl_int
  rw [Nat.mod_eq_of_lt (by omega), if_neg (by omega)]

theorem shl_int_31 : shl_int 31 = 2 ^ 64 - 2 ^ 31 := by
  unfold shl_int
  rw [if_pos (by norm_num)]

theorem shl_int_32 : shl_int 32 = 1 := by
  unfold shl_int
  rw [if_neg (by norm_num)]
  norm_num

/-- The value of the `while` loop of `smallest_block`: the position of the highest bit. -/
theorem smallest_block_loop_bounds (n : Nat) :
    2 ^ smallest_block_loop (n + sizeof_Block) (n + sizeof_Block) 0 ≤ n + sizeof_Block ∧
      n + sizeof_Block <
        2 ^ (smallest_block_loop (n + sizeof_Block) (n + sizeof_Block) 0 + 1) := by
  have hpos : 0 < n + sizeof_Block := by unfold sizeof_Block; omega
  have hlt : n + sizeof_Block < 2 ^ (0 + (n + sizeof_Block) + 1) := by
    have := @Nat.lt_two_pow (n + sizeof_Block)
    calc n + sizeof_Block < 2 ^ (n + sizeof_Block) := this
      _ ≤ 2 ^ (0 + (n + sizeof_Block) + 1) := Nat.pow_le_pow_right (by norm_num) (by omega)
  exact smallest_block_loop_spec (n + sizeof_Block) (n + sizeof_Block) 0
    (by rw [pow_zero]; exact hpos) hlt

/-- Up to `2 ^ 31` bytes with the header, `smallest_block` returns the least class whose
block holds `n` bytes and a header. -/
theorem smallest_block_spec (n : Nat) (hn : n + sizeof_Block ≤ 2 ^ 31) :
    n + sizeof_Block ≤ 2 ^ smallest_block n ∧
      ∀ k, n + sizeof_Block ≤ 2 ^ k → smallest_block n ≤ k := by
  obtain ⟨h1, h2⟩ := smallest_block_loop_bounds n
  unfold smallest_block
  simp only
  generalize smallest_block_loop (n + sizeof_Block) (n + sizeof_Block) 0 = res at h1 h2
  have hres : res ≤ 31 := by
    by_contra hc
    have := Nat.pow_le_pow_right (show 0 < 2 by norm_num) (show 32 ≤ res by omega)
    omega
  by_cases h31 : res = 31
  · subst h31
    rw [shl_int_31, if_neg (by omega)]
    refine ⟨by omega, fun k hk => ?_⟩
    by_contra hc
    have := Nat.pow_le_pow_right (show 0 < 2 by norm_num) (show k ≤ 30 by omega)
    omega
  rw [shl_int_of_le (by omega)]
  by_cases h : 2 ^ res < n + sizeof_Block
  · rw [if_pos h]
    refine ⟨le_of_lt h2, fun k hk => ?_⟩
    by_contra hc
    have : k ≤ res := by omega
    have := Nat.pow_le_pow_right (show 0 < 2 by norm_num) this
    omega
  · rw [if_neg h]
    have heq : 2 ^ res = n + sizeof_Block := by omega
    refine ⟨by omega, fun k hk => ?_⟩
    by_contra hc
    have : k + 1 ≤ res := by omega
    have := Nat.pow_le_pow_right (show 0 < 2 by norm_num) this
    rw [pow_succ] at this
    have : 0 < 2 ^ k := by positivity
    omega

theorem smallest_block_le {n k : Nat} (h : n + sizeof_Block ≤ 2 ^ k) (hk : k ≤ 31) :
    smallest_block n ≤ k :=
  (smallest_block_spec n (le_trans h (Nat.pow_le_pow_right (by norm_num) hk))).2 k h

theorem smallest_block_ge (n : Nat) (hn : n + sizeof_Block ≤ 2 ^ 31) :
    n + sizeof_Block ≤ 2 ^ smallest_block n :=
  (smallest_block_spec n hn).1

/-- Above `2 ^ 31` and below `2 ^ 32` bytes with the header the test `n > (1 << 31)`
compares with `INT_MIN` as a `size_t`, and `smallest_block` returns 31. -/
theorem smallest_block_wrap {n : Nat} (h1 : 2 ^ 31 < n + sizeof_Block)
    (h2 : n + sizeof_Block < 2 ^ 32) : smallest_block n = 31 := by
  obtain ⟨h3, h4⟩ := smallest_block_loop_bounds n
  unfold smallest_block
  simp only
  generalize smallest_block_loop (n + sizeof_Block) (n + sizeof_Block) 0 = res at h3 h4
  have hres : res = 31 := by
    by_contra hc
    rcases Nat.lt_or_gt_of_ne hc with hlt | hgt
    · have := Nat.pow_le_pow_right (show 0 < 2 by norm_num) (show res + 1 ≤ 31 by omega)
      omega
    · have := Nat.pow_le_pow_right (show 0 < 2 by norm_num) (show 32 ≤ res by omega)
      omega
  subst hres
  rw [shl_int_31, if_neg (by omega)]

/-- The class that `smallest_block` returns is never below the position of the highest bit
of the size with the header. -/
theorem smallest_block_lower (n : Nat) : n + sizeof_Block < 2 ^ (smallest_block n + 1) := by
  obtain ⟨_, h4⟩ := smallest_block_loop_bounds n
  unfold smallest_block
  simp only
  generalize smallest_block_loop (n + sizeof_Block) (n + sizeof_Block) 0 = res at h4
  split
  · calc n + sizeof_Block < 2 ^ (res + 1) := h4
      _ ≤ 2 ^ (res + 1 + 1) := Nat.pow_le_pow_right (by norm_num) (by omega)
  · exact h4

/-- A class of at most 30 from `smallest_block` holds the `n` bytes and the header. -/
theorem smallest_block_fits {n : Nat} (h : smallest_block n ≤ 30) :
    n + sizeof_Block ≤ 2 ^ smallest_block n := by
  apply smallest_block_ge
  have h1 := smallest_block_lower n
  have := Nat.pow_le_pow_right (show 0 < 2 by norm_num) (show smallest_block n + 1 ≤ 31 by omega)
  omega

/-! ## The initial blocks -/

theorem and_two_pow_ne_zero (L i : Nat) : L &&& 2 ^ i ≠ 0 ↔ L.testBit i = true := by
  rw [Nat.and_two_pow]
  cases h : L.testBit i <;> simp

theorem init_offset_low {L i : Nat} (h : ¬ (L.testBit 31 = true ∧ i < 31)) :
    init_offset L i = L / 2 ^ (i + 1) * 2 ^ (i + 1) := by
  unfold init_offset
  rw [if_neg h]

theorem init_offset_wrap {L i : Nat} (h : L.testBit 31 = true ∧ i < 31) :
    init_offset L i = L / 2 ^ (i + 1) * 2 ^ (i + 1) + (2 ^ 64 - 2 ^ 32) := by
  unfold init_offset
  rw [if_pos h]

/-- Up to `2 ^ 31` bytes the cursor at a set bit is the sum of the bits of `L` above it. -/
theorem init_offset_small {L i : Nat} (hL : L ≤ 2 ^ 31) (hb : L.testBit i = true) :
    init_offset L i = L / 2 ^ (i + 1) * 2 ^ (i + 1) := by
  apply init_offset_low
  rintro ⟨h31, hi⟩
  have h1 : 2 ^ 31 ≤ L := Nat.testBit_implies_ge h31
  have hL1 : L = 2 ^ 31 := le_antisymm hL h1
  subst hL1
  rw [Nat.testBit_two_pow] at hb
  simp at hb
  omega

theorem InitBlk.dvd {L i D : Nat} (h : InitBlk L i D) : 2 ^ (i + 1) ∣ D := by
  rw [h.2.2]
  by_cases hw : L.testBit 31 = true ∧ i < 31
  · rw [init_offset_wrap hw]
    apply Nat.dvd_add (Dvd.intro_left _ rfl)
    have h1 : (2 : Nat) ^ 64 - 2 ^ 32 = 2 ^ 32 * (2 ^ 32 - 1) := by norm_num
    rw [h1]
    exact Dvd.dvd.mul_right (Nat.pow_dvd_pow 2 (by omega)) _
  · rw [init_offset_low hw]
    exact Dvd.intro_left _ rfl

theorem InitBlk.le_len {L i D : Nat} (h : InitBlk L i D) : 2 ^ i ≤ L :=
  Nat.testBit_implies_ge h.1

theorem InitBlk.le_log2 {L i D : Nat} (h : InitBlk L i D) : i ≤ Nat.log2 L := by
  have h1 := h.le_len
  have h2 : L ≠ 0 := by
    have : 0 < 2 ^ i := by positivity
    omega
  exact (Nat.le_log2 h2).mpr h1

theorem log2_lt_32 {L : Nat} (h : L < 2 ^ 32) : Nat.log2 L < 32 := by
  by_cases h0 : L = 0
  · subst h0; simp [Nat.log2]
  · exact (Nat.log2_lt h0).mpr h

theorem InitBlk.offset_unique {L i D D1 : Nat} (h : InitBlk L i D) (h1 : InitBlk L i D1) :
    D = D1 := by
  rw [h.2.2, h1.2.2]

/-- With the offsets that the bits of `L` above a position sum to, the initial block of a
higher class ends before the one of a lower class starts. -/
theorem bits_above_order {L i i1 : Nat} (h1 : L.testBit i1 = true) (hlt : i < i1) :
    L / 2 ^ (i1 + 1) * 2 ^ (i1 + 1) + 2 ^ i1 ≤ L / 2 ^ (i + 1) * 2 ^ (i + 1) := by
  have hbit : L / 2 ^ i1 % 2 = 1 := by
    have := h1
    rw [Nat.testBit_to_div_mod] at this
    simpa using this
  have e1 : L / 2 ^ (i1 + 1) * 2 ^ (i1 + 1) + 2 ^ i1 = L / 2 ^ i1 * 2 ^ i1 := by
    have : L / 2 ^ (i1 + 1) = L / 2 ^ i1 / 2 := by
      rw [pow_succ, Nat.div_div_eq_div_mul]
    rw [this]
    have h3 : L / 2 ^ i1 = 2 * (L / 2 ^ i1 / 2) + 1 := by omega
    generalize L / 2 ^ i1 = q at *
    generalize q / 2 = q2 at *
    subst h3
    rw [pow_succ]; ring
  rw [e1]
  have hs : 2 ^ i1 = 2 ^ (i + 1) * 2 ^ (i1 - (i + 1)) := two_pow_split (by omega)
  rw [hs, ← Nat.div_div_eq_div_mul]
  generalize L / 2 ^ (i + 1) = q
  generalize 2 ^ (i1 - (i + 1)) = c
  generalize 2 ^ (i + 1) = m
  calc q / c * (m * c) = (q / c * c) * m := by ring
    _ ≤ q * m := Nat.mul_le_mul_right m (Nat.div_mul_le_self q c)

/-- The initial block of a higher class ends before the one of a lower class starts, also
when the lower one lies before the region: its offset is then above `2 ^ 64 - 2 ^ 31`. -/
theorem InitBlk.order {L i D i1 D1 : Nat} (h : InitBlk L i D) (h1 : InitBlk L i1 D1)
    (hlt : i < i1) : D1 + 2 ^ i1 ≤ D := by
  have hb := bits_above_order h1.1 hlt
  rw [h.2.2, h1.2.2]
  by_cases hw : L.testBit 31 = true ∧ i < 31
  · rw [init_offset_wrap hw]
    by_cases hw1 : L.testBit 31 = true ∧ i1 < 31
    · rw [init_offset_wrap hw1]; omega
    · rw [init_offset_low hw1]; omega
  · rw [init_offset_low hw, init_offset_low (fun hw1 => hw ⟨hw1.1, by omega⟩)]
    exact hb

theorem geo_init (L : Nat) : Geo L (InitBlk L) where
  aligned := fun _ _ h => dvd_half h.dvd
  confined := fun k d h => ⟨k, d, h, le_refl _, le_refl _, le_refl _⟩
  disjoint := by
    intro k d k1 d1 h h1 hlt1 hlt2
    rcases Nat.lt_trichotomy k k1 with hk | hk | hk
    · have := h.order h1 hk; omega
    · subst hk; exact ⟨rfl, h.offset_unique h1⟩
    · have := h1.order h hk; omega
  cover := fun i D h x hx1 hx2 => ⟨i, D, h, hx1, hx2⟩

/-! ## Splitting and merging in a set of blocks -/

theorem Geo.congr {L : Nat} {B B1 : Nat → Nat → Prop} (g : Geo L B)
    (h : ∀ k d, B1 k d ↔ B k d) : Geo L B1 where
  aligned := fun k d hb => g.aligned k d ((h k d).mp hb)
  confined := fun k d hb => g.confined k d ((h k d).mp hb)
  disjoint := fun k d k1 d1 hb hb1 => g.disjoint k d k1 d1 ((h k d).mp hb) ((h k1 d1).mp hb1)
  cover := fun i D hi x h1 h2 => by
    obtain ⟨k, d, hb, h3⟩ := g.cover i D hi x h1 h2
    exact ⟨k, d, (h k d).mpr hb, h3⟩

theorem Geo.split_set {L : Nat} {B : Nat → Nat → Prop} (g : Geo L B) {k d : Nat}
    (hb : B (k + 1) d) : Geo L (SplitSet B k d) := by
  have hal := g.aligned _ _ hb
  have hp : 2 ^ (k + 1) = 2 ^ k + 2 ^ k := by rw [pow_succ]; ring
  have hpos : 0 < 2 ^ k := by positivity
  constructor
  · rintro k1 d1 (⟨h1, _⟩ | ⟨rfl, rfl | rfl⟩)
    · exact g.aligned _ _ h1
    · exact dvd_half hal
    · exact dvd_add_half hal
  · rintro k1 d1 (⟨h1, _⟩ | ⟨rfl, hd⟩)
    · exact g.confined _ _ h1
    · obtain ⟨i, D, hi, h2, h3, h4⟩ := g.confined _ _ hb
      refine ⟨i, D, hi, by omega, ?_, ?_⟩ <;> rcases hd with rfl | rfl <;> omega
  · rintro k1 d1 k2 d2 (⟨h1, n1⟩ | ⟨e1, hd1⟩) (⟨h2, n2⟩ | ⟨e2, hd2⟩) hlt1 hlt2
    · exact g.disjoint _ _ _ _ h1 h2 hlt1 hlt2
    · subst k2
      exfalso
      exact n1 (g.disjoint k1 d1 (k + 1) d h1 hb (by rcases hd2 with rfl | rfl <;> omega)
        (by rcases hd2 with rfl | rfl <;> omega))
    · subst k1
      exfalso
      exact n2 (g.disjoint k2 d2 (k + 1) d h2 hb (by rcases hd1 with rfl | rfl <;> omega)
        (by rcases hd1 with rfl | rfl <;> omega))
    · subst k1; subst k2
      refine ⟨rfl, ?_⟩
      rcases hd1 with rfl | rfl <;> rcases hd2 with rfl | rfl <;> omega
  · intro i D hi x hx1 hx2
    obtain ⟨k1, d1, h1, h3, h4⟩ := g.cover i D hi x hx1 hx2
    by_cases hc : k1 = k + 1 ∧ d1 = d
    · obtain ⟨rfl, rfl⟩ := hc
      by_cases hx : x < d1 + 2 ^ k
      · exact ⟨k, d1, Or.inr ⟨rfl, Or.inl rfl⟩, h3, hx⟩
      · exact ⟨k, d1 + 2 ^ k, Or.inr ⟨rfl, Or.inr rfl⟩, by omega, by omega⟩
    · exact ⟨k1, d1, Or.inl ⟨h1, hc⟩, h3, h4⟩

theorem Geo.merge_set {L : Nat} {B : Nat → Nat → Prop} (g : Geo L B) {k d : Nat}
    (hb : B k d) (hb1 : B k (d + 2 ^ k)) (hal : 2 ^ (k + 1) ∣ d) : Geo L (MergeSet B k d) := by
  have hp : 2 ^ (k + 1) = 2 ^ k + 2 ^ k := by rw [pow_succ]; ring
  have hpos : 0 < 2 ^ k := by positivity
  -- a block of the old set that meets the parent is one of the two buddies
  have key : ∀ k1 d1, B k1 d1 → d1 < d + 2 ^ (k + 1) → d < d1 + 2 ^ k1 →
      k1 = k ∧ (d1 = d ∨ d1 = d + 2 ^ k) := by
    intro k1 d1 h1 hlt1 hlt2
    by_cases hc : d1 < d + 2 ^ k
    · obtain ⟨e1, e2⟩ := g.disjoint k1 d1 k d h1 hb hc hlt2
      exact ⟨e1, Or.inl e2⟩
    · have : 0 < 2 ^ k1 := by positivity
      obtain ⟨e1, e2⟩ := g.disjoint k1 d1 k (d + 2 ^ k) h1 hb1 (by omega) (by omega)
      exact ⟨e1, Or.inr e2⟩
  constructor
  · rintro k1 d1 (⟨h1, _⟩ | ⟨rfl, rfl⟩)
    · exact g.aligned _ _ h1
    · exact hal
  · rintro k1 d1 (⟨h1, _⟩ | ⟨rfl, rfl⟩)
    · exact g.confined _ _ h1
    · obtain ⟨i, D, hi, h2, h3, h4⟩ := g.confined _ _ hb
      rcases Nat.lt_or_ge k i with hlt | hge
      · have := dyadic_nest hal (dvd_half hi.dvd) (show k + 1 ≤ i by omega) (by omega)
          (by omega)
        exact ⟨i, D, hi, hlt, this.1, this.2⟩
      · exfalso
        have hki : k = i := by omega
        subst hki
        have hd : d1 = D := by omega
        subst hd
        obtain ⟨i1, D1, hi1, h5, h6, h7⟩ := g.confined _ _ hb1
        rcases Nat.lt_or_ge k i1 with hlt | hge
        · have := hi.order hi1 hlt; omega
        · have hki : k = i1 := by omega
          subst hki
          have := hi.offset_unique hi1
          omega
  · rintro k1 d1 k2 d2 (⟨h1, n1⟩ | ⟨rfl, rfl⟩) (⟨h2, n2⟩ | ⟨rfl, rfl⟩) hlt1 hlt2
    · exact g.disjoint _ _ _ _ h1 h2 hlt1 hlt2
    · exact absurd (key k1 d1 h1 hlt1 hlt2) n1
    · exact absurd (key k2 d2 h2 hlt2 hlt1) n2
    · exact ⟨rfl, rfl⟩
  · intro i D hi x hx1 hx2
    obtain ⟨k1, d1, h1, h3, h4⟩ := g.cover i D hi x hx1 hx2
    by_cases hc : k1 = k ∧ (d1 = d ∨ d1 = d + 2 ^ k)
    · obtain ⟨rfl, hd⟩ := hc
      exact ⟨k1 + 1, d, Or.inr ⟨rfl, rfl⟩, by rcases hd with rfl | rfl <;> omega,
        by rcases hd with rfl | rfl <;> omega⟩
    · exact ⟨k1, d1, Or.inl ⟨h1, hc⟩, h3, h4⟩

/-- Blocks above the class of the region length do not exist. -/
theorem Geo.class_le {L : Nat} {B : Nat → Nat → Prop} (g : Geo L B) {k d : Nat} (hb : B k d) :
    k ≤ Nat.log2 L := by
  obtain ⟨i, D, hi, h2, _⟩ := g.confined _ _ hb
  exact le_trans h2 hi.le_log2

/-- Two buddies of class `k` in the set have a parent of class at most `log2 L`. -/
theorem Geo.buddy_class_lt {L : Nat} {B : Nat → Nat → Prop} (g : Geo L B) {k d : Nat}
    (hb : B k d) (hb1 : B k (d + 2 ^ k)) (hal : 2 ^ (k + 1) ∣ d) : k + 1 ≤ Nat.log2 L :=
  (g.merge_set hb hb1 hal).class_le (Or.inr ⟨rfl, rfl⟩)

/-! ## The free blocks are determined by the used blocks -/

/-- No free block of one system lies strictly inside a free block of another system with
the same used blocks. -/
theorem Sys.no_nested {L : Nat} {F U F1 U1 : Nat → Nat → Prop} (S : Sys L F U)
    (S1 : Sys L F1 U1) (hU : ∀ k d, U1 k d → U k d) :
    ∀ n k, k < n → ∀ K D d, F K D → F1 k d → k < K → D ≤ d → d < D + 2 ^ K → False := by
  intro n
  induction n with
  | zero => intro k hk; omega
  | succ n ih =>
    intro k hk K D d hX hY hkK hd1 hd2
    have hXal := S.geo.aligned K D (Or.inl hX)
    have hYal := S1.geo.aligned k d (Or.inl hY)
    have hp : 2 ^ (k + 1) = 2 ^ k + 2 ^ k := by rw [pow_succ]; ring
    have hpos : 0 < 2 ^ k := by positivity
    -- the buddy of `Y` and the parent of both
    obtain ⟨p, q, hpal, hq, hpd, hqd⟩ : ∃ p q, 2 ^ (k + 1) ∣ p ∧
        (q = p ∨ q = p + 2 ^ k) ∧ (d = p ∨ d = p + 2 ^ k) ∧ q ≠ d := by
      rcases lower_or_upper hYal with h | ⟨h1, h2⟩
      · exact ⟨d, d + 2 ^ k, h, Or.inr rfl, Or.inl rfl, by omega⟩
      · exact ⟨d - 2 ^ k, d - 2 ^ k, h2, Or.inl rfl, Or.inr (by omega), by omega⟩
    have hnest := dyadic_nest hpal hXal (show k + 1 ≤ K by omega) (by omega) (by omega)
    have hq1 : D ≤ q := by omega
    have hq2 : q < D + 2 ^ K := by omega
    obtain ⟨i, D0, hi, h2, h3, h4⟩ := S.geo.confined K D (Or.inl hX)
    obtain ⟨k1, d1, hZ, hz1, hz2⟩ := S1.geo.cover i D0 hi q (by omega) (by omega)
    have hZal := S1.geo.aligned k1 d1 hZ
    rcases hZ with hZ | hZ
    · rcases Nat.lt_trichotomy k1 k with hlt | heq | hgt
      · have hn := dyadic_nest hZal hXal (show k1 ≤ K by omega) (by omega) (by omega)
        exact ih k1 (by omega) K D d1 hX hZ (by omega) hn.1 (by
          have : 0 < 2 ^ k1 := by positivity
          omega)
      · subst heq
        have hqal : 2 ^ k1 ∣ q := by
          rcases hq with rfl | rfl
          · exact dvd_half hpal
          · exact dvd_add_half hpal
        have e : d1 = q := dyadic_same hZal hqal (by omega) (by omega)
        subst e
        rcases hq with e1 | e1 <;> rcases hpd with e2 | e2
        · exact hqd (e1.trans e2.symm)
        · rw [e1] at hZ; rw [e2] at hY
          exact S1.nobuddy k1 p hpal hZ hY
        · rw [e1] at hZ; rw [e2] at hY
          exact S1.nobuddy k1 p hpal hY hZ
        · exact hqd (e1.trans e2.symm)
      · have hn := dyadic_nest hpal hZal (show k + 1 ≤ k1 by omega) (by omega) (by omega)
        have := S1.geo.disjoint k1 d1 k d (Or.inl hZ) (Or.inl hY) (by omega) (by omega)
        omega
    · have := S.geo.disjoint k1 d1 K D (Or.inr (hU _ _ hZ)) (Or.inl hX) (by omega) (by omega)
      obtain ⟨e1, e2⟩ := this
      subst e1; subst e2
      exact S.excl _ _ hX (hU _ _ hZ)

/-- Two systems with the same used blocks have the same free blocks. -/
theorem Sys.canonical {L : Nat} {F U F1 U1 : Nat → Nat → Prop} (S : Sys L F U)
    (S1 : Sys L F1 U1) (hU : ∀ k d, U1 k d ↔ U k d) : ∀ k d, F k d → F1 k d := by
  intro k d hF
  have hal := S.geo.aligned k d (Or.inl hF)
  have hpos : 0 < 2 ^ k := by positivity
  obtain ⟨i, D0, hi, h2, h3, h4⟩ := S.geo.confined k d (Or.inl hF)
  obtain ⟨k1, d1, hZ, hz1, hz2⟩ := S1.geo.cover i D0 hi d h3 (by omega)
  have hZal := S1.geo.aligned k1 d1 hZ
  rcases hZ with hZ | hZ
  · rcases Nat.lt_trichotomy k1 k with hlt | heq | hgt
    · exfalso
      have hn := dyadic_nest hZal hal (show k1 ≤ k by omega) (by omega) (by omega)
      have : 0 < 2 ^ k1 := by positivity
      exact S.no_nested S1 (fun a b h => (hU a b).mp h) (k1 + 1) k1 (by omega) k d d1 hF hZ hlt
        hn.1 (by omega)
    · subst heq
      have e : d1 = d := dyadic_same hZal hal (by omega) (by omega)
      subst e; exact hZ
    · exfalso
      exact S1.no_nested S (fun a b h => (hU a b).mpr h) (k + 1) k (by omega) k1 d1 d hZ hF hgt
        hz1 hz2
  · exfalso
    have := S.geo.disjoint k1 d1 k d (Or.inr ((hU _ _).mp hZ)) (Or.inl hF) (by omega) (by omega)
    obtain ⟨e1, e2⟩ := this
    subst e1; subst e2
    exact S.excl _ _ hF ((hU _ _).mp hZ)

/-! ## Array assignment and the byte count -/

@[simp] theorem set_at_same {α : Type} (arr : Nat → α) (i : Nat) (v : α) :
    set_at arr i v i = v := by
  simp [set_at]

theorem set_at_ne {α : Type} (arr : Nat → α) {i j : Nat} (v : α) (h : j ≠ i) :
    set_at arr i v j = arr j := by
  simp [set_at, h]

theorem set_at_apply {α : Type} (arr : Nat → α) (i j : Nat) (v : α) :
    set_at arr i v j = if j = i then v else arr j := rfl

/-- Changing the counters of one class changes the byte count by the weight of the class. -/
theorem total_bytes_change (s s1 : memory_manager_state) (k : Nat) (hk : k < MAX_OS_POW2)
    (c : Int)
    (h : ∀ j, s1.num_free j + s1.num_used j =
      s.num_free j + s.num_used j + if j = k then c else 0) :
    total_bytes s1 = total_bytes s + c * 2 ^ k := by
  unfold total_bytes
  have e : ∀ j ∈ Finset.range MAX_OS_POW2, (s1.num_free j + s1.num_used j) * (2 : Int) ^ j =
      (s.num_free j + s.num_used j) * 2 ^ j + if j = k then c * 2 ^ k else 0 := by
    intro j _
    rw [h j]
    by_cases hj : j = k
    · subst hj; simp; ring
    · simp [hj]
  rw [Finset.sum_congr rfl e, Finset.sum_add_distrib, Finset.sum_ite_eq' (Finset.range MAX_OS_POW2) k]
  simp [hk]

/-- Changing the counters of two classes by amounts of equal weight keeps the byte count. -/
theorem total_bytes_move (s s1 : memory_manager_state) (k k1 : Nat) (hk : k < MAX_OS_POW2)
    (hk1 : k1 < MAX_OS_POW2) (c c1 : Int) (hc : c * 2 ^ k + c1 * 2 ^ k1 = 0)
    (h : ∀ j, s1.num_free j + s1.num_used j =
      s.num_free j + s.num_used j + (if j = k then c else 0) + if j = k1 then c1 else 0) :
    total_bytes s1 = total_bytes s := by
  unfold total_bytes
  have e : ∀ j ∈ Finset.range MAX_OS_POW2, (s1.num_free j + s1.num_used j) * (2 : Int) ^ j =
      (s.num_free j + s.num_used j) * 2 ^ j + (if j = k then c * 2 ^ k else 0) +
        if j = k1 then c1 * 2 ^ k1 else 0 := by
    intro j _
    rw [h j]
    by_cases hj : j = k <;> by_cases hj1 : j = k1
    · subst hj; subst hj1; simp; ring
    · subst hj; simp [hj1]; ring
    · subst hj1; simp [hj]; ring
    · simp [hj, hj1]
  rw [Finset.sum_congr rfl e, Finset.sum_add_distrib, Finset.sum_add_distrib,
    Finset.sum_ite_eq' (Finset.range MAX_OS_POW2) k,
    Finset.sum_ite_eq' (Finset.range MAX_OS_POW2) k1]
  simp [hk, hk1]
  linarith

/-! ## The list operations -/

/-- Effect of `split_free_block` on a class `k + 1` whose free list is `b :: rest`. -/
theorem split_free_block_spec {s : memory_manager_state} {k b : Nat} {rest : List Nat}
    (h : s.free (k + 1) = b :: rest) :
    ∃ s1, split_free_block s (k + 1) = some s1 ∧ s1.mem_size = s.mem_size ∧
      s1.max_pow2 = s.max_pow2 ∧ s1.used = s.used ∧ s1.num_used = s.num_used ∧
      (∀ j, s1.free j = if j = k then (b + 2 ^ k) :: b :: s.free k
        else if j = k + 1 then rest else s.free j) ∧
      (∀ j, s1.num_free j = if j = k then s.num_free k + 2
        else if j = k + 1 then s.num_free (k + 1) - 1 else s.num_free j) ∧
      (∀ d, s1.size_pow2 d = if d = b + 2 ^ k then k else if d = b then k
        else s.size_pow2 d) := by
  refine ⟨push_new_block (push_new_block { s with
      free := set_at s.free (k + 1) rest
      num_free := set_at s.num_free (k + 1) (s.num_free (k + 1) - 1) } b k) (b + 2 ^ k) k,
    by simp only [split_free_block, pop_free_block, h, Nat.add_sub_cancel], rfl, rfl, rfl, rfl,
    ?_, ?_, ?_⟩
  · intro j
    simp only [push_new_block, set_at_apply]
    by_cases h1 : j = k
    · subst h1; simp
    · simp [h1]
  · intro j
    simp only [push_new_block, set_at_apply]
    by_cases h1 : j = k
    · subst h1; simp; ring
    · simp [h1]
  · intro d
    simp only [push_new_block, set_at_apply]

/-- Effect of `alloc_block` on a class whose free list is `b :: rest`. -/
theorem alloc_block_spec {s : memory_manager_state} {r b : Nat} {rest : List Nat}
    (h : s.free r = b :: rest) :
    ∃ s1, alloc_block s r = some (b, s1) ∧ s1.mem_size = s.mem_size ∧
      s1.max_pow2 = s.max_pow2 ∧ s1.size_pow2 = s.size_pow2 ∧
      (∀ j, s1.free j = if j = r then rest else s.free j) ∧
      (∀ j, s1.num_free j = if j = r then s.num_free r - 1 else s.num_free j) ∧
      (∀ j, s1.used j = if j = r then b :: s.used r else s.used j) ∧
      (∀ j, s1.num_used j = if j = r then s.num_used r + 1 else s.num_used j) := by
  refine ⟨{ s with
      free := set_at s.free r rest
      num_free := set_at s.num_free r (s.num_free r - 1)
      used := set_at s.used r (b :: s.used r)
      num_used := set_at s.num_used r (s.num_used r + 1) },
    by simp only [alloc_block, pop_free_block, h], rfl, rfl, rfl, ?_, ?_, ?_, ?_⟩ <;>
    intro j <;> simp only [set_at_apply]

/-- Function `free_block` is `try_defrag` on the state in which the block has moved from
its used list to the head of the free list of its class. -/
theorem free_block_spec (s : memory_manager_state) (d : Nat) :
    ∃ s1, free_block s d = try_defrag s1 (s.size_pow2 d) ∧ s1.mem_size = s.mem_size ∧
      s1.max_pow2 = s.max_pow2 ∧ s1.size_pow2 = s.size_pow2 ∧
      (∀ j, s1.free j = if j = s.size_pow2 d then d :: s.free j else s.free j) ∧
      (∀ j, s1.num_free j = if j = s.size_pow2 d then s.num_free j + 1 else s.num_free j) ∧
      (∀ j, s1.used j = if j = s.size_pow2 d then (s.used j).erase d else s.used j) ∧
      (∀ j, s1.num_used j = if j = s.size_pow2 d then s.num_used j - 1 else s.num_used j) := by
  refine ⟨push_new_block { s with
      used := set_at s.used (s.size_pow2 d) ((s.used (s.size_pow2 d)).erase d)
      num_used := set_at s.num_used (s.size_pow2 d) (s.num_used (s.size_pow2 d) - 1) }
      d (s.size_pow2 d), ?_, rfl, rfl, ?_, ?_, ?_, ?_, ?_⟩
  · simp only [free_block, push_new_block, set_at_same]
  · funext x
    simp only [push_new_block, set_at_apply]
    by_cases hx : x = d
    · subst hx; simp
    · simp [hx]
  all_goals
    intro j
    simp only [push_new_block, set_at_apply]
    by_cases hj : j = s.size_pow2 d
    · subst hj; simp
    · simp [hj]

/-- Function `try_merge` on two blocks whose headers carry class `k`: it succeeds exactly
when the lower block is aligned to `2 ^ (k + 1)` and the higher one follows it. -/
theorem try_merge_spec (s : memory_manager_state) (a b k : Nat) (ha : s.size_pow2 a = k)
    (hb : s.size_pow2 b = k) :
    (¬ (2 ^ (k + 1) ∣ min a b ∧ min a b + 2 ^ k = max a b) ∧ try_merge s a b = (false, s)) ∨
    (2 ^ (k + 1) ∣ min a b ∧ min a b + 2 ^ k = max a b ∧
      ∃ s1, try_merge s a b = (true, s1) ∧ s1.mem_size = s.mem_size ∧
        s1.max_pow2 = s.max_pow2 ∧ s1.used = s.used ∧ s1.num_used = s.num_used ∧
        (∀ j, s1.free j = if j = k + 1 then min a b :: s.free (k + 1)
          else if j = k then ((s.free k).erase (min a b)).erase (max a b) else s.free j) ∧
        (∀ j, s1.num_free j = if j = k + 1 then s.num_free (k + 1) + 1
          else if j = k then s.num_free k - 2 else s.num_free j) ∧
        (∀ d, s1.size_pow2 d = if d = min a b then k + 1 else s.size_pow2 d)) := by
  have hlo : (if b < a then b else a) = min a b := by
    rcases lt_or_ge b a with h | h
    · rw [if_pos h, min_eq_right (le_of_lt h)]
    · rw [if_neg (not_lt.mpr h), min_eq_left h]
  have hhi : (if b < a then a else b) = max a b := by
    rcases lt_or_ge b a with h | h
    · rw [if_pos h, max_eq_left (le_of_lt h)]
    · rw [if_neg (not_lt.mpr h), max_eq_right h]
  have hk : s.size_pow2 (min a b) = k := by
    rcases min_choice a b with h | h <;> rw [h] <;> assumption
  have hk2 : s.size_pow2 (max a b) = k := by
    rcases max_choice a b with h | h <;> rw [h] <;> assumption
  by_cases hc : 2 ^ (k + 1) ∣ min a b ∧ min a b + 2 ^ k = max a b
  · right
    refine ⟨hc.1, hc.2, ?_⟩
    have hcond : (min a b % 2 ^ (k + 1) == 0 && min a b + 2 ^ k == max a b) = true := by
      simp [Nat.mod_eq_zero_of_dvd hc.1, hc.2]
    refine ⟨push_new_block (remove_free_block (remove_free_block s (min a b)) (max a b))
      (min a b) (k + 1), ?_, rfl, rfl, rfl, rfl, ?_, ?_, ?_⟩
    · have e : (remove_free_block (remove_free_block s (min a b)) (max a b)).size_pow2
          (min a b) = k := hk
      simp only [try_merge, hlo, hhi, hk, hcond, if_true, e]
    · intro j
      simp only [push_new_block, remove_free_block, set_at_apply, hk, hk2]
      by_cases h1 : j = k + 1
      · subst h1; simp
      · by_cases h2 : j = k
        · subst h2; simp
        · simp [h1, h2]
    · intro j
      simp only [push_new_block, remove_free_block, set_at_apply, hk, hk2]
      by_cases h1 : j = k + 1
      · subst h1; simp
      · by_cases h2 : j = k
        · subst h2; simp; ring
        · simp [h1, h2]
    · intro d
      simp only [push_new_block, remove_free_block, set_at_apply, hk, hk2]
  · left
    refine ⟨hc, ?_⟩
    have hcond : (min a b % 2 ^ (k + 1) == 0 && min a b + 2 ^ k == max a b) = false := by
      rw [Bool.eq_false_iff]
      intro h
      simp only [Bool.and_eq_true, beq_iff_eq] at h
      exact hc ⟨Nat.dvd_of_mod_eq_zero h.1, h.2⟩
    simp only [try_merge, hlo, hhi, hk, hcond]
    rfl

/-! ## The invariant under the four list transitions -/

theorem Core.class_lt {L : Nat} {s : memory_manager_state} (c : Core L s) {k d : Nat}
    (h : IsBlk s k d) : k < 32 :=
  lt_of_le_of_lt (c.geo.class_le h) (log2_lt_32 c.len)

theorem Core.not_free_and_used {L : Nat} {s : memory_manager_state} (c : Core L s) {k d : Nat}
    (h : d ∈ s.free k) (h1 : d ∈ s.used k) : False :=
  (List.nodup_append.mp (c.nodup k)).2.2 h h1

/-- Two blocks of the state at one offset are of one class. -/
theorem Core.class_unique {L : Nat} {s : memory_manager_state} (c : Core L s) {k k1 d : Nat}
    (h : IsBlk s k d) (h1 : IsBlk s k1 d) : k = k1 := by
  rw [← c.hdr k d h, ← c.hdr k1 d h1]

theorem Core.split_step {L : Nat} {s s1 : memory_manager_state} {k b : Nat} {rest : List Nat}
    (c : Core L s) (h : s.free (k + 1) = b :: rest)
    (hm : s1.mem_size = s.mem_size) (hM : s1.max_pow2 = s.max_pow2) (hu : s1.used = s.used)
    (hnu : s1.num_used = s.num_used)
    (hf : ∀ j, s1.free j = if j = k then (b + 2 ^ k) :: b :: s.free k
      else if j = k + 1 then rest else s.free j)
    (hnf : ∀ j, s1.num_free j = if j = k then s.num_free k + 2
      else if j = k + 1 then s.num_free (k + 1) - 1 else s.num_free j)
    (hh : ∀ d, s1.size_pow2 d = if d = b + 2 ^ k then k else if d = b then k
      else s.size_pow2 d) : Core L s1 := by
  have hB : IsBlk s (k + 1) b := Or.inl (by rw [h]; exact List.mem_cons_self _ _)
  have hpos : 0 < 2 ^ k := by positivity
  have hp : 2 ^ (k + 1) = 2 ^ k + 2 ^ k := by rw [pow_succ]; ring
  have hnd := c.nodup (k + 1)
  rw [h] at hnd
  have hbrest : b ∉ rest := fun hx => by
    have := (List.nodup_cons.mp hnd).1
    exact this (List.mem_append_left _ hx)
  have hbused : b ∉ s.used (k + 1) := fun hx => by
    have := (List.nodup_cons.mp hnd).1
    exact this (List.mem_append_right _ hx)
  -- no block of class `k` starts at the offsets of the halves
  have hnew : ∀ d, (d = b ∨ d = b + 2 ^ k) → ¬ IsBlk s k d := by
    intro d hd hx
    have := c.geo.disjoint k d (k + 1) b hx hB (by rcases hd with rfl | rfl <;> omega)
      (by rcases hd with rfl | rfl <;> omega)
    omega
  have hiff : ∀ k1 d1, IsBlk s1 k1 d1 ↔ SplitSet (IsBlk s) k b k1 d1 := by
    intro k1 d1
    simp only [IsBlk, SplitSet]
    rw [hf, hu]
    by_cases h1 : k1 = k
    · subst h1
      simp only [if_true, List.mem_cons]
      have : ¬ (k1 = k1 + 1) := by omega
      tauto
    · by_cases h2 : k1 = k + 1
      · subst h2
        rw [if_neg h1, if_pos rfl, h]
        simp only [List.mem_cons]
        have e1 : d1 ∈ rest → d1 ≠ b := fun hx e => hbrest (e ▸ hx)
        have e2 : d1 ∈ s.used (k + 1) → d1 ≠ b := fun hx e => hbused (e ▸ hx)
        tauto
      · rw [if_neg h1, if_neg h2]
        tauto
  have hgeo : Geo L (IsBlk s1) := (c.geo.split_set hB).congr hiff
  refine ⟨c.len, hm.trans c.mem_size, hM.trans c.max_pow2, ?_, ?_, ?_, ?_, hgeo, ?_⟩
  · intro j
    rw [hnf, hf]
    by_cases h1 : j = k
    · subst h1; simp [c.cnt_free j]; ring
    · by_cases h2 : j = k + 1
      · subst h2
        rw [if_neg h1, if_pos rfl, if_neg h1, if_pos rfl, c.cnt_free, h]
        simp
      · rw [if_neg h1, if_neg h2, if_neg h1, if_neg h2, c.cnt_free]
  · intro j; rw [hnu, hu]; exact c.cnt_used j
  · intro j
    rw [hf, hu]
    by_cases h1 : j = k
    · subst h1
      rw [if_pos rfl]
      have h3 := hnew b (Or.inl rfl)
      have h4 := hnew (b + 2 ^ j) (Or.inr rfl)
      unfold IsBlk at h3 h4
      have := c.nodup j
      simp only [List.cons_append, List.nodup_cons, List.mem_cons, List.mem_append]
      refine ⟨?_, ?_, this⟩
      · rintro (hx | hx | hx)
        · omega
        · exact h4 (Or.inl hx)
        · exact h4 (Or.inr hx)
      · rintro (hx | hx)
        · exact h3 (Or.inl hx)
        · exact h3 (Or.inr hx)
    · by_cases h2 : j = k + 1
      · subst h2
        rw [if_neg h1, if_pos rfl]
        exact (List.nodup_cons.mp hnd).2
      · rw [if_neg h1, if_neg h2]; exact c.nodup j
  · intro k1 d1 hx
    rw [hh]
    rcases (hiff k1 d1).mp hx with ⟨hold, hne⟩ | ⟨rfl, rfl | rfl⟩
    · have h1 : d1 ≠ b + 2 ^ k := by
        intro e
        have := c.geo.disjoint k1 d1 (k + 1) b hold hB (by omega) (by
          have : 0 < 2 ^ k1 := by positivity
          omega)
        omega
      have h2 : d1 ≠ b := by
        intro e
        subst e
        exact hne ⟨c.class_unique hold hB, rfl⟩
      rw [if_neg h1, if_neg h2]
      exact c.hdr k1 d1 hold
    · have : d1 ≠ d1 + 2 ^ k1 := by omega
      rw [if_neg this, if_pos rfl]
    · rw [if_pos rfl]
  · rw [← c.bytes]
    have hk : k + 1 < 32 := c.class_lt hB
    refine total_bytes_move s s1 k (k + 1) (by unfold MAX_OS_POW2; omega)
      (by unfold MAX_OS_POW2; omega) 2 (-1) (by rw [pow_succ]; ring) ?_
    intro j
    rw [hnf, hnu]
    by_cases h1 : j = k
    · subst h1
      have : ¬ (j = j + 1) := by omega
      simp [this]; ring
    · by_cases h2 : j = k + 1
      · subst h2; simp; ring
      · simp [h1, h2]

theorem Core.alloc_step {L : Nat} {s s1 : memory_manager_state} {r b : Nat} {rest : List Nat}
    (c : Core L s) (h : s.free r = b :: rest)
    (hm : s1.mem_size = s.mem_size) (hM : s1.max_pow2 = s.max_pow2)
    (hh : s1.size_pow2 = s.size_pow2)
    (hf : ∀ j, s1.free j = if j = r then rest else s.free j)
    (hnf : ∀ j, s1.num_free j = if j = r then s.num_free r - 1 else s.num_free j)
    (hu : ∀ j, s1.used j = if j = r then b :: s.used r else s.used j)
    (hnu : ∀ j, s1.num_used j = if j = r then s.num_used r + 1 else s.num_used j) :
    Core L s1 := by
  have hB : IsBlk s r b := Or.inl (by rw [h]; exact List.mem_cons_self _ _)
  have hnd := c.nodup r
  rw [h] at hnd
  have hperm : (rest ++ b :: s.used r).Perm (b :: rest ++ s.used r) := by
    exact List.perm_middle
  have hiff : ∀ k1 d1, IsBlk s1 k1 d1 ↔ IsBlk s k1 d1 := by
    intro k1 d1
    unfold IsBlk
    rw [hf, hu]
    by_cases h1 : k1 = r
    · subst h1
      simp only [if_true, h, List.mem_cons]
      tauto
    · simp only [if_neg h1]
  refine ⟨c.len, hm.trans c.mem_size, hM.trans c.max_pow2, ?_, ?_, ?_, ?_,
    c.geo.congr hiff, ?_⟩
  · intro j
    rw [hnf, hf]
    by_cases h1 : j = r
    · subst h1; simp [c.cnt_free j, h]
    · simp [h1, c.cnt_free j]
  · intro j
    rw [hnu, hu]
    by_cases h1 : j = r
    · subst h1; simp [c.cnt_used j]
    · simp [h1, c.cnt_used j]
  · intro j
    rw [hf, hu]
    by_cases h1 : j = r
    · subst h1
      simp only [if_true]
      exact hperm.nodup_iff.mpr hnd
    · simp only [if_neg h1]; exact c.nodup j
  · intro k1 d1 hx
    rw [hh]; exact c.hdr k1 d1 ((hiff k1 d1).mp hx)
  · rw [← c.bytes]
    have hk : r < 32 := c.class_lt hB
    have := total_bytes_change s s1 r (by unfold MAX_OS_POW2; omega) 0 (by
      intro j
      rw [hnf, hnu]
      by_cases h1 : j = r
      · subst h1; simp
      · simp [h1])
    simp [this]

theorem Core.release_step {L : Nat} {s s1 : memory_manager_state} {k d : Nat}
    (c : Core L s) (h : d ∈ s.used k)
    (hm : s1.mem_size = s.mem_size) (hM : s1.max_pow2 = s.max_pow2)
    (hh : s1.size_pow2 = s.size_pow2)
    (hf : ∀ j, s1.free j = if j = k then d :: s.free j else s.free j)
    (hnf : ∀ j, s1.num_free j = if j = k then s.num_free j + 1 else s.num_free j)
    (hu : ∀ j, s1.used j = if j = k then (s.used j).erase d else s.used j)
    (hnu : ∀ j, s1.num_used j = if j = k then s.num_used j - 1 else s.num_used j) :
    Core L s1 := by
  have hB : IsBlk s k d := Or.inr h
  have hnd := c.nodup k
  have hndu : (s.used k).Nodup := (List.nodup_append.mp hnd).2.1
  have hperm : (d :: s.free k ++ (s.used k).erase d).Perm (s.free k ++ s.used k) := by
    have h1 : (s.used k).Perm (d :: (s.used k).erase d) := List.perm_cons_erase h
    have h2 : (s.free k ++ s.used k).Perm (s.free k ++ d :: (s.used k).erase d) :=
      List.Perm.append_left _ h1
    exact (h2.trans List.perm_middle).symm
  have hiff : ∀ k1 d1, IsBlk s1 k1 d1 ↔ IsBlk s k1 d1 := by
    intro k1 d1
    unfold IsBlk
    rw [hf, hu]
    by_cases h1 : k1 = k
    · subst h1
      simp only [if_true]
      have : d1 ∈ d :: s.free k1 ++ (s.used k1).erase d ↔ d1 ∈ s.free k1 ++ s.used k1 :=
        hperm.mem_iff
      simpa only [List.mem_append] using this
    · simp only [if_neg h1]
  refine ⟨c.len, hm.trans c.mem_size, hM.trans c.max_pow2, ?_, ?_, ?_, ?_,
    c.geo.congr hiff, ?_⟩
  · intro j
    rw [hnf, hf]
    by_cases h1 : j = k
    · subst h1; simp [c.cnt_free j]
    · simp [h1, c.cnt_free j]
  · intro j
    rw [hnu, hu]
    by_cases h1 : j = k
    · subst h1
      simp only [if_true, c.cnt_used j, List.length_erase_of_mem h]
      have : 0 < (s.used j).length := List.length_pos_of_mem h
      omega
    · simp [h1, c.cnt_used j]
  · intro j
    rw [hf, hu]
    by_cases h1 : j = k
    · subst h1
      simp only [if_true]
      exact hperm.nodup_iff.mpr hnd
    · simp only [if_neg h1]; exact c.nodup j
  · intro k1 d1 hx
    rw [hh]; exact c.hdr k1 d1 ((hiff k1 d1).mp hx)
  · rw [← c.bytes]
    have hk : k < 32 := c.class_lt hB
    have := total_bytes_change s s1 k (by unfold MAX_OS_POW2; omega) 0 (by
      intro j
      rw [hnf, hnu]
      by_cases h1 : j = k
      · subst h1; simp
      · simp [h1])
    simp [this]

theorem Core.merge_step {L : Nat} {s s1 : memory_manager_state} {k lo hi : Nat}
    (c : Core L s) (hlo : lo ∈ s.free k) (hhi : hi ∈ s.free k) (hal : 2 ^ (k + 1) ∣ lo)
    (hadj : lo + 2 ^ k = hi)
    (hm : s1.mem_size = s.mem_size) (hM : s1.max_pow2 = s.max_pow2) (hu : s1.used = s.used)
    (hnu : s1.num_used = s.num_used)
    (hf : ∀ j, s1.free j = if j = k + 1 then lo :: s.free (k + 1)
      else if j = k then ((s.free k).erase lo).erase hi else s.free j)
    (hnf : ∀ j, s1.num_free j = if j = k + 1 then s.num_free (k + 1) + 1
      else if j = k then s.num_free k - 2 else s.num_free j)
    (hh : ∀ d, s1.size_pow2 d = if d = lo then k + 1 else s.size_pow2 d) : Core L s1 := by
  subst hadj
  have hB : IsBlk s k lo := Or.inl hlo
  have hB1 : IsBlk s k (lo + 2 ^ k) := Or.inl hhi
  have hpos : 0 < 2 ^ k := by positivity
  have hp : 2 ^ (k + 1) = 2 ^ k + 2 ^ k := by rw [pow_succ]; ring
  have hnd := c.nodup k
  have hndf : (s.free k).Nodup := (List.nodup_append.mp hnd).1
  have hne : lo + 2 ^ k ≠ lo := by omega
  have hmem : ∀ d1, d1 ∈ ((s.free k).erase lo).erase (lo + 2 ^ k) ↔
      d1 ∈ s.free k ∧ d1 ≠ lo ∧ d1 ≠ lo + 2 ^ k := by
    intro d1
    rw [(hndf.erase lo).mem_erase_iff, hndf.mem_erase_iff]
    tauto
  have hnew : ¬ IsBlk s (k + 1) lo := by
    intro hx
    have := c.geo.disjoint (k + 1) lo k lo hx hB (by omega) (by omega)
    omega
  have hiff : ∀ k1 d1, IsBlk s1 k1 d1 ↔ MergeSet (IsBlk s) k lo k1 d1 := by
    intro k1 d1
    simp only [IsBlk, MergeSet]
    rw [hf, hu]
    by_cases h1 : k1 = k + 1
    · subst h1
      simp only [if_true, List.mem_cons]
      have : ¬ (k + 1 = k) := by omega
      tauto
    · by_cases h2 : k1 = k
      · subst h2
        rw [if_neg h1, if_pos rfl, hmem]
        have e1 : d1 ∈ s.used k1 → d1 ≠ lo := fun hx e => c.not_free_and_used hlo (e ▸ hx)
        have e2 : d1 ∈ s.used k1 → d1 ≠ lo + 2 ^ k1 := fun hx e =>
          c.not_free_and_used hhi (e ▸ hx)
        tauto
      · rw [if_neg h1, if_neg h2]
        tauto
  have hgeo : Geo L (IsBlk s1) := (c.geo.merge_set hB hB1 hal).congr hiff
  have hk : k + 1 < 32 :=
    lt_of_le_of_lt (c.geo.buddy_class_lt hB hB1 hal) (log2_lt_32 c.len)
  refine ⟨c.len, hm.trans c.mem_size, hM.trans c.max_pow2, ?_, ?_, ?_, ?_, hgeo, ?_⟩
  · intro j
    rw [hnf, hf]
    by_cases h1 : j = k + 1
    · subst h1; simp [c.cnt_free (k + 1)]
    · by_cases h2 : j = k
      · subst h2
        rw [if_neg h1, if_pos rfl, if_neg h1, if_pos rfl, c.cnt_free]
        have hhi1 : lo + 2 ^ j ∈ (s.free j).erase lo := (hndf.mem_erase_iff).mpr ⟨hne, hhi⟩
        have l1 := List.length_erase_of_mem hlo
        have l2 := List.length_erase_of_mem hhi1
        have l3 := List.length_pos_of_mem hlo
        have l4 := List.length_pos_of_mem hhi1
        rw [l2, l1]
        omega
      · rw [if_neg h1, if_neg h2, if_neg h1, if_neg h2, c.cnt_free]
  · intro j; rw [hnu, hu]; exact c.cnt_used j
  · intro j
    rw [hf, hu]
    by_cases h1 : j = k + 1
    · subst h1
      rw [if_pos rfl]
      have := c.nodup (k + 1)
      simp only [List.cons_append, List.nodup_cons, List.mem_append]
      exact ⟨hnew, this⟩
    · by_cases h2 : j = k
      · subst h2
        rw [if_neg h1, if_pos rfl]
        exact hnd.sublist (List.Sublist.append
          ((List.erase_sublist _ _).trans (List.erase_sublist _ _)) (List.Sublist.refl _))
      · rw [if_neg h1, if_neg h2]; exact c.nodup j
  · intro k1 d1 hx
    rw [hh]
    rcases (hiff k1 d1).mp hx with ⟨hold, hnot⟩ | ⟨e1, e2⟩
    · have h2 : d1 ≠ lo := by
        intro e
        subst e
        exact hnot ⟨c.class_unique hold hB, Or.inl rfl⟩
      rw [if_neg h2]
      exact c.hdr k1 d1 hold
    · rw [if_pos e2, e1]
  · rw [← c.bytes]
    refine total_bytes_move s s1 k (k + 1) (by unfold MAX_OS_POW2; omega)
      (by unfold MAX_OS_POW2; omega) (-2) 1 (by rw [pow_succ]; ring) ?_
    intro j
    rw [hnf, hnu]
    by_cases h1 : j = k + 1
    · subst h1; simp; ring
    · by_cases h2 : j = k
      · subst h2; simp; ring
      · simp [h1, h2]

/-! ## The buddy condition along `my_malloc` and `my_free` -/

theorem NoBuddy.sub {l l1 : List Nat} {k : Nat} (h : NoBuddy l k) (hs : ∀ x, x ∈ l1 → x ∈ l) :
    NoBuddy l1 k :=
  fun a ha ha1 hal => h a (hs a ha) (hs _ ha1) hal

theorem Inv.toInvP {L : Nat} {s : memory_manager_state} (h : Inv L s) {k : Nat}
    (hk : s.free k ≠ []) : InvP L s k :=
  ⟨h.1, hk, (h.2 k).sub (fun _ hx => List.mem_of_mem_tail hx), fun j _ => h.2 j⟩

theorem InvP.core {L : Nat} {s : memory_manager_state} {k : Nat} (h : InvP L s k) : Core L s :=
  h.1

/-- In a state with the invariant, the lists of the classes above `max_pow2` are empty. -/
theorem Core.free_eq_nil {L : Nat} {s : memory_manager_state} (c : Core L s) {k : Nat}
    (hk : s.max_pow2 < k) : s.free k = [] := by
  rw [List.eq_nil_iff_forall_not_mem]
  intro d hd
  have h1 : IsBlk s k d := Or.inl hd
  have := c.geo.class_le h1
  rw [c.max_pow2] at hk
  omega

theorem Core.used_eq_nil {L : Nat} {s : memory_manager_state} (c : Core L s) {k : Nat}
    (hk : s.max_pow2 < k) : s.used k = [] := by
  rw [List.eq_nil_iff_forall_not_mem]
  intro d hd
  have h1 : IsBlk s k d := Or.inr hd
  have := c.geo.class_le h1
  rw [c.max_pow2] at hk
  omega

theorem Core.num_free_nonneg {L : Nat} {s : memory_manager_state} (c : Core L s) (k : Nat) :
    0 ≤ s.num_free k := by
  rw [c.cnt_free]; exact Int.natCast_nonneg _

theorem Core.num_used_nonneg {L : Nat} {s : memory_manager_state} (c : Core L s) (k : Nat) :
    0 ≤ s.num_used k := by
  rw [c.cnt_used]; exact Int.natCast_nonneg _

theorem Core.free_ne_nil {L : Nat} {s : memory_manager_state} (c : Core L s) {k : Nat}
    (hk : s.num_free k ≠ 0) : s.free k ≠ [] := by
  intro h
  rw [c.cnt_free, h] at hk
  exact hk rfl

theorem Core.max_pow2_lt {L : Nat} {s : memory_manager_state} (c : Core L s) :
    s.max_pow2 < 32 := by
  rw [c.max_pow2]; exact log2_lt_32 c.len

/-- One round of the split loop of `my_malloc`. -/
theorem InvP.split_round {L : Nat} {s : memory_manager_state} {k : Nat} (h : InvP L s (k + 1)) :
    ∃ s1, split_free_block s (k + 1) = some s1 ∧ InvP L s1 k ∧ s1.used = s.used ∧
      s1.num_used = s.num_used ∧ s1.max_pow2 = s.max_pow2 ∧
      (∀ j, s1.num_free j = if j = k then s.num_free k + 2
        else if j = k + 1 then s.num_free (k + 1) - 1 else s.num_free j) := by
  obtain ⟨c, hne, htail, hrest⟩ := h
  obtain ⟨b, rest, hfree⟩ := List.exists_cons_of_ne_nil hne
  obtain ⟨s1, e, hm, hM, hu, hnu, hf, hnf, hh⟩ := split_free_block_spec hfree
  have c1 : Core L s1 := c.split_step hfree hm hM hu hnu hf hnf hh
  refine ⟨s1, e, ⟨c1, ?_, ?_, ?_⟩, hu, hnu, hM, hnf⟩
  · rw [hf, if_pos rfl]; exact List.cons_ne_nil _ _
  · rw [hf, if_pos rfl, List.tail_cons]
    have hB : IsBlk s (k + 1) b := Or.inl (by rw [hfree]; exact List.mem_cons_self _ _)
    have hal := c.geo.aligned _ _ hB
    have hpos : 0 < 2 ^ k := by positivity
    have hp : 2 ^ (k + 1) = 2 ^ k + 2 ^ k := by rw [pow_succ]; ring
    have hnew : b + 2 ^ k ∉ s.free k := by
      intro hx
      have := c.geo.disjoint k (b + 2 ^ k) (k + 1) b (Or.inl hx) hB (by omega) (by omega)
      omega
    have hold : NoBuddy (s.free k) k := hrest k (by omega)
    intro a ha ha1 hdiv
    rcases List.mem_cons.mp ha with rfl | ha
    · rcases List.mem_cons.mp ha1 with e1 | ha1
      · omega
      · exact hnew ha1
    · rcases List.mem_cons.mp ha1 with e1 | ha1
      · rw [← e1] at hal
        exact not_dvd_add_half hdiv hal
      · exact hold a ha ha1 hdiv
  · intro j hj
    rw [hf, if_neg hj]
    by_cases h2 : j = k + 1
    · subst h2
      rw [if_pos rfl]
      rw [hfree, List.tail_cons] at htail
      exact htail
    · rw [if_neg h2]
      exact hrest j h2

/-- The last step of `my_malloc`. -/
theorem InvP.alloc_last {L : Nat} {s : memory_manager_state} {r : Nat} (h : InvP L s r) :
    ∃ b s1, alloc_block s r = some (b, s1) ∧ Inv L s1 ∧ b ∈ s.free r ∧
      s1.max_pow2 = s.max_pow2 ∧ s1.size_pow2 = s.size_pow2 ∧
      (∀ j, s1.num_free j = if j = r then s.num_free r - 1 else s.num_free j) ∧
      (∀ j, s1.used j = if j = r then b :: s.used r else s.used j) ∧
      (∀ j, s1.num_used j = if j = r then s.num_used r + 1 else s.num_used j) := by
  obtain ⟨c, hne, htail, hrest⟩ := h
  obtain ⟨b, rest, hfree⟩ := List.exists_cons_of_ne_nil hne
  obtain ⟨s1, e, hm, hM, hh, hf, hnf, hu, hnu⟩ := alloc_block_spec hfree
  have c1 : Core L s1 := c.alloc_step hfree hm hM hh hf hnf hu hnu
  refine ⟨b, s1, e, ⟨c1, ?_⟩, by rw [hfree]; exact List.mem_cons_self _ _, hM, hh, hnf, hu, hnu⟩
  intro j
  rw [hf]
  by_cases h1 : j = r
  · subst h1
    rw [if_pos rfl]
    rw [hfree, List.tail_cons] at htail
    exact htail
  · rw [if_neg h1]; exact hrest j h1

/-! ## The search and split loops of `my_malloc` -/

theorem find_best_free_some (nf : Nat → Int) (M : Nat) :
    ∀ gap bf k, gap = M - bf → bf ≤ k → (k ≤ M ∨ k = bf) → nf k ≠ 0 →
      (∀ j, bf ≤ j → j < k → nf j = 0) → find_best_free nf M gap bf = some k := by
  intro gap
  induction gap with
  | zero =>
    intro bf k hg hle hk hnz hz
    have : k = bf := by omega
    subst this
    simp [find_best_free, hnz]
  | succ gap ih =>
    intro bf k hg hle hk hnz hz
    unfold find_best_free
    by_cases h0 : nf bf = 0
    · have hne : k ≠ bf := fun e => hnz (e ▸ h0)
      rw [if_pos h0, if_neg (by omega)]
      exact ih (bf + 1) k (by omega) (by omega) (by omega) hnz
        (fun j hj1 hj2 => hz j (by omega) hj2)
    · have : k = bf := by
        by_contra hne
        exact h0 (hz bf (le_refl _) (by omega))
      subst this
      rw [if_neg h0]

theorem find_best_free_none (nf : Nat → Int) (M : Nat) :
    ∀ gap bf, gap = M - bf → (∀ j, bf ≤ j → (j ≤ M ∨ j = bf) → nf j = 0) →
      find_best_free nf M gap bf = none := by
  intro gap
  induction gap with
  | zero =>
    intro bf _ hz
    simp [find_best_free, hz bf (le_refl _) (Or.inr rfl)]
  | succ gap ih =>
    intro bf hg hz
    unfold find_best_free
    rw [if_pos (hz bf (le_refl _) (Or.inr rfl)), if_neg (by omega)]
    exact ih (bf + 1) (by omega) (fun j hj1 _ => hz j (by omega) (Or.inl (by
      by_contra hc
      have : j = bf + 1 := by omega
      omega)))

/-- The split loop of `my_malloc` from class `k` down to class `r`. -/
theorem InvP.split_down {L : Nat} (r : Nat) :
    ∀ k (s : memory_manager_state), r ≤ k → InvP L s k →
      ∃ s1, split_loop r k s = some s1 ∧ InvP L s1 r ∧ s1.used = s.used ∧
        s1.num_used = s.num_used ∧ s1.max_pow2 = s.max_pow2 ∧
        (∀ j, s1.num_free j = s.num_free j +
          if r < k then (if j = k then -1 else if j = r then 2
            else if r < j ∧ j < k then 1 else 0) else 0) := by
  intro k
  induction k with
  | zero =>
    intro s hr h
    have : r = 0 := by omega
    subst this
    exact ⟨s, rfl, h, rfl, rfl, rfl, fun j => by simp⟩
  | succ k ih =>
    intro s hr h
    unfold split_loop
    by_cases hlt : r < k + 1
    · rw [if_pos hlt]
      obtain ⟨s1, e1, h1, hu1, hnu1, hM1, hnf1⟩ := h.split_round
      rw [e1]
      obtain ⟨s2, e2, h2, hu2, hnu2, hM2, hnf2⟩ := ih s1 (by omega) h1
      refine ⟨s2, e2, h2, hu2.trans hu1, hnu2.trans hnu1, hM2.trans hM1, ?_⟩
      intro j
      rw [hnf2, hnf1]
      by_cases hj1 : j = k
      · subst hj1
        split_ifs <;> omega
      · by_cases hj2 : j = k + 1
        · subst hj2
          split_ifs <;> omega
        · split_ifs <;> omega
    · rw [if_neg hlt]
      have : r = k + 1 := by omega
      subst this
      exact ⟨s, rfl, h, rfl, rfl, rfl, fun j => by simp⟩

/-! ## `my_malloc` -/

/-- Function `my_malloc` returns `NULL` and keeps the state when no class from the required
one up to `max_pow2` has a free block. -/
theorem my_malloc_null {L : Nat} {s : memory_manager_state} (c : Core L s) (n : Nat)
    (h : ∀ k, smallest_block n ≤ k → k ≤ s.max_pow2 → s.num_free k = 0) :
    my_malloc s n = some (none, s) := by
  unfold my_malloc
  by_cases hn : n = 0
  · rw [if_pos hn]
  · rw [if_neg hn]
    have : find_best_free s.num_free s.max_pow2 (s.max_pow2 - smallest_block n)
        (smallest_block n) = none := by
      refine find_best_free_none _ _ _ _ rfl ?_
      intro j hj1 hj2
      by_cases hjM : j ≤ s.max_pow2
      · exact h j hj1 hjM
      · rw [c.cnt_free, c.free_eq_nil (by omega)]; rfl
    simp only [this]

/-- Function `my_malloc` with `k` the first class from the required one on that has a free
block. -/
theorem my_malloc_ok {L : Nat} {s : memory_manager_state} (hinv : Inv L s) {n k : Nat}
    (hn : n ≠ 0) (hr : smallest_block n ≤ k) (hk : k ≤ s.max_pow2) (hnz : s.num_free k ≠ 0)
    (hz : ∀ j, smallest_block n ≤ j → j < k → s.num_free j = 0) :
    ∃ b s1, my_malloc s n = some (some (b + sizeof_Block), s1) ∧ Inv L s1 ∧
      s1.max_pow2 = s.max_pow2 ∧ s1.size_pow2 b = smallest_block n ∧
      (∀ j, b ∉ s.used j) ∧
      (∀ j, s1.used j = if j = smallest_block n then b :: s.used j else s.used j) ∧
      (∀ j, s1.num_used j = if j = smallest_block n then s.num_used j + 1
        else s.num_used j) ∧
      (∀ j, s1.num_free j = s.num_free j + (if smallest_block n ≤ j ∧ j < k then 1 else 0) -
        if j = k then 1 else 0) := by
  have c := hinv.1
  have hfind : find_best_free s.num_free s.max_pow2 (s.max_pow2 - smallest_block n)
      (smallest_block n) = some k :=
    find_best_free_some _ _ _ _ k rfl hr (Or.inl hk) hnz hz
  obtain ⟨s1, e1, h1, hu1, hnu1, hM1, hnf1⟩ :=
    InvP.split_down (smallest_block n) k s hr (hinv.toInvP (c.free_ne_nil hnz))
  obtain ⟨b, s2, e2, h2, hb, hM2, hh2, hnf2, hu2, hnu2⟩ := h1.alloc_last
  refine ⟨b, s2, ?_, h2, hM2.trans hM1, ?_, ?_, ?_, ?_, ?_⟩
  · unfold my_malloc
    rw [if_neg hn]
    simp only [hfind, e1, e2]
  · exact h2.1.hdr _ _ (Or.inr (by rw [hu2, if_pos rfl]; exact List.mem_cons_self _ _))
  · intro j hj
    rw [← hu1] at hj
    have hB : IsBlk s1 (smallest_block n) b := Or.inl hb
    have := h1.core.class_unique hB (Or.inr hj)
    subst this
    exact h1.core.not_free_and_used hb hj
  · intro j
    rw [hu2, hu1]
    by_cases hj : j = smallest_block n
    · subst hj; simp
    · simp [hj]
  · intro j
    rw [hnu2, hnu1]
    by_cases hj : j = smallest_block n
    · subst hj; simp
    · simp [hj]
  · intro j
    by_cases hj : j = smallest_block n
    · subst hj
      rw [hnf2, if_pos rfl, hnf1]
      by_cases hjk : smallest_block n = k
      · rw [← hjk]; split_ifs <;> omega
      · split_ifs <;> omega
    · rw [hnf2, if_neg hj, hnf1]
      by_cases hjk : j = k
      · subst hjk; split_ifs <;> omega
      · split_ifs <;> omega

/-- Function `my_malloc` returns in every state with the invariant. -/
theorem my_malloc_cases {L : Nat} {s : memory_manager_state} (hinv : Inv L s) (n : Nat) :
    (my_malloc s n = some (none, s) ∧
      (n = 0 ∨ ∀ k, smallest_block n ≤ k → k ≤ s.max_pow2 → s.num_free k = 0)) ∨
    (n ≠ 0 ∧ ∃ k, smallest_block n ≤ k ∧ k ≤ s.max_pow2 ∧ s.num_free k ≠ 0 ∧
      (∀ j, smallest_block n ≤ j → j < k → s.num_free j = 0)) := by
  by_cases hn : n = 0
  · left; subst hn; exact ⟨rfl, Or.inl rfl⟩
  · by_cases hex : ∃ k, smallest_block n ≤ k ∧ k ≤ s.max_pow2 ∧ s.num_free k ≠ 0
    · right
      refine ⟨hn, Nat.find hex, (Nat.find_spec hex).1, (Nat.find_spec hex).2.1,
        (Nat.find_spec hex).2.2, ?_⟩
      intro j hj1 hj2
      by_contra hc
      exact Nat.find_min hex hj2 ⟨hj1, by have := (Nat.find_spec hex).2.1; omega, hc⟩
    · left
      have hz : ∀ k, smallest_block n ≤ k → k ≤ s.max_pow2 → s.num_free k = 0 := by
        intro k h1 h2
        by_contra hc
        exact hex ⟨k, h1, h2, hc⟩
      exact ⟨my_malloc_null hinv.1 n hz, Or.inr hz⟩

/-! ## `my_free` -/

/-- The scan of `try_defrag` over blocks whose headers carry class `k`. -/
theorem defrag_scan_spec (head k : Nat) :
    ∀ (next : List Nat) (s : memory_manager_state), s.size_pow2 head = k →
      (∀ x, x ∈ next → s.size_pow2 x = k) →
      (defrag_scan head next s = none ∧ ∀ trav, trav ∈ next →
        ¬ (2 ^ (k + 1) ∣ min trav head ∧ min trav head + 2 ^ k = max trav head)) ∨
      (∃ trav s1, trav ∈ next ∧ defrag_scan head next s = some s1 ∧
        try_merge s trav head = (true, s1)) := by
  intro next
  induction next with
  | nil => intro s _ _; left; exact ⟨rfl, fun _ h => absurd h (List.not_mem_nil _)⟩
  | cons trav rest ih =>
    intro s hh hx
    rcases try_merge_spec s trav head k (hx trav (List.mem_cons_self _ _)) hh with
      ⟨hno, e⟩ | ⟨_, _, s1, e, _⟩
    · rcases ih s hh (fun x h => hx x (List.mem_cons_of_mem _ h)) with ⟨e1, h1⟩ | ⟨t, s1, ht, e1, e2⟩
      · left
        refine ⟨by simp only [defrag_scan, e, e1], ?_⟩
        intro t ht
        rcases List.mem_cons.mp ht with rfl | ht
        · exact hno
        · exact h1 t ht
      · right
        exact ⟨t, s1, List.mem_cons_of_mem _ ht, by simp only [defrag_scan, e, e1], e2⟩
    · right
      exact ⟨trav, s1, List.mem_cons_self _ _, by simp only [defrag_scan, e], e⟩

/-- Function `try_defrag` restores the buddy condition and stays inside the arrays. -/
theorem InvP.defrag {L : Nat} :
    ∀ room k (s : memory_manager_state), room + k = MAX_OS_POW2 → InvP L s k →
      ∃ s1, try_defrag_from room k s = some s1 ∧ Inv L s1 ∧ s1.used = s.used ∧
        s1.num_used = s.num_used ∧ s1.max_pow2 = s.max_pow2 := by
  intro room
  induction room with
  | zero =>
    intro k s hk h
    exfalso
    obtain ⟨c, hne, _, _⟩ := h
    obtain ⟨b, rest, hfree⟩ := List.exists_cons_of_ne_nil hne
    have : k < 32 := c.class_lt (Or.inl (by rw [hfree]; exact List.mem_cons_self _ _))
    unfold MAX_OS_POW2 at hk
    omega
  | succ room ih =>
    intro k s hk h
    obtain ⟨c, hne, htail, hrest⟩ := h
    obtain ⟨head, next, hfree⟩ := List.exists_cons_of_ne_nil hne
    have hhead : head ∈ s.free k := by rw [hfree]; exact List.mem_cons_self _ _
    have hnext : ∀ x, x ∈ next → x ∈ s.free k := fun x hx => by
      rw [hfree]; exact List.mem_cons_of_mem _ hx
    have hpos : 0 < 2 ^ k := by positivity
    rw [hfree, List.tail_cons] at htail
    -- without a buddy of the head the invariant holds
    have hdone : (∀ trav, trav ∈ next →
        ¬ (2 ^ (k + 1) ∣ min trav head ∧ min trav head + 2 ^ k = max trav head)) →
        Inv L s := by
      intro hno
      refine ⟨c, fun j => ?_⟩
      by_cases hj : j = k
      · subst hj
        rw [hfree]
        intro a ha ha1 hdiv
        rcases List.mem_cons.mp ha with rfl | ha
        · rcases List.mem_cons.mp ha1 with e1 | ha1
          · omega
          · refine hno _ ha1 ?_
            rw [min_eq_right (by omega), max_eq_left (by omega)]
            exact ⟨hdiv, rfl⟩
        · rcases List.mem_cons.mp ha1 with e1 | ha1
          · refine hno _ ha ?_
            rw [min_eq_left (by omega), max_eq_right (by omega)]
            exact ⟨hdiv, e1⟩
          · exact htail a ha ha1 hdiv
      · exact hrest j hj
    unfold try_defrag_from
    by_cases h2 : 2 ≤ s.num_free k
    · rw [if_pos h2]
      simp only [hfree]
      rcases defrag_scan_spec head k next s (c.hdr k head (Or.inl hhead))
        (fun x hx => c.hdr k x (Or.inl (hnext x hx))) with ⟨e, hno⟩ | ⟨trav, s1, ht, e, et⟩
      · simp only [e]
        exact ⟨s, rfl, hdone hno, rfl, rfl, rfl⟩
      · simp only [e]
        rcases try_merge_spec s trav head k (c.hdr k trav (Or.inl (hnext trav ht)))
          (c.hdr k head (Or.inl hhead)) with ⟨_, e1⟩ | ⟨hal, hadj, s2, e2, hm, hM, hu, hnu, hf, hnf, hh⟩
        · rw [e1] at et
          exact absurd (congrArg Prod.fst et) (by simp)
        · rw [e2] at et
          have : s2 = s1 := congrArg Prod.snd et
          subst this
          have hlo : min trav head ∈ s.free k := by
            rcases min_choice trav head with h | h <;> rw [h]
            · exact hnext trav ht
            · exact hhead
          have hhi : max trav head ∈ s.free k := by
            rcases max_choice trav head with h | h <;> rw [h]
            · exact hnext trav ht
            · exact hhead
          have c2 : Core L s2 := c.merge_step hlo hhi hal hadj hm hM hu hnu hf hnf hh
          have hndf : (s.free k).Nodup := (List.nodup_append.mp (c.nodup k)).1
          have hP : InvP L s2 (k + 1) := by
            refine ⟨c2, ?_, ?_, ?_⟩
            · rw [hf, if_pos rfl]; exact List.cons_ne_nil _ _
            · rw [hf, if_pos rfl, List.tail_cons]
              exact hrest (k + 1) (by omega)
            · intro j hj
              rw [hf, if_neg hj]
              by_cases hjk : j = k
              · subst hjk
                rw [if_pos rfl]
                refine htail.sub ?_
                intro x hx
                rw [(hndf.erase _).mem_erase_iff, hndf.mem_erase_iff] at hx
                obtain ⟨hx1, hx2, hx3⟩ := hx
                rw [hfree] at hx3
                rcases List.mem_cons.mp hx3 with e3 | hx3
                · exfalso
                  rcases le_total trav head with hle | hle
                  · rw [max_eq_right hle] at hx1; exact hx1 e3
                  · rw [min_eq_right hle] at hx2; exact hx2 e3
                · exact hx3
              · rw [if_neg hjk]; exact hrest j hjk
          obtain ⟨s3, e3, h3, hu3, hnu3, hM3⟩ := ih (k + 1) s2 (by omega) hP
          exact ⟨s3, e3, h3, hu3.trans hu, hnu3.trans hnu, hM3.trans hM⟩
    · rw [if_neg h2]
      refine ⟨s, rfl, hdone ?_, rfl, rfl, rfl⟩
      intro trav ht
      exfalso
      rw [c.cnt_free, hfree] at h2
      obtain ⟨x, rest, rfl⟩ := List.exists_cons_of_ne_nil (List.ne_nil_of_mem ht)
      simp at h2
      omega

/-- Function `my_free` on the payload pointer of a block of a used list. -/
theorem my_free_spec {L : Nat} {s : memory_manager_state} (hinv : Inv L s) {k d : Nat}
    (hd : d ∈ s.used k) :
    ∃ s1, my_free s (some (d + sizeof_Block)) = some s1 ∧ Inv L s1 ∧
      s1.max_pow2 = s.max_pow2 ∧
      (∀ j, s1.used j = if j = k then (s.used j).erase d else s.used j) ∧
      (∀ j, s1.num_used j = if j = k then s.num_used j - 1 else s.num_used j) := by
  have c := hinv.1
  have hk : s.size_pow2 d = k := c.hdr k d (Or.inr hd)
  obtain ⟨s1, e, hm, hM, hh, hf, hnf, hu, hnu⟩ := free_block_spec s d
  rw [hk] at e hf hnf hu hnu
  have c1 : Core L s1 := c.release_step hd hm hM hh hf hnf hu hnu
  have hP : InvP L s1 k := by
    refine ⟨c1, ?_, ?_, ?_⟩
    · rw [hf, if_pos rfl]; exact List.cons_ne_nil _ _
    · rw [hf, if_pos rfl, List.tail_cons]; exact hinv.2 k
    · intro j hj
      rw [hf, if_neg hj]; exact hinv.2 j
  have hlt : k < 32 := c.class_lt (Or.inr hd)
  obtain ⟨s2, e2, h2, hu2, hnu2, hM2⟩ :=
    InvP.defrag (MAX_OS_POW2 - k) k s1 (by unfold MAX_OS_POW2; omega) hP
  refine ⟨s2, ?_, h2, hM2.trans hM, ?_, ?_⟩
  · unfold my_free
    simp only [Nat.add_sub_cancel]
    rw [e]
    exact e2
  · intro j; rw [hu2]; exact hu j
  · intro j; rw [hnu2]; exact hnu j

/-! ## `mem_init` -/

/-- The cursor of `split_initial_memory` after the round for bit `i + 1`. -/
theorem cursor_step (L i : Nat) :
    L / 2 ^ (i + 1) * 2 ^ (i + 1) =
      L / 2 ^ (i + 2) * 2 ^ (i + 2) + if L.testBit (i + 1) = true then 2 ^ (i + 1) else 0 := by
  have e : L / 2 ^ (i + 2) = L / 2 ^ (i + 1) / 2 := by
    rw [pow_succ 2 (i + 1), Nat.div_div_eq_div_mul]
  rw [e, Nat.testBit_to_div_mod]
  generalize L / 2 ^ (i + 1) = q
  have hp : 2 ^ (i + 2) = 2 * 2 ^ (i + 1) := by rw [pow_succ 2 (i + 1)]; ring
  rw [hp]
  generalize 2 ^ (i + 1) = m
  rcases Nat.mod_two_eq_zero_or_one q with h | h
  · have hq : q = 2 * (q / 2) := by omega
    simp only [h]
    simp only [show ¬ ((0 : Nat) = 1) by omega, decide_False, Bool.false_eq_true, if_false,
      add_zero]
    conv_lhs => rw [hq]
    ring
  · have hq : q = 2 * (q / 2) + 1 := by omega
    simp only [h, decide_True, if_true]
    conv_lhs => rw [hq]
    ring

/-- Up to index 31 the loop test `(1 << i) > sizeof(Block)` is the test `2 ^ i > sizeof(Block)`. -/
theorem shl_int_gt_header {j : Nat} (hj : j ≤ 31) :
    sizeof_Block < shl_int j ↔ sizeof_Block < 2 ^ j := by
  by_cases h : j = 31
  · subst h
    rw [shl_int_31]
    unfold sizeof_Block
    norm_num
  · rw [shl_int_of_le (by omega)]

/-- The mask `1 << 31` as a `size_t` has the bits 31 to 63. -/
theorem testBit_int_min (j : Nat) :
    (2 ^ 64 - 2 ^ 31 : Nat).testBit j = (decide (31 ≤ j) && decide (j < 64)) := by
  have e : (2 ^ 64 - 2 ^ 31 : Nat) = 2 ^ 31 * (2 ^ 33 - 1) := by norm_num
  rw [e, Nat.testBit_mul_pow_two, Nat.testBit_two_pow_sub_one]
  by_cases h1 : 31 ≤ j
  · by_cases h2 : j < 64
    · simp [h1, h2]; omega
    · simp [h1, h2]; omega
  · simp [h1]

/-- On a length below `2 ^ 32` the test `state.mem_size & (1 << i)` reads bit `i`, also at
`i = 31`. -/
theorem and_shl_int_ne_zero {L j : Nat} (hL : L < 2 ^ 32) (hj : j ≤ 31) :
    L &&& shl_int j ≠ 0 ↔ L.testBit j = true := by
  by_cases h : j = 31
  · subst h
    rw [shl_int_31]
    have e : L &&& (2 ^ 64 - 2 ^ 31) = L &&& 2 ^ 31 := by
      apply Nat.eq_of_testBit_eq
      intro k
      rw [Nat.testBit_and, Nat.testBit_and, testBit_int_min, Nat.testBit_two_pow]
      by_cases hk : k = 31
      · subst hk; simp
      · by_cases hk1 : k < 31
        · have h1 : ¬ 31 ≤ k := by omega
          have h2 : ¬ 31 = k := by omega
          simp [h1, h2]
        · have hb : L.testBit k = false :=
            Nat.testBit_lt_two_pow
              (lt_of_lt_of_le hL (Nat.pow_le_pow_right (by norm_num) (by omega)))
          simp [hb]
    rw [e]
    exact and_two_pow_ne_zero L 31
  · rw [shl_int_of_le (by omega)]
    exact and_two_pow_ne_zero L j

/-- The cursor of `split_initial_memory` after the round for bit `i + 1`: the step
`mem += (1 << (i + 1))` on a pointer of 64 bits. -/
theorem init_offset_step {L i : Nat} (hL : L < 2 ^ 32) (hi : i + 1 ≤ 31) :
    init_offset L i =
      if L.testBit (i + 1) = true then (init_offset L (i + 1) + shl_int (i + 1)) % 2 ^ 64
      else init_offset L (i + 1) := by
  have hstep : L / 2 ^ (i + 1) * 2 ^ (i + 1) = L / 2 ^ (i + 1 + 1) * 2 ^ (i + 1 + 1) +
      if L.testBit (i + 1) = true then 2 ^ (i + 1) else 0 := cursor_step L i
  have hle : L / 2 ^ (i + 1) * 2 ^ (i + 1) ≤ L := Nat.div_mul_le_self L _
  have hle1 : L / 2 ^ (i + 1 + 1) * 2 ^ (i + 1 + 1) ≤ L := Nat.div_mul_le_self L _
  by_cases h31 : i + 1 = 31
  · have hi30 : i = 30 := by omega
    subst hi30
    have h0 : L / 2 ^ (30 + 2) * 2 ^ (30 + 2) = 0 := by
      rw [Nat.div_eq_of_lt (by simpa using hL)]; simp
    rw [h0, zero_add] at hstep
    have e31 : init_offset L (30 + 1) = 0 := by
      rw [init_offset_low (by omega)]
      exact h0
    rw [e31, zero_add, shl_int_31]
    by_cases hb : L.testBit (30 + 1) = true
    · rw [if_pos hb] at hstep ⊢
      rw [init_offset_wrap ⟨hb, by omega⟩, hstep]
      norm_num
    · rw [if_neg hb] at hstep ⊢
      rw [init_offset_low (fun h => hb h.1), hstep]
  · rw [shl_int_of_le (by omega)]
    by_cases hw : L.testBit 31 = true
    · rw [init_offset_wrap ⟨hw, by omega⟩, init_offset_wrap ⟨hw, by omega⟩, hstep]
      by_cases hb : L.testBit (i + 1) = true
      · rw [if_pos hb] at hstep ⊢
        rw [if_pos hb, Nat.mod_eq_of_lt (by omega)]
        omega
      · rw [if_neg hb, if_neg hb, add_zero]
    · rw [init_offset_low (fun h => hw h.1), init_offset_low (fun h => hw h.1), hstep]
      by_cases hb : L.testBit (i + 1) = true
      · rw [if_pos hb] at hstep ⊢
        rw [if_pos hb, Nat.mod_eq_of_lt (by omega)]
      · rw [if_neg hb, if_neg hb, add_zero]

/-- The cursor of `split_initial_memory` only moves up in the order of the offsets: the
step back by `2 ^ 31` from offset 0 leads to the offset `2 ^ 64 - 2 ^ 31`. -/
theorem init_offset_lt_next {L i : Nat} (hi : i + 1 ≤ 31)
    (hb : L.testBit (i + 1) = true) : init_offset L (i + 1) < init_offset L i := by
  have hstep : L / 2 ^ (i + 1) * 2 ^ (i + 1) = L / 2 ^ (i + 1 + 1) * 2 ^ (i + 1 + 1) +
      if L.testBit (i + 1) = true then 2 ^ (i + 1) else 0 := cursor_step L i
  rw [if_pos hb] at hstep
  have hpos : 0 < 2 ^ (i + 1) := by positivity
  have hle : L / 2 ^ (i + 1) * 2 ^ (i + 1) ≤ L := Nat.div_mul_le_self L _
  by_cases h31 : i + 1 = 31
  · have hi30 : i = 30 := by omega
    subst hi30
    rw [init_offset_low (by omega), init_offset_wrap ⟨hb, by omega⟩]
    omega
  · by_cases hw : L.testBit 31 = true
    · rw [init_offset_wrap ⟨hw, by omega⟩, init_offset_wrap ⟨hw, by omega⟩]
      omega
    · rw [init_offset_low (fun h => hw h.1), init_offset_low (fun h => hw h.1)]
      omega

/-- Closed form of the loop of `split_initial_memory`. -/
theorem split_initial_loop_spec (L : Nat) (hL : L < 2 ^ 32) :
    ∀ i mem (s : memory_manager_state), i ≤ 31 → s.mem_size = L → mem = init_offset L i →
      (split_initial_loop i mem s).mem_size = L ∧
      (split_initial_loop i mem s).max_pow2 = s.max_pow2 ∧
      (split_initial_loop i mem s).used = s.used ∧
      (split_initial_loop i mem s).num_used = s.num_used ∧
      (∀ j, (split_initial_loop i mem s).free j =
        if j ≤ i ∧ L.testBit j = true ∧ sizeof_Block < 2 ^ j
        then init_offset L j :: s.free j else s.free j) ∧
      (∀ j, (split_initial_loop i mem s).num_free j =
        if j ≤ i ∧ L.testBit j = true ∧ sizeof_Block < 2 ^ j
        then s.num_free j + 1 else s.num_free j) ∧
      (∀ d, d < mem → (split_initial_loop i mem s).size_pow2 d = s.size_pow2 d) ∧
      (∀ j D, j ≤ i → InitBlk L j D → (split_initial_loop i mem s).size_pow2 D = j) := by
  intro i
  induction i with
  | zero =>
    intro mem s _ hs hmem
    have h0 : ¬ sizeof_Block < 2 ^ 0 := by unfold sizeof_Block; norm_num
    refine ⟨hs, rfl, rfl, rfl, ?_, ?_, fun _ _ => rfl, ?_⟩
    · intro j
      rw [if_neg]; · rfl
      rintro ⟨hj, _, h⟩
      have : j = 0 := by omega
      subst this; exact h0 h
    · intro j
      rw [if_neg]; · rfl
      rintro ⟨hj, _, h⟩
      have : j = 0 := by omega
      subst this; exact h0 h
    · intro j D hj h
      have : j = 0 := by omega
      subst this; exact absurd h.2.1 h0
  | succ i ih =>
    intro mem s hi hs hmem
    have hmono : ∀ j, j ≤ i + 1 → sizeof_Block < 2 ^ j → sizeof_Block < 2 ^ (i + 1) :=
      fun j hj h => lt_of_lt_of_le h (Nat.pow_le_pow_right (by norm_num) hj)
    unfold split_initial_loop
    by_cases hH : sizeof_Block < 2 ^ (i + 1)
    · rw [if_pos ((shl_int_gt_header hi).mpr hH)]
      have hcur := init_offset_step hL hi
      by_cases hbit : L.testBit (i + 1) = true
      · rw [if_pos (by rw [hs]; exact (and_shl_int_ne_zero hL hi).mpr hbit)]
        rw [if_pos hbit] at hcur
        have hpos : mem < (mem + shl_int (i + 1)) % 2 ^ 64 := by
          rw [hmem, ← hcur]
          exact init_offset_lt_next hi hbit
        obtain ⟨h1, h2, h3, h4, h5, h6, h7, h8⟩ :=
          ih ((mem + shl_int (i + 1)) % 2 ^ 64) (push_new_block s mem (i + 1)) (by omega) hs
            (by rw [hcur, hmem])
        refine ⟨h1, h2, h3, h4, ?_, ?_, ?_, ?_⟩
        · intro j
          rw [h5]
          by_cases hj : j = i + 1
          · subst hj
            rw [if_neg (by omega), if_pos ⟨le_refl _, hbit, hH⟩, ← hmem]
            simp [push_new_block]
          · have e : (push_new_block s mem (i + 1)).free j = s.free j := by
              simp [push_new_block, set_at_apply, hj]
            rw [e]
            by_cases hc : j ≤ i ∧ L.testBit j = true ∧ sizeof_Block < 2 ^ j
            · rw [if_pos hc, if_pos ⟨by omega, hc.2⟩]
            · rw [if_neg hc, if_neg (fun h => hc ⟨by omega, h.2⟩)]
        · intro j
          rw [h6]
          by_cases hj : j = i + 1
          · subst hj
            rw [if_neg (by omega), if_pos ⟨le_refl _, hbit, hH⟩]
            simp [push_new_block]
          · have e : (push_new_block s mem (i + 1)).num_free j = s.num_free j := by
              simp [push_new_block, set_at_apply, hj]
            rw [e]
            by_cases hc : j ≤ i ∧ L.testBit j = true ∧ sizeof_Block < 2 ^ j
            · rw [if_pos hc, if_pos ⟨by omega, hc.2⟩]
            · rw [if_neg hc, if_neg (fun h => hc ⟨by omega, h.2⟩)]
        · intro d hd
          rw [h7 d (by omega)]
          simp only [push_new_block, set_at_apply]
          rw [if_neg (by omega)]
        · intro j D hj hI
          by_cases hj1 : j = i + 1
          · subst hj1
            have : D = mem := by rw [hI.2.2, hmem]
            subst this
            rw [h7 D (by omega)]
            simp [push_new_block]
          · exact h8 j D (by omega) hI
      · rw [if_neg (by rw [hs]; exact fun h => hbit ((and_shl_int_ne_zero hL hi).mp h))]
        rw [if_neg hbit] at hcur
        obtain ⟨h1, h2, h3, h4, h5, h6, h7, h8⟩ := ih mem s (by omega) hs (by rw [hcur, hmem])
        refine ⟨h1, h2, h3, h4, ?_, ?_, h7, ?_⟩
        · intro j
          rw [h5]
          by_cases hc : j ≤ i ∧ L.testBit j = true ∧ sizeof_Block < 2 ^ j
          · rw [if_pos hc, if_pos ⟨by omega, hc.2⟩]
          · rw [if_neg hc, if_neg]
            rintro ⟨hj, hb, hh⟩
            by_cases hj1 : j = i + 1
            · subst hj1; exact hbit hb
            · exact hc ⟨by omega, hb, hh⟩
        · intro j
          rw [h6]
          by_cases hc : j ≤ i ∧ L.testBit j = true ∧ sizeof_Block < 2 ^ j
          · rw [if_pos hc, if_pos ⟨by omega, hc.2⟩]
          · rw [if_neg hc, if_neg]
            rintro ⟨hj, hb, hh⟩
            by_cases hj1 : j = i + 1
            · subst hj1; exact hbit hb
            · exact hc ⟨by omega, hb, hh⟩
        · intro j D hj hI
          by_cases hj1 : j = i + 1
          · subst hj1; exact absurd hI.1 hbit
          · exact h8 j D (by omega) hI
    · rw [if_neg (fun h => hH ((shl_int_gt_header hi).mp h))]
      refine ⟨hs, rfl, rfl, rfl, ?_, ?_, fun _ _ => rfl, ?_⟩
      · intro j
        rw [if_neg]
        rintro ⟨hj, _, h⟩
        exact hH (hmono j hj h)
      · intro j
        rw [if_neg]
        rintro ⟨hj, _, h⟩
        exact hH (hmono j hj h)
      · intro j D hj h
        exact absurd (hmono j hj h.2.1) hH

/-- Closed form of the state after `mem_init`. -/
theorem mem_init_spec (L : Nat) (hL : L < 2 ^ 32) :
    (mem_init L).mem_size = L ∧ (mem_init L).max_pow2 = Nat.log2 L ∧
      (∀ j, (mem_init L).used j = []) ∧ (∀ j, (mem_init L).num_used j = 0) ∧
      (∀ j, (mem_init L).free j =
        if L.testBit j = true ∧ sizeof_Block < 2 ^ j then [init_offset L j] else []) ∧
      (∀ j, (mem_init L).num_free j =
        if L.testBit j = true ∧ sizeof_Block < 2 ^ j then 1 else 0) ∧
      (∀ j D, InitBlk L j D → (mem_init L).size_pow2 D = j) := by
  have hlog : Nat.log2 L ≤ 31 := by
    have := log2_lt_32 hL
    omega
  have hcur : (0 : Nat) = init_offset L (Nat.log2 L) := by
    have h0 : L / 2 ^ (Nat.log2 L + 1) * 2 ^ (Nat.log2 L + 1) = 0 := by
      rw [Nat.div_eq_of_lt Nat.lt_log2_self]; simp
    by_cases hw : L.testBit 31 = true ∧ Nat.log2 L < 31
    · exfalso
      have h1 := Nat.testBit_implies_ge hw.1
      have h2 : L ≠ 0 := by omega
      have := (Nat.le_log2 h2).mpr h1
      omega
    · rw [init_offset_low hw, h0]
  obtain ⟨h1, h2, h3, h4, h5, h6, _, h8⟩ := split_initial_loop_spec L hL (Nat.log2 L) 0
    { mem_size := L
      max_pow2 := Nat.log2 L
      free := fun _ => []
      used := fun _ => []
      num_free := fun _ => 0
      num_used := fun _ => 0
      size_pow2 := fun _ => 0 } hlog rfl hcur
  have hle : ∀ j, L.testBit j = true → j ≤ Nat.log2 L := by
    intro j hj
    have h1 := Nat.testBit_implies_ge hj
    have h2 : L ≠ 0 := by
      have : 0 < 2 ^ j := by positivity
      omega
    exact (Nat.le_log2 h2).mpr h1
  have e : mem_init L = split_initial_loop (Nat.log2 L) 0
      { mem_size := L
        max_pow2 := Nat.log2 L
        free := fun _ => []
        used := fun _ => []
        num_free := fun _ => 0
        num_used := fun _ => 0
        size_pow2 := fun _ => 0 } := by
    unfold mem_init split_initial_memory
    simp only [mem_init_max_pow2_loop]
  rw [e]
  refine ⟨h1, h2, fun j => by rw [h3], fun j => by rw [h4], ?_, ?_, ?_⟩
  · intro j
    rw [h5]
    by_cases hc : L.testBit j = true ∧ sizeof_Block < 2 ^ j
    · rw [if_pos hc, if_pos ⟨hle j hc.1, hc⟩]
    · rw [if_neg hc, if_neg (fun h => hc h.2)]
  · intro j
    rw [h6]
    by_cases hc : L.testBit j = true ∧ sizeof_Block < 2 ^ j
    · rw [if_pos hc, if_pos ⟨hle j hc.1, hc⟩]; rfl
    · rw [if_neg hc, if_neg (fun h => hc h.2)]
  · intro j D hI
    exact h8 j D hI.le_log2 hI

theorem mem_init_isBlk (L : Nat) (hL : L < 2 ^ 32) (k d : Nat) :
    IsBlk (mem_init L) k d ↔ InitBlk L k d := by
  obtain ⟨_, _, hu, _, hf, _, _⟩ := mem_init_spec L hL
  unfold IsBlk InitBlk
  rw [hu, hf]
  by_cases hc : L.testBit k = true ∧ sizeof_Block < 2 ^ k
  · rw [if_pos hc]
    simp only [List.mem_singleton, List.not_mem_nil, or_false]
    tauto
  · rw [if_neg hc]
    simp only [List.not_mem_nil, or_false, false_iff]
    tauto

/-- The state after `mem_init` satisfies the invariant. -/
theorem mem_init_inv {L : Nat} (hL : L < 2 ^ 32) : Inv L (mem_init L) := by
  obtain ⟨hm, hM, hu, hnu, hf, hnf, hh⟩ := mem_init_spec L hL
  refine ⟨⟨hL, hm, hM, ?_, ?_, ?_, ?_, (geo_init L).congr (mem_init_isBlk L hL), ?_⟩, ?_⟩
  · intro k
    rw [hnf, hf]
    split_ifs <;> rfl
  · intro k
    rw [hnu, hu]; rfl
  · intro k
    rw [hu, hf]
    split_ifs <;> simp
  · intro k d hb
    exact hh k d ((mem_init_isBlk L hL k d).mp hb)
  · unfold total_bytes usable_bytes
    refine Finset.sum_congr rfl (fun k _ => ?_)
    rw [hnf, hnu]
    split_ifs <;> simp
  · intro k a ha ha1 _
    rw [hf] at ha ha1
    have hpos : 0 < 2 ^ k := by positivity
    split_ifs at ha ha1
    · rw [List.mem_singleton] at ha ha1
      omega
    · exact absurd ha (List.not_mem_nil _)

/-! ## Reachable states -/

/-- The result of `my_malloc` in a state with the invariant. -/
theorem my_malloc_result {L : Nat} {s s1 : memory_manager_state} (hinv : Inv L s) {n : Nat}
    {res : Option Nat} (h : my_malloc s n = some (res, s1)) :
    (res = none ∧ s1 = s) ∨
    (∃ b k, res = some (b + sizeof_Block) ∧ n ≠ 0 ∧ smallest_block n ≤ k ∧ k ≤ s.max_pow2 ∧
      s.num_free k ≠ 0 ∧ (∀ j, smallest_block n ≤ j → j < k → s.num_free j = 0) ∧
      Inv L s1 ∧ s1.max_pow2 = s.max_pow2 ∧ s1.size_pow2 b = smallest_block n ∧
      (∀ j, b ∉ s.used j) ∧
      (∀ j, s1.used j = if j = smallest_block n then b :: s.used j else s.used j) ∧
      (∀ j, s1.num_used j = if j = smallest_block n then s.num_used j + 1
        else s.num_used j) ∧
      (∀ j, s1.num_free j = s.num_free j + (if smallest_block n ≤ j ∧ j < k then 1 else 0) -
        if j = k then 1 else 0)) := by
  rcases my_malloc_cases hinv n with ⟨e, _⟩ | ⟨hn, k, hr, hk, hnz, hz⟩
  · rw [e] at h
    left
    simp only [Option.some.injEq, Prod.mk.injEq] at h
    exact ⟨h.1.symm, h.2.symm⟩
  · obtain ⟨b, s2, e, h2⟩ := my_malloc_ok hinv hn hr hk hnz hz
    rw [e] at h
    simp only [Option.some.injEq, Prod.mk.injEq] at h
    obtain ⟨e1, e2⟩ := h
    subst e2
    right
    exact ⟨b, k, e1.symm, hn, hr, hk, hnz, hz, h2⟩

/-- Every reachable state satisfies the invariant, and the outstanding pointers are the
payloads of the used blocks. -/
theorem Reach.inv {L : Nat} {s : memory_manager_state} {out : List Nat} (h : Reach L s out) :
    Inv L s ∧ OutInv s out := by
  induction h with
  | init hL =>
    refine ⟨mem_init_inv hL, List.nodup_nil, fun p => ?_⟩
    obtain ⟨_, _, hu, _⟩ := mem_init_spec L hL
    constructor
    · intro hp; exact absurd hp (List.not_mem_nil _)
    · rintro ⟨k, d, hd, _⟩
      rw [hu] at hd
      exact absurd hd (List.not_mem_nil _)
  | @malloc_ok s s1 out n p _ hm ih =>
    obtain ⟨hinv, hnd, hout⟩ := ih
    rcases my_malloc_result hinv hm with ⟨e, _⟩ | ⟨b, k, e, _, _, _, _, _, h1, _, _, hb, hu, _⟩
    · exact absurd e (by simp)
    · have hp : p = b + sizeof_Block := by simpa using e
      subst hp
      refine ⟨h1, ?_, ?_⟩
      · refine List.nodup_cons.mpr ⟨?_, hnd⟩
        intro hmem
        obtain ⟨k1, d, hd, e1⟩ := (hout _).mp hmem
        have : d = b := by omega
        subst this
        exact hb k1 hd
      · intro q
        rw [List.mem_cons, hout]
        constructor
        · rintro (rfl | ⟨k1, d, hd, rfl⟩)
          · exact ⟨smallest_block n, b, by rw [hu, if_pos rfl]; exact List.mem_cons_self _ _,
              rfl⟩
          · refine ⟨k1, d, ?_, rfl⟩
            rw [hu]
            split_ifs
            · exact List.mem_cons_of_mem _ hd
            · exact hd
        · rintro ⟨k1, d, hd, rfl⟩
          rw [hu] at hd
          split_ifs at hd
          · rcases List.mem_cons.mp hd with rfl | hd
            · exact Or.inl rfl
            · exact Or.inr ⟨k1, d, hd, rfl⟩
          · exact Or.inr ⟨k1, d, hd, rfl⟩
  | @malloc_null s s1 out n _ hm ih =>
    obtain ⟨hinv, hout⟩ := ih
    rcases my_malloc_result hinv hm with ⟨_, e⟩ | ⟨b, k, e, _⟩
    · rw [e]; exact ⟨hinv, hout⟩
    · exact absurd e (by simp)
  | @free_ptr s s1 out p _ hp hf ih =>
    obtain ⟨hinv, hnd, hout⟩ := ih
    obtain ⟨k, d, hd, rfl⟩ := (hout p).mp hp
    obtain ⟨s2, e, h2, _, hu, _⟩ := my_free_spec hinv hd
    rw [e] at hf
    have : s2 = s1 := by simpa using hf
    subst this
    have hndu : (s.used k).Nodup := (List.nodup_append.mp (hinv.1.nodup k)).2.1
    refine ⟨h2, hnd.erase _, ?_⟩
    intro q
    rw [hnd.mem_erase_iff, hout]
    constructor
    · rintro ⟨hne, k1, d1, hd1, rfl⟩
      refine ⟨k1, d1, ?_, rfl⟩
      rw [hu]
      split_ifs with hk
      · subst hk
        exact (hndu.mem_erase_iff).mpr ⟨fun e => hne (by rw [e]), hd1⟩
      · exact hd1
    · rintro ⟨k1, d1, hd1, rfl⟩
      rw [hu] at hd1
      split_ifs at hd1 with hk
      · subst hk
        obtain ⟨hne, hd2⟩ := (hndu.mem_erase_iff).mp hd1
        exact ⟨fun e => hne (by omega), k1, d1, hd2, rfl⟩
      · refine ⟨fun e => hk ?_, k1, d1, hd1, rfl⟩
        have : d1 = d := by omega
        subst this
        exact hinv.1.class_unique (Or.inr hd1) (Or.inr hd)
  | @free_null s s1 out _ hf ih =>
    have : s = s1 := by simpa [my_free] using hf
    subst this
    exact ih

/-- In a reachable state every call of `my_malloc` returns. -/
theorem Reach.malloc_returns {L : Nat} {s : memory_manager_state} {out : List Nat}
    (h : Reach L s out) (n : Nat) : ∃ res s1, my_malloc s n = some (res, s1) := by
  obtain ⟨hinv, _⟩ := h.inv
  rcases my_malloc_cases hinv n with ⟨e, _⟩ | ⟨hn, k, hr, hk, hnz, hz⟩
  · exact ⟨none, s, e⟩
  · obtain ⟨b, s1, e, _⟩ := my_malloc_ok hinv hn hr hk hnz hz
    exact ⟨_, s1, e⟩

/-- In a reachable state every call of `my_free` on an outstanding pointer returns. -/
theorem Reach.free_returns {L : Nat} {s : memory_manager_state} {out : List Nat}
    (h : Reach L s out) {p : Nat} (hp : p ∈ out) : ∃ s1, my_free s (some p) = some s1 := by
  obtain ⟨hinv, _, hout⟩ := h.inv
  obtain ⟨k, d, hd, rfl⟩ := (hout p).mp hp
  obtain ⟨s1, e, _⟩ := my_free_spec hinv hd
  exact ⟨s1, e⟩

theorem reach_state_after_malloc : Reach 64 state_after_malloc [56] :=
  Reach.malloc_ok (Reach.init (by norm_num))
    (show my_malloc (mem_init 64) 1 = some (some 56, state_after_malloc) from rfl)

theorem reach_state_after_free : Reach 64 state_after_free [] :=
  Reach.free_ptr reach_state_after_malloc (List.mem_singleton.mpr rfl)
    (show my_free state_after_malloc (some 56) = some state_after_free from rfl)

/-! ## The free blocks are determined by the used blocks -/

theorem Inv.sys {L : Nat} {s : memory_manager_state} (h : Inv L s) :
    Sys L (fun k d => d ∈ s.free k) (fun k d => d ∈ s.used k) where
  geo := h.1.geo
  excl := fun _ _ hf hu => h.1.not_free_and_used hf hu
  nobuddy := fun k a hal ha ha1 => h.2 k a ha ha1 hal

/-- Two states with the invariant and the same used blocks have the same free blocks. -/
theorem Inv.free_perm {L : Nat} {s s1 : memory_manager_state} (h : Inv L s) (h1 : Inv L s1)
    (hu : ∀ k d, d ∈ s1.used k ↔ d ∈ s.used k) (k : Nat) : (s1.free k).Perm (s.free k) := by
  have n1 : (s1.free k).Nodup := (List.nodup_append.mp (h1.1.nodup k)).1
  have n : (s.free k).Nodup := (List.nodup_append.mp (h.1.nodup k)).1
  refine (List.perm_ext_iff_of_nodup n1 n).mpr (fun d => ⟨?_, ?_⟩)
  · exact h1.sys.canonical h.sys (fun a b => (hu a b).symm) k d
  · exact h.sys.canonical h1.sys hu k d

theorem Inv.num_free_eq {L : Nat} {s s1 : memory_manager_state} (h : Inv L s) (h1 : Inv L s1)
    (hu : ∀ k d, d ∈ s1.used k ↔ d ∈ s.used k) (k : Nat) : s1.num_free k = s.num_free k := by
  rw [h.1.cnt_free, h1.1.cnt_free, (h.free_perm h1 hu k).length_eq]

/-- A state with the invariant and no used block is the state after `mem_init`. -/
theorem Inv.all_free {L : Nat} {s : memory_manager_state} (h : Inv L s)
    (hu : ∀ k, s.used k = []) (k : Nat) :
    s.free k = (mem_init L).free k ∧ s.num_free k = (mem_init L).num_free k ∧
      s.num_used k = 0 := by
  have h0 : Inv L (mem_init L) := mem_init_inv h.1.len
  obtain ⟨_, _, hu0, _, hf0, _, _⟩ := mem_init_spec L h.1.len
  have hperm := h0.free_perm h (fun a b => by rw [hu, hu0]) k
  refine ⟨?_, h0.num_free_eq h (fun a b => by rw [hu, hu0]) k, by rw [h.1.cnt_used, hu]; rfl⟩
  rw [hf0] at hperm ⊢
  split_ifs at hperm ⊢
  · exact List.perm_singleton.mp hperm
  · exact List.perm_nil.mp hperm

/-! ## `mem_get_stats` -/

theorem count_blocks_eq_sum (num : Nat → Int) (M : Nat) :
    count_blocks num M = ∑ i in Finset.range (M + 1), num i := by
  induction M with
  | zero => simp [count_blocks]
  | succ M ih => rw [count_blocks, ih, Finset.sum_range_succ _ (M + 1)]

theorem scan_down_none (num : Nat → Int) (M : Nat) (h : scan_down num M = none) :
    count_blocks num M ≤ 0 := by
  induction M with
  | zero =>
    unfold scan_down at h
    split_ifs at h with h0
    unfold count_blocks
    omega
  | succ M ih =>
    unfold scan_down at h
    split_ifs at h with h0
    have := ih h
    unfold count_blocks
    omega

theorem stats_extremes_some (num : Nat → Int) (M : Nat) :
    ∃ r, stats_extremes num M (count_blocks num M) = some r := by
  unfold stats_extremes
  by_cases h : 0 < count_blocks num M
  · rw [if_pos h]
    cases hs : scan_down num M with
    | none => have := scan_down_none num M hs; omega
    | some i => exact ⟨_, rfl⟩
  · rw [if_neg h]; exact ⟨_, rfl⟩

/-- Function `mem_get_stats` returns, and its two counts are the sums of the counters. -/
theorem mem_get_stats_counts (s : memory_manager_state) :
    ∃ st, mem_get_stats s = some st ∧
      st.num_blocks_used = count_blocks s.num_used s.max_pow2 ∧
      st.num_blocks_free = count_blocks s.num_free s.max_pow2 := by
  obtain ⟨⟨a, b⟩, e1⟩ := stats_extremes_some s.num_used s.max_pow2
  obtain ⟨⟨c, d⟩, e2⟩ := stats_extremes_some s.num_free s.max_pow2
  exact ⟨⟨count_blocks s.num_used s.max_pow2, count_blocks s.num_free s.max_pow2, c, a, d, b⟩,
    by simp only [mem_get_stats, e1, e2], rfl, rfl⟩

theorem count_blocks_single (num : Nat → Int) (M r : Nat) (hr : r ≤ M)
    (h : ∀ j, j ≠ r → num j = 0) : count_blocks num M = num r := by
  rw [count_blocks_eq_sum]
  exact Finset.sum_eq_single r (fun j _ hj => h j hj)
    (fun hn => absurd (Finset.mem_range.mpr (by omega)) hn)

theorem count_blocks_zero (num : Nat → Int) (M : Nat) (h : ∀ j, num j = 0) :
    count_blocks num M = 0 := by
  rw [count_blocks_eq_sum]
  exact Finset.sum_eq_zero (fun j _ => h j)

/-! ## Claims on coalescence, failure and the result of `my_malloc` -/

theorem OutInv.used_nil {s : memory_manager_state} (h : OutInv s []) (k : Nat) :
    s.used k = [] := by
  rw [List.eq_nil_iff_forall_not_mem]
  intro d hd
  exact absurd ((h.2 (d + sizeof_Block)).mpr ⟨k, d, hd, rfl⟩) (List.not_mem_nil _)

/-- The counts of `mem_get_stats` in a state with the lists of `mem_init` on a power of two. -/
theorem stats_all_free {M : Nat} {s : memory_manager_state} (hH : sizeof_Block < 2 ^ M)
    (hL : 2 ^ M < 2 ^ 32) (hM : s.max_pow2 = M) (hnf : ∀ k, s.num_free k = (mem_init (2 ^ M)).num_free k)
    (hnu : ∀ k, s.num_used k = 0) :
    ∃ st, mem_get_stats s = some st ∧ st.num_blocks_used = 0 ∧ st.num_blocks_free = 1 := by
  obtain ⟨st, e, h1, h2⟩ := mem_get_stats_counts s
  obtain ⟨_, _, _, _, _, hnf0, _⟩ := mem_init_spec (2 ^ M) hL
  refine ⟨st, e, ?_, ?_⟩
  · rw [h1]; exact count_blocks_zero _ _ hnu
  · rw [h2, hM, count_blocks_single _ M M (le_refl _), hnf, hnf0,
      if_pos ⟨Nat.testBit_two_pow_self, hH⟩]
    intro j hj
    rw [hnf, hnf0, if_neg]
    rintro ⟨hb, _⟩
    rw [Nat.testBit_two_pow] at hb
    exact hj (of_decide_eq_true hb).symm

/-- C1 (full coalescence): in a state reached from `mem_init` on `L` bytes in which every
pointer returned by `my_malloc` has been freed, every free list and every `num_free[k]` is
as after `mem_init`, every used list is empty and every `num_used[k]` is 0; when `L` is a
power of two above `sizeof(Block)`, `mem_get_stats` reports no used block and one free
block. -/
theorem full_coalescence (L : Nat) (s : memory_manager_state) (h : Reach L s []) :
    (∀ k, s.free k = (mem_init L).free k ∧ s.num_free k = (mem_init L).num_free k ∧
      s.used k = [] ∧ s.num_used k = 0) ∧
    (∀ M, L = 2 ^ M → sizeof_Block < L →
      ∃ st, mem_get_stats s = some st ∧ st.num_blocks_used = 0 ∧ st.num_blocks_free = 1) := by
  obtain ⟨hinv, hout⟩ := h.inv
  have hu := hout.used_nil
  have hall := hinv.all_free hu
  refine ⟨fun k => ⟨(hall k).1, (hall k).2.1, hu k, (hall k).2.2⟩, ?_⟩
  intro M hM hH
  subst hM
  exact stats_all_free hH hinv.1.len (by rw [hinv.1.max_pow2, Nat.log2_two_pow])
    (fun k => (hall k).2.1)
    (fun k => (hall k).2.2)

/-- Instance of C1 in the state after `my_malloc(1)` and the `my_free` of its pointer on a
region of 64 bytes. -/
theorem full_coalescence_witness :
    Reach 64 state_after_free [] ∧
    ((∀ k, state_after_free.free k = (mem_init 64).free k ∧
        state_after_free.num_free k = (mem_init 64).num_free k ∧
        state_after_free.used k = [] ∧ state_after_free.num_used k = 0) ∧
      (∀ M, 64 = 2 ^ M → sizeof_Block < 64 →
        ∃ st, mem_get_stats state_after_free = some st ∧ st.num_blocks_used = 0 ∧
          st.num_blocks_free = 1)) :=
  ⟨reach_state_after_free, full_coalescence 64 state_after_free reach_state_after_free⟩

/-- C2 (exact failure condition): in a reachable state `my_malloc(n)` with `n ≥ 1` returns,
and it returns `NULL` exactly when no class `k` with `smallest_block(n) ≤ k ≤ max_pow2` has
`num_free[k] ≥ 1`; whenever some free list `k` with `n + sizeof(Block) ≤ 2 ^ k` is not
empty it returns a pointer, and for `n + sizeof(Block) ≤ 2 ^ 31` it returns a pointer only
then. -/
theorem my_malloc_null_iff (L : Nat) (s : memory_manager_state) (out : List Nat) (n : Nat)
    (h : Reach L s out) (hn : 1 ≤ n) :
    ∃ res s1, my_malloc s n = some (res, s1) ∧
      (res = none ↔
        ¬ ∃ k, smallest_block n ≤ k ∧ k ≤ s.max_pow2 ∧ 1 ≤ s.num_free k) ∧
      (∀ k, n + sizeof_Block ≤ 2 ^ k → s.free k ≠ [] → res ≠ none) ∧
      (n + sizeof_Block ≤ 2 ^ 31 →
        (res ≠ none ↔ ∃ k, n + sizeof_Block ≤ 2 ^ k ∧ s.free k ≠ [])) := by
  obtain ⟨hinv, _⟩ := h.inv
  have c := hinv.1
  have hM : s.max_pow2 ≤ 31 := by
    have := log2_lt_32 c.len
    rw [c.max_pow2]
    omega
  rcases my_malloc_cases hinv n with ⟨e, h0 | hz⟩ | ⟨hn0, k, hr, hk, hnz, hz⟩
  · omega
  · have hno : ∀ k, n + sizeof_Block ≤ 2 ^ k → s.free k ≠ [] → False := by
      intro k h1 h2
      by_cases hkM : k ≤ s.max_pow2
      · have := hz k (smallest_block_le h1 (by omega)) hkM
        rw [c.cnt_free] at this
        exact h2 (List.length_eq_zero.mp (by exact_mod_cast this))
      · exact h2 (c.free_eq_nil (by omega))
    refine ⟨none, s, e, ⟨fun _ => ?_, fun _ => rfl⟩, fun k h1 h2 => (hno k h1 h2).elim,
      fun _ => ⟨fun h1 => absurd rfl h1, ?_⟩⟩
    · rintro ⟨k, h1, h2, h3⟩
      rw [hz k h1 h2] at h3
      omega
    · rintro ⟨k, h1, h2⟩
      exact (hno k h1 h2).elim
  · obtain ⟨b, s1, e, _⟩ := my_malloc_ok hinv hn0 hr hk hnz hz
    refine ⟨some (b + sizeof_Block), s1, e, ⟨fun h1 => by simp at h1, fun h1 => ?_⟩,
      fun _ _ _ => by simp, fun hsmall => ⟨fun _ => ⟨k, ?_, c.free_ne_nil hnz⟩, fun _ => by simp⟩⟩
    · exfalso
      have := c.num_free_nonneg k
      exact h1 ⟨k, hr, hk, by omega⟩
    · exact le_trans (smallest_block_ge n hsmall) (Nat.pow_le_pow_right (by norm_num) hr)

/-- Instance of C2 for `my_malloc(1)` in the state after one `my_malloc(1)` on a region of
64 bytes. -/
theorem my_malloc_null_iff_witness :
    Reach 64 state_after_malloc [56] ∧ 1 ≤ 1 ∧
    ∃ res s1, my_malloc state_after_malloc 1 = some (res, s1) ∧
      (res = none ↔ ¬ ∃ k, smallest_block 1 ≤ k ∧ k ≤ state_after_malloc.max_pow2 ∧
        1 ≤ state_after_malloc.num_free k) ∧
      (∀ k, 1 + sizeof_Block ≤ 2 ^ k → state_after_malloc.free k ≠ [] → res ≠ none) ∧
      (1 + sizeof_Block ≤ 2 ^ 31 →
        (res ≠ none ↔ ∃ k, 1 + sizeof_Block ≤ 2 ^ k ∧ state_after_malloc.free k ≠ [])) :=
  ⟨reach_state_after_malloc, le_refl 1,
    my_malloc_null_iff 64 state_after_malloc [56] 1 reach_state_after_malloc (le_refl 1)⟩

/-- C3 (failed allocation is atomic): in every state, a call of `my_malloc` that returns
`NULL` leaves the whole state (lists, counters, headers) as it was, and `my_malloc(0)`
returns `NULL`. -/
theorem my_malloc_null_unchanged (s s1 : memory_manager_state) (n : Nat)
    (h : my_malloc s n = some (none, s1)) : s1 = s ∧ my_malloc s 0 = some (none, s) := by
  refine ⟨?_, rfl⟩
  unfold my_malloc at h
  split_ifs at h with hn
  · simp only [Option.some.injEq, Prod.mk.injEq, true_and] at h
    exact h.symm
  · simp only at h
    split at h
    · simp only [Option.some.injEq, Prod.mk.injEq, true_and] at h
      exact h.symm
    · split at h
      · exact absurd h (by simp)
      · split at h
        · exact absurd h (by simp)
        · exact absurd h (by simp)

/-- Instance of C3: `my_malloc(100)` on a region of 64 bytes is out of memory. -/
theorem my_malloc_null_unchanged_witness :
    my_malloc (mem_init 64) 100 = some (none, mem_init 64) ∧
    (mem_init 64 = mem_init 64 ∧ my_malloc (mem_init 64) 0 = some (none, mem_init 64)) :=
  ⟨rfl, my_malloc_null_unchanged (mem_init 64) (mem_init 64) 100 rfl⟩

/-- C4 (successful allocation): in a reachable state, for `n ≥ 1`, `r = smallest_block(n)`
and `k` the first class from `r` up to `max_pow2` with `num_free[k] ≥ 1`, `my_malloc(n)`
returns the address of a block plus `sizeof(Block)`; the block has header class `r`, is
aligned to `2 ^ r` and is on used list `r`; `num_used[r]` grows by 1, `num_free[k]` drops
by 1, every class from `r` below `k` gains one free block, and no other counter changes. -/
theorem my_malloc_success (L : Nat) (s : memory_manager_state) (out : List Nat) (n k : Nat)
    (h : Reach L s out) (hn : 1 ≤ n) (hr : smallest_block n ≤ k) (hk : k ≤ s.max_pow2)
    (hfree : 1 ≤ s.num_free k)
    (hmin : ∀ j, smallest_block n ≤ j → j < k → ¬ 1 ≤ s.num_free j) :
    ∃ b s1, my_malloc s n = some (some (b + sizeof_Block), s1) ∧
      s1.size_pow2 b = smallest_block n ∧ 2 ^ smallest_block n ∣ b ∧
      b ∈ s1.used (smallest_block n) ∧
      s1.num_used (smallest_block n) = s.num_used (smallest_block n) + 1 ∧
      (∀ j, j ≠ smallest_block n → s1.num_used j = s.num_used j) ∧
      (smallest_block n < k → s1.num_free k = s.num_free k - 1) ∧
      (∀ j, smallest_block n ≤ j → j < k → s1.num_free j = s.num_free j + 1) ∧
      (k = smallest_block n →
        s1.num_free (smallest_block n) = s.num_free (smallest_block n) - 1) ∧
      (∀ j, j < smallest_block n ∨ k < j → s1.num_free j = s.num_free j) := by
  obtain ⟨hinv, _⟩ := h.inv
  have c := hinv.1
  have hz : ∀ j, smallest_block n ≤ j → j < k → s.num_free j = 0 := by
    intro j h1 h2
    have := hmin j h1 h2
    have := c.num_free_nonneg j
    omega
  obtain ⟨b, s1, e, h1, _, hh, _, hu, hnu, hnf⟩ :=
    my_malloc_ok hinv (by omega) hr hk (by omega) hz
  have hb : b ∈ s1.used (smallest_block n) := by
    rw [hu, if_pos rfl]; exact List.mem_cons_self _ _
  refine ⟨b, s1, e, hh, h1.1.geo.aligned _ _ (Or.inr hb), hb, ?_, ?_, ?_, ?_, ?_, ?_⟩
  · rw [hnu, if_pos rfl]
  · intro j hj; rw [hnu, if_neg hj]
  · intro hlt
    rw [hnf, if_neg (by omega), if_pos rfl]; ring
  · intro j hj1 hj2
    rw [hnf, if_pos ⟨hj1, hj2⟩, if_neg (by omega)]; ring
  · intro hkr
    rw [hnf, if_neg (by omega), if_pos hkr.symm]; ring
  · intro j hj
    rw [hnf, if_neg (by omega), if_neg (by omega)]; ring

/-- Instance of C4 for `my_malloc(1)` right after `mem_init` on 64 bytes, where the block
of class 6 is split once. -/
theorem my_malloc_success_witness :
    Reach 64 (mem_init 64) [] ∧ 1 ≤ 1 ∧ smallest_block 1 ≤ 6 ∧ 6 ≤ (mem_init 64).max_pow2 ∧
    1 ≤ (mem_init 64).num_free 6 ∧
    (∀ j, smallest_block 1 ≤ j → j < 6 → ¬ 1 ≤ (mem_init 64).num_free j) ∧
    ∃ b s1, my_malloc (mem_init 64) 1 = some (some (b + sizeof_Block), s1) ∧
      s1.size_pow2 b = smallest_block 1 ∧ 2 ^ smallest_block 1 ∣ b ∧
      b ∈ s1.used (smallest_block 1) ∧
      s1.num_used (smallest_block 1) = (mem_init 64).num_used (smallest_block 1) + 1 ∧
      (∀ j, j ≠ smallest_block 1 → s1.num_used j = (mem_init 64).num_used j) ∧
      (smallest_block 1 < 6 → s1.num_free 6 = (mem_init 64).num_free 6 - 1) ∧
      (∀ j, smallest_block 1 ≤ j → j < 6 → s1.num_free j = (mem_init 64).num_free j + 1) ∧
      (6 = smallest_block 1 →
        s1.num_free (smallest_block 1) = (mem_init 64).num_free (smallest_block 1) - 1) ∧
      (∀ j, j < smallest_block 1 ∨ 6 < j → s1.num_free j = (mem_init 64).num_free j) :=
  have hmin : ∀ j, smallest_block 1 ≤ j → j < 6 → ¬ 1 ≤ (mem_init 64).num_free j := by
    intro j h1 h2
    have h3 : smallest_block 1 = 5 := by decide
    have : j = 5 := by omega
    subst this
    decide
  ⟨Reach.init (by norm_num), le_refl 1, by decide, by decide, by decide, hmin,
    my_malloc_success 64 (mem_init 64) [] 1 6 (Reach.init (by norm_num)) (le_refl 1)
      (by decide) (by decide) (by decide) hmin⟩

/-- C5 (round trip): in a reachable state, after `p = my_malloc(n)` has returned a pointer,
`my_free(p)` returns and every `num_free[k]` and `num_used[k]` is as before the
`my_malloc` call. -/
theorem malloc_free_round_trip (L : Nat) (s s1 : memory_manager_state) (out : List Nat)
    (n p : Nat) (h : Reach L s out) (hm : my_malloc s n = some (some p, s1)) :
    ∃ s2, my_free s1 (some p) = some s2 ∧
      ∀ k, s2.num_free k = s.num_free k ∧ s2.num_used k = s.num_used k := by
  obtain ⟨hinv, _⟩ := h.inv
  rcases my_malloc_result hinv hm with ⟨e, _⟩ | ⟨b, k, e, _, _, _, _, _, h1, _, _, hb, hu, _⟩
  · exact absurd e (by simp)
  · have hp : p = b + sizeof_Block := by simpa using e
    subst hp
    have hbu : b ∈ s1.used (smallest_block n) := by
      rw [hu, if_pos rfl]; exact List.mem_cons_self _ _
    obtain ⟨s2, e2, h2, _, hu2, _⟩ := my_free_spec h1 hbu
    have husame : ∀ j, s2.used j = s.used j := by
      intro j
      rw [hu2, hu]
      split_ifs
      · exact List.erase_cons_head _ _
      · rfl
    refine ⟨s2, e2, fun j => ⟨?_, ?_⟩⟩
    · exact hinv.num_free_eq h2 (fun a d => by rw [husame]) j
    · rw [h2.1.cnt_used, hinv.1.cnt_used, husame]

/-- Instance of C5 for `my_malloc(1)` right after `mem_init` on 64 bytes, which returns
offset 56. -/
theorem malloc_free_round_trip_witness :
    Reach 64 (mem_init 64) [] ∧
    my_malloc (mem_init 64) 1 = some (some 56, state_after_malloc) ∧
    ∃ s2, my_free state_after_malloc (some 56) = some s2 ∧
      ∀ k, s2.num_free k = (mem_init 64).num_free k ∧
        s2.num_used k = (mem_init 64).num_used k :=
  ⟨Reach.init (by norm_num), rfl,
    malloc_free_round_trip 64 (mem_init 64) state_after_malloc [] 1 56
      (Reach.init (by norm_num)) rfl⟩

/-! ## Claims on conservation and capacity -/

/-- C6 (conservation): in a reachable state the sum over the classes `k` of
`(num_free[k] + num_used[k]) * 2 ^ k` is the sum of `2 ^ i` over the bits `i` set in the
region length with `2 ^ i > sizeof(Block)`. -/
theorem bytes_conserved (L : Nat) (s : memory_manager_state) (out : List Nat)
    (h : Reach L s out) : total_bytes s = usable_bytes L :=
  h.inv.1.1.bytes

/-- Instance of C6 in the state after one `my_malloc(1)` on a region of 64 bytes. -/
theorem bytes_conserved_witness :
    Reach 64 state_after_malloc [56] ∧ total_bytes state_after_malloc = usable_bytes 64 :=
  ⟨reach_state_after_malloc, bytes_conserved 64 state_after_malloc [56]
    reach_state_after_malloc⟩

theorem mem_max_alloc_eq {L : Nat} {s : memory_manager_state} (c : Core L s)
    (hL : sizeof_Block ≤ L) : mem_max_alloc s = L - sizeof_Block := by
  have := c.len
  unfold mem_max_alloc
  rw [c.mem_size]
  unfold sizeof_Block at *
  norm_num at this ⊢
  omega

/-- On a region below `2 ^ 31` bytes a request above the region length less the header
finds no class. -/
theorem my_malloc_over_max {L : Nat} {s : memory_manager_state} (c : Core L s) {n : Nat}
    (hL31 : L < 2 ^ 31) (hn : L < n + sizeof_Block) : my_malloc s n = some (none, s) := by
  refine my_malloc_null c n (fun k hk1 hk2 => ?_)
  exfalso
  have h5 := smallest_block_lower n
  by_cases hL : L = 0
  · have h1 : s.max_pow2 = 0 := by rw [c.max_pow2, hL]; simp [Nat.log2]
    have h4 : smallest_block n = 0 := by omega
    rw [h4] at h5
    unfold sizeof_Block at h5
    omega
  have h1 : 2 ^ s.max_pow2 ≤ L := by rw [c.max_pow2]; exact Nat.log2_self_le hL
  have h2 : 2 ^ k ≤ 2 ^ s.max_pow2 := Nat.pow_le_pow_right (by norm_num) hk2
  have h3 : 2 ^ smallest_block n ≤ 2 ^ k := Nat.pow_le_pow_right (by norm_num) hk1
  by_cases hsmall : n + sizeof_Block ≤ 2 ^ 31
  · have h4 := smallest_block_ge n hsmall
    omega
  · have h6 : 31 ≤ smallest_block n := by
      by_contra hc
      have := Nat.pow_le_pow_right (show 0 < 2 by norm_num)
        (show smallest_block n + 1 ≤ 31 by omega)
      omega
    have := Nat.pow_le_pow_right (show 0 < 2 by norm_num) h6
    omega

/-- On a region of `sizeof(Block) ≤ L < 2 ^ 31` bytes, in every reachable state,
`mem_max_alloc()` is `L - sizeof(Block)` and `my_malloc(n)` returns `NULL` for every `n`
above it, also for `mem_max_alloc() + 1`. -/
theorem over_max_fails_small (L : Nat) (s : memory_manager_state) (out : List Nat)
    (h : Reach L s out) (hL : sizeof_Block ≤ L) (hL31 : L < 2 ^ 31) :
    mem_max_alloc s = L - sizeof_Block ∧
    (∀ n, L - sizeof_Block < n → my_malloc s n = some (none, s)) ∧
    my_malloc s ((mem_max_alloc s + 1) % 2 ^ 32) = some (none, s) := by
  have c := h.inv.1.1
  have hmax := mem_max_alloc_eq c hL
  refine ⟨hmax, fun n hn => my_malloc_over_max c hL31 (by omega), ?_⟩
  have : (mem_max_alloc s + 1) % 2 ^ 32 = L - sizeof_Block + 1 := by
    rw [hmax]
    unfold sizeof_Block at *
    omega
  rw [this]
  exact my_malloc_over_max c hL31 (by omega)

/-- C7 (requests above the maximum fail) does not hold of the code: right after `mem_init`
on `2 ^ 31` bytes `mem_max_alloc()` is `2 ^ 31 - sizeof(Block)`, and
`my_malloc(mem_max_alloc() + 1)` finds class 31 for a request of `2 ^ 31 + 1` bytes with
the header and returns the pointer at offset 24. -/
theorem over_max_not_null :
    Reach (2 ^ 31) (mem_init (2 ^ 31)) [] ∧ sizeof_Block ≤ 2 ^ 31 ∧
    mem_max_alloc (mem_init (2 ^ 31)) = 2 ^ 31 - sizeof_Block ∧
    (mem_max_alloc (mem_init (2 ^ 31)) + 1) % 2 ^ 32 = 2 ^ 31 - 23 ∧
    smallest_block (2 ^ 31 - 23) = 31 ∧
    (my_malloc (mem_init (2 ^ 31)) ((mem_max_alloc (mem_init (2 ^ 31)) + 1) % 2 ^ 32)).map
      Prod.fst = some (some 24) :=
  ⟨Reach.init (by norm_num), by decide, by decide, by decide, by decide, by decide⟩

/-- The class of a request that fills a block of `2 ^ M ≤ 2 ^ 31` bytes is `M`. -/
theorem smallest_block_exact {n M : Nat} (h : n + sizeof_Block = 2 ^ M) (hM : M ≤ 31) :
    smallest_block n = M := by
  have hsmall : n + sizeof_Block ≤ 2 ^ 31 := by
    rw [h]; exact Nat.pow_le_pow_right (by norm_num) hM
  apply le_antisymm (smallest_block_le (le_of_eq h) hM)
  by_contra hc
  have h1 : smallest_block n + 1 ≤ M := by omega
  have h2 := Nat.pow_le_pow_right (show 0 < 2 by norm_num) h1
  have h3 := smallest_block_ge n hsmall
  rw [pow_succ] at h2
  have : 0 < 2 ^ smallest_block n := by positivity
  omega

/-- Right after `mem_init` on `sizeof(Block) ≤ L ≤ 2 ^ 31` bytes,
`my_malloc(mem_max_alloc())` returns a pointer exactly when `L` is a power of two above
`sizeof(Block)`, and then `mem_get_stats` reports one used block. -/
theorem max_alloc_iff_pow2_small (L : Nat) (hlen : L ≤ 2 ^ 31) (hL : sizeof_Block ≤ L) :
    ∃ res s1, my_malloc (mem_init L) (mem_max_alloc (mem_init L)) = some (res, s1) ∧
      (res ≠ none ↔ (∃ M, L = 2 ^ M) ∧ sizeof_Block < L) ∧
      (res ≠ none → ∃ st, mem_get_stats s1 = some st ∧ st.num_blocks_used = 1) := by
  have hlen32 : L < 2 ^ 32 := by omega
  have hinv := mem_init_inv hlen32
  have c := hinv.1
  rw [mem_max_alloc_eq c hL]
  obtain ⟨_, hM0, _, hnu0, _, hnf0, _⟩ := mem_init_spec L hlen32
  by_cases hp : (∃ M, L = 2 ^ M) ∧ sizeof_Block < L
  · obtain ⟨⟨M, rfl⟩, hH⟩ := hp
    have hM31 : M ≤ 31 := by
      by_contra hc
      have := Nat.pow_le_pow_right (show 0 < 2 by norm_num) (show 32 ≤ M by omega)
      omega
    have hr : smallest_block (2 ^ M - sizeof_Block) = M :=
      smallest_block_exact (by omega) hM31
    have hM : (mem_init (2 ^ M)).max_pow2 = M := by rw [hM0, Nat.log2_two_pow]
    have hnz : (mem_init (2 ^ M)).num_free M ≠ 0 := by
      rw [hnf0, if_pos ⟨Nat.testBit_two_pow_self, hH⟩]; norm_num
    obtain ⟨b, s1, e, h1, hM1, _, _, _, hnu, _⟩ := my_malloc_ok hinv
      (show 2 ^ M - sizeof_Block ≠ 0 by omega) (le_of_eq hr) (le_of_eq hM.symm) hnz
      (fun j h1 h2 => by omega)
    refine ⟨some (b + sizeof_Block), s1, e, ⟨fun _ => ⟨⟨M, rfl⟩, hH⟩, fun _ => by simp⟩,
      fun _ => ?_⟩
    obtain ⟨st, e1, h2, _⟩ := mem_get_stats_counts s1
    refine ⟨st, e1, ?_⟩
    rw [h2, hM1, hM, count_blocks_single _ M M (le_refl _), hnu, hr, if_pos rfl, hnu0]
    · norm_num
    · intro j hj
      rw [hnu, hr, if_neg hj, hnu0]
  · refine ⟨none, mem_init L, ?_, ⟨fun h => absurd rfl h, fun h => absurd h hp⟩,
      fun h => absurd rfl h⟩
    refine my_malloc_null c _ (fun k hk1 hk2 => ?_)
    exfalso
    have hL0 : L ≠ 0 := by unfold sizeof_Block at hL; omega
    have h1 : 2 ^ (mem_init L).max_pow2 ≤ L := by rw [hM0]; exact Nat.log2_self_le hL0
    have h2 : 2 ^ k ≤ 2 ^ (mem_init L).max_pow2 := Nat.pow_le_pow_right (by norm_num) hk2
    have h3 : 2 ^ smallest_block (L - sizeof_Block) ≤ 2 ^ k :=
      Nat.pow_le_pow_right (by norm_num) hk1
    have h4 := smallest_block_ge (L - sizeof_Block) (by omega)
    have h5 : L = 2 ^ k := by omega
    have h6 : ¬ sizeof_Block < L := fun h => hp ⟨⟨k, h5⟩, h⟩
    have h7 : L = sizeof_Block := by omega
    rw [h7] at h5
    have h8 : k < 5 := by
      by_contra hc
      have := Nat.pow_le_pow_right (show 0 < 2 by norm_num) (show 5 ≤ k by omega)
      unfold sizeof_Block at h5
      omega
    unfold sizeof_Block at h5
    interval_cases k <;> omega

/-- C8 (the maximum is reached exactly on powers of two) does not hold of the code: the
length `2 ^ 31 + 64` is not a power of two, and right after `mem_init` on it
`my_malloc(mem_max_alloc())`, a request of `2 ^ 31 + 64` bytes with the header, finds
class 31 and returns the pointer at offset 24. -/
theorem max_alloc_not_pow2 :
    (2 ^ 31 + 64 : Nat) < 2 ^ 32 ∧ sizeof_Block ≤ 2 ^ 31 + 64 ∧
    (¬ ∃ M, 2 ^ 31 + 64 = 2 ^ M) ∧
    mem_max_alloc (mem_init (2 ^ 31 + 64)) = 2 ^ 31 + 64 - sizeof_Block ∧
    smallest_block (2 ^ 31 + 64 - sizeof_Block) = 31 ∧
    (my_malloc (mem_init (2 ^ 31 + 64)) (mem_max_alloc (mem_init (2 ^ 31 + 64)))).map
      Prod.fst = some (some 24) := by
  refine ⟨by norm_num, by decide, ?_, by decide, by decide, by decide⟩
  rintro ⟨M, hM⟩
  by_cases h : M ≤ 31
  · have := Nat.pow_le_pow_right (show 0 < 2 by norm_num) h
    omega
  · have := Nat.pow_le_pow_right (show 0 < 2 by norm_num) (show 32 ≤ M by omega)
    omega

/-! ## Claims on repeated allocation -/

theorem usable_bytes_two_pow {M : Nat} (hM : M < 32) (hH : sizeof_Block < 2 ^ M) :
    usable_bytes (2 ^ M) = 2 ^ M := by
  unfold usable_bytes
  rw [Finset.sum_eq_single M]
  · rw [if_pos ⟨Nat.testBit_two_pow_self, hH⟩]
  · intro i _ hi
    rw [if_neg]
    rintro ⟨hb, _⟩
    rw [Nat.testBit_two_pow] at hb
    exact hi (of_decide_eq_true hb).symm
  · intro hn
    exact absurd (Finset.mem_range.mpr (by unfold MAX_OS_POW2; omega)) hn

/-- The bytes of the free blocks when all used blocks are of class `r`. -/
theorem Filled.free_bytes {M r c : Nat} {s : memory_manager_state} (h : Filled M r s c)
    (hM : M < 32) (hH : sizeof_Block < 2 ^ M) (hr : r ≤ M) :
    (∑ k in Finset.range MAX_OS_POW2, s.num_free k * 2 ^ k) + (c : Int) * 2 ^ r = 2 ^ M := by
  obtain ⟨hinv, _, _, hnu, hc⟩ := h
  have hb := hinv.1.bytes
  rw [usable_bytes_two_pow hM hH] at hb
  rw [← hb]
  unfold total_bytes
  have e : ∀ k ∈ Finset.range MAX_OS_POW2, (s.num_free k + s.num_used k) * (2 : Int) ^ k =
      s.num_free k * 2 ^ k + s.num_used k * 2 ^ k := fun k _ => by ring
  rw [Finset.sum_congr rfl e, Finset.sum_add_distrib]
  congr 1
  rw [Finset.sum_eq_single r, hc]
  · intro k _ hk
    rw [hnu k hk]; ring
  · intro hn
    exact absurd (Finset.mem_range.mpr (by unfold MAX_OS_POW2; omega)) hn

/-- Below capacity some class from `r` on has a free block. -/
theorem Filled.has_free {M r c : Nat} {s : memory_manager_state} (h : Filled M r s c)
    (hM : M < 32) (hH : sizeof_Block < 2 ^ M) (hr : r ≤ M) (hc : c < 2 ^ (M - r)) :
    ∃ k, r ≤ k ∧ k ≤ s.max_pow2 ∧ s.num_free k ≠ 0 := by
  have hb := h.free_bytes hM hH hr
  obtain ⟨hinv, hmax, hnf, _, _⟩ := h
  by_contra hno
  have hz : ∀ k ∈ Finset.range MAX_OS_POW2, s.num_free k * (2 : Int) ^ k = 0 := by
    intro k _
    by_cases h1 : k < r
    · rw [hnf k h1]; ring
    · by_cases h2 : k ≤ s.max_pow2
      · have : s.num_free k = 0 := by
          by_contra h3
          exact hno ⟨k, by omega, h2, h3⟩
        rw [this]; ring
      · rw [hinv.1.cnt_free, hinv.1.free_eq_nil (by omega)]; simp
  rw [Finset.sum_eq_zero hz, zero_add] at hb
  have e : (2 : Int) ^ M = 2 ^ (M - r) * 2 ^ r := by
    rw [← pow_add]; congr 1; omega
  rw [e] at hb
  have hpos : (0 : Int) < 2 ^ r := by positivity
  have := mul_right_cancel₀ (ne_of_gt hpos) hb
  have h3 : (c : Int) < 2 ^ (M - r) := by exact_mod_cast hc
  omega

/-- At capacity no class has a free block. -/
theorem Filled.no_free {M r : Nat} {s : memory_manager_state}
    (h : Filled M r s (2 ^ (M - r))) (hM : M < 32) (hH : sizeof_Block < 2 ^ M) (hr : r ≤ M)
    (k : Nat) : s.num_free k = 0 := by
  have hb := h.free_bytes hM hH hr
  obtain ⟨hinv, hmax, _, _, _⟩ := h
  have e : ((2 ^ (M - r) : Nat) : Int) * 2 ^ r = 2 ^ M := by
    push_cast
    rw [← pow_add]; congr 1; omega
  rw [e] at hb
  have hsum : ∑ k in Finset.range MAX_OS_POW2, s.num_free k * (2 : Int) ^ k = 0 := by omega
  have hnn : ∀ k ∈ Finset.range MAX_OS_POW2, 0 ≤ s.num_free k * (2 : Int) ^ k :=
    fun k _ => mul_nonneg (hinv.1.num_free_nonneg k) (by positivity)
  by_cases hk : k ≤ s.max_pow2
  · have hlt := hinv.1.max_pow2_lt
    have := (Finset.sum_eq_zero_iff_of_nonneg hnn).mp hsum k
      (Finset.mem_range.mpr (by unfold MAX_OS_POW2; omega))
    rcases mul_eq_zero.mp this with h1 | h1
    · exact h1
    · exact absurd h1 (by positivity)
  · rw [hinv.1.cnt_free, hinv.1.free_eq_nil (by omega)]; rfl

/-- One more call of `my_malloc(n)` below capacity. -/
theorem Filled.step {M n c : Nat} {s : memory_manager_state}
    (h : Filled M (smallest_block n) s c) (hM : M < 32) (hH : sizeof_Block < 2 ^ M)
    (hn : 1 ≤ n) (hr : smallest_block n ≤ M) (hc : c < 2 ^ (M - smallest_block n)) :
    ∃ p s1, my_malloc s n = some (some p, s1) ∧ Filled M (smallest_block n) s1 (c + 1) := by
  have hinv := h.1
  obtain ⟨k0, hk1, hk2, hk3⟩ := h.has_free hM hH hr hc
  rcases my_malloc_cases hinv n with ⟨_, h0 | hz⟩ | ⟨hn0, k, hrk, hk, hnz, hz⟩
  · omega
  · exact absurd (hz k0 hk1 hk2) hk3
  · obtain ⟨b, s1, e, h1, hM1, _, _, _, hnu, hnf⟩ := my_malloc_ok hinv hn0 hrk hk hnz hz
    obtain ⟨_, hmax, hnf0, hnu0, hc0⟩ := h
    refine ⟨b + sizeof_Block, s1, e, h1, hM1.trans hmax, ?_, ?_, ?_⟩
    · intro j hj
      rw [hnf, hnf0 j hj, if_neg (by omega), if_neg (by omega)]; ring
    · intro j hj
      rw [hnu, if_neg hj, hnu0 j hj]
    · rw [hnu, if_pos rfl, hc0]; push_cast; ring

theorem Filled.run {M n : Nat} (hM : M < 32) (hH : sizeof_Block < 2 ^ M) (hn : 1 ≤ n)
    (hr : smallest_block n ≤ M) :
    ∀ j c (s : memory_manager_state), Filled M (smallest_block n) s c →
      c + j ≤ 2 ^ (M - smallest_block n) →
      ∃ s1, malloc_repeat n j s = some s1 ∧ Filled M (smallest_block n) s1 (c + j) := by
  intro j
  induction j with
  | zero => intro c s h _; exact ⟨s, rfl, h⟩
  | succ j ih =>
    intro c s h hc
    obtain ⟨p, s1, e, h1⟩ := h.step hM hH hn hr (by omega)
    obtain ⟨s2, e2, h2⟩ := ih (c + 1) s1 h1 (by omega)
    refine ⟨s2, ?_, by rw [show c + (j + 1) = c + 1 + j by omega]; exact h2⟩
    unfold malloc_repeat
    rw [e]
    exact e2

theorem Filled.init {M : Nat} (hM : M < 32) (r : Nat) (hr : r ≤ M) :
    Filled M r (mem_init (2 ^ M)) 0 := by
  obtain ⟨_, hM0, _, hnu0, _, hnf0, _⟩ :=
    mem_init_spec (2 ^ M) (Nat.pow_lt_pow_right (by norm_num) hM)
  have hlen : 2 ^ M < 2 ^ 32 := Nat.pow_lt_pow_right (by norm_num) hM
  refine ⟨mem_init_inv hlen, by rw [hM0, Nat.log2_two_pow], ?_, fun k _ => hnu0 k, ?_⟩
  · intro k hk
    rw [hnf0, if_neg]
    rintro ⟨hb, _⟩
    rw [Nat.testBit_two_pow] at hb
    have := of_decide_eq_true hb
    omega
  · rw [hnu0]; rfl

theorem Filled.stats {M r c : Nat} {s : memory_manager_state} (h : Filled M r s c)
    (hr : r ≤ M) : ∃ st, mem_get_stats s = some st ∧ st.num_blocks_used = c := by
  obtain ⟨st, e, h1, _⟩ := mem_get_stats_counts s
  obtain ⟨_, hmax, _, hnu, hc⟩ := h
  exact ⟨st, e, by rw [h1, hmax, count_blocks_single _ M r hr hnu, hc]⟩

/-- C9 (exact capacity without frees): on a region of `2 ^ M > sizeof(Block)` bytes, with
`n ≥ 1` and `r = smallest_block(n) ≤ M`, after `j ≤ 2 ^ (M - r)` calls of `my_malloc(n)`
right after `mem_init`, `mem_get_stats` reports `j` used blocks, the next call returns a
pointer when `j < 2 ^ (M - r)`, and returns `NULL` when `j = 2 ^ (M - r)`. -/
theorem exact_capacity (M n j : Nat) (hM : M < 32) (hH : sizeof_Block < 2 ^ M) (hn : 1 ≤ n)
    (hr : smallest_block n ≤ M) (hj : j ≤ 2 ^ (M - smallest_block n)) :
    ∃ s, malloc_repeat n j (mem_init (2 ^ M)) = some s ∧
      (∃ st, mem_get_stats s = some st ∧ st.num_blocks_used = j) ∧
      (j < 2 ^ (M - smallest_block n) → ∃ p s1, my_malloc s n = some (some p, s1)) ∧
      (j = 2 ^ (M - smallest_block n) → my_malloc s n = some (none, s)) := by
  obtain ⟨s, e, h⟩ := Filled.run hM hH hn hr j 0 (mem_init (2 ^ M))
    (Filled.init hM _ hr) (by omega)
  rw [zero_add] at h
  refine ⟨s, e, h.stats hr, ?_, ?_⟩
  · intro hlt
    obtain ⟨p, s1, e1, _⟩ := h.step hM hH hn hr hlt
    exact ⟨p, s1, e1⟩
  · intro heq
    subst heq
    exact my_malloc_null h.1.1 n (fun k _ _ => h.no_free hM hH hr k)

/-- Instance of C9 for the test `test_many_allocs`: 10000 calls of `my_malloc(1)` on
`2 ^ 20` bytes. -/
theorem exact_capacity_witness :
    20 < 32 ∧ sizeof_Block < 2 ^ 20 ∧ 1 ≤ 1 ∧ smallest_block 1 ≤ 20 ∧
    10000 ≤ 2 ^ (20 - smallest_block 1) ∧
    ∃ s, malloc_repeat 1 10000 (mem_init (2 ^ 20)) = some s ∧
      (∃ st, mem_get_stats s = some st ∧ st.num_blocks_used = 10000) ∧
      (10000 < 2 ^ (20 - smallest_block 1) → ∃ p s1, my_malloc s 1 = some (some p, s1)) ∧
      (10000 = 2 ^ (20 - smallest_block 1) → my_malloc s 1 = some (none, s)) :=
  ⟨by decide, by decide, by decide, by decide, by decide,
    exact_capacity 20 1 10000 (by decide) (by decide) (by decide) (by decide) (by decide)⟩

/-- C10, as stated, fails at size 0, a value of `rand() % mem_max_alloc()`: right after
`mem_init` on `2 ^ 20` bytes `my_malloc(0)` returns `NULL`. -/
theorem random_size_zero_null :
    sizeof_Block < 2 ^ 20 ∧ 0 < mem_max_alloc (mem_init (2 ^ 20)) ∧
    my_malloc (mem_init (2 ^ 20)) 0 = some (none, mem_init (2 ^ 20)) :=
  ⟨by decide, by decide, rfl⟩

/-- C10 (amended): right after `mem_init` on `2 ^ M > sizeof(Block)` bytes, for every size
`sz` with `1 ≤ sz < mem_max_alloc()`, `my_malloc(sz)` returns a pointer and `mem_get_stats`
reports one used block; after `my_free` of that pointer `mem_get_stats` reports no used
block and one free block. -/
theorem random_size_round (M sz : Nat) (hM : M < 32) (hH : sizeof_Block < 2 ^ M)
    (h1 : 1 ≤ sz) (h2 : sz < mem_max_alloc (mem_init (2 ^ M))) :
    ∃ p s1 st1 s2 st2, my_malloc (mem_init (2 ^ M)) sz = some (some p, s1) ∧
      mem_get_stats s1 = some st1 ∧ st1.num_blocks_used = 1 ∧
      my_free s1 (some p) = some s2 ∧
      mem_get_stats s2 = some st2 ∧ st2.num_blocks_used = 0 ∧ st2.num_blocks_free = 1 := by
  have hlen : 2 ^ M < 2 ^ 32 := Nat.pow_lt_pow_right (by norm_num) hM
  have hinv := mem_init_inv hlen
  rw [mem_max_alloc_eq hinv.1 (le_of_lt hH)] at h2
  have hr : smallest_block sz ≤ M := smallest_block_le (by omega) (by omega)
  have hF := Filled.init hM (smallest_block sz) hr
  obtain ⟨p, s1, e1, hF1⟩ := hF.step hM hH h1 hr (by positivity)
  obtain ⟨st1, e2, h3⟩ := hF1.stats hr
  rcases my_malloc_result hinv e1 with ⟨e, _⟩ | ⟨b, k, e, _, _, _, _, _, hinv1, hM1, _, _, hu, _⟩
  · exact absurd e (by simp)
  · have hp : p = b + sizeof_Block := by simpa using e
    subst hp
    have hbu : b ∈ s1.used (smallest_block sz) := by
      rw [hu, if_pos rfl]; exact List.mem_cons_self _ _
    obtain ⟨s2, e3, hinv2, hM2, hu2, _⟩ := my_free_spec hinv1 hbu
    obtain ⟨_, hM0, hu0, _⟩ := mem_init_spec (2 ^ M) (Nat.pow_lt_pow_right (by norm_num) hM)
    have hnil : ∀ j, s2.used j = [] := by
      intro j
      rw [hu2, hu]
      split_ifs
      · rw [List.erase_cons_head, hu0]
      · exact hu0 j
    have hall := hinv2.all_free hnil
    obtain ⟨st2, e4, h4, h5⟩ := stats_all_free hH hlen
      (by rw [hM2, hM1, hM0, Nat.log2_two_pow]) (fun k => (hall k).2.1)
      (fun k => (hall k).2.2)
    exact ⟨b + sizeof_Block, s1, st1, s2, st2, e1, e2, h3, e3, e4, h4, h5⟩

/-- Instance of the amended C10 on `2 ^ 20` bytes with size 1000. -/
theorem random_size_round_witness :
    20 < 32 ∧ sizeof_Block < 2 ^ 20 ∧ 1 ≤ 1000 ∧ 1000 < mem_max_alloc (mem_init (2 ^ 20)) ∧
    ∃ p s1 st1 s2 st2, my_malloc (mem_init (2 ^ 20)) 1000 = some (some p, s1) ∧
      mem_get_stats s1 = some st1 ∧ st1.num_blocks_used = 1 ∧
      my_free s1 (some p) = some s2 ∧
      mem_get_stats s2 = some st2 ∧ st2.num_blocks_used = 0 ∧ st2.num_blocks_free = 1 :=
  ⟨by decide, by decide, by decide, by decide,
    random_size_round 20 1000 (by decide) (by decide) (by decide) (by decide)⟩

/-! ## Claims on `mem_get_stats`, `mem_init` and `my_free(NULL)` -/

theorem scan_up_some (num : Nat → Int) :
    ∀ left i k, scan_up num left i = some k →
      i ≤ k ∧ k < i + left ∧ 0 < num k ∧ ∀ j, i ≤ j → j < k → num j ≤ 0 := by
  intro left
  induction left with
  | zero => intro i k h; simp [scan_up] at h
  | succ left ih =>
    intro i k h
    unfold scan_up at h
    split_ifs at h with h0
    · have : i = k := by simpa using h
      subst this
      exact ⟨le_refl _, by omega, h0, fun j h1 h2 => by omega⟩
    · obtain ⟨h1, h2, h3, h4⟩ := ih (i + 1) k h
      refine ⟨by omega, by omega, h3, fun j hj1 hj2 => ?_⟩
      by_cases hj : j = i
      · subst hj; omega
      · exact h4 j (by omega) hj2

theorem scan_up_none (num : Nat → Int) :
    ∀ left i, scan_up num left i = none → ∀ j, i ≤ j → j < i + left → num j ≤ 0 := by
  intro left
  induction left with
  | zero => intro i _ j h1 h2; omega
  | succ left ih =>
    intro i h j h1 h2
    unfold scan_up at h
    split_ifs at h with h0
    by_cases hj : j = i
    · subst hj; omega
    · exact ih (i + 1) h j (by omega) (by omega)

theorem scan_down_some (num : Nat → Int) :
    ∀ M k, scan_down num M = some k →
      k ≤ M ∧ 0 < num k ∧ ∀ j, k < j → j ≤ M → num j ≤ 0 := by
  intro M
  induction M with
  | zero =>
    intro k h
    unfold scan_down at h
    split_ifs at h with h0
    have : k = 0 := by simpa using h.symm
    subst this
    exact ⟨le_refl _, h0, fun j h1 h2 => by omega⟩
  | succ M ih =>
    intro k h
    unfold scan_down at h
    split_ifs at h with h0
    · have : k = M + 1 := by simpa using h.symm
      subst this
      exact ⟨le_refl _, h0, fun j h1 h2 => by omega⟩
    · obtain ⟨h1, h2, h3⟩ := ih k h
      refine ⟨by omega, h2, fun j hj1 hj2 => ?_⟩
      by_cases hj : j = M + 1
      · subst hj; omega
      · exact h3 j hj1 (by omega)

theorem count_blocks_nonpos (num : Nat → Int) (M : Nat) (h : ∀ j, j ≤ M → num j ≤ 0) :
    count_blocks num M ≤ 0 := by
  induction M with
  | zero => unfold count_blocks; exact h 0 (le_refl _)
  | succ M ih =>
    unfold count_blocks
    have := ih (fun j hj => h j (by omega))
    have := h (M + 1) (le_refl _)
    omega

theorem count_blocks_pos (num : Nat → Int) (M : Nat) (h0 : ∀ j, j ≤ M → 0 ≤ num j)
    {k : Nat} (hk : k ≤ M) (hpos : 0 < num k) : 0 < count_blocks num M := by
  induction M with
  | zero =>
    have : k = 0 := by omega
    subst this
    unfold count_blocks; exact hpos
  | succ M ih =>
    unfold count_blocks
    have hnn : 0 ≤ count_blocks num M := by
      have e := count_blocks_eq_sum num M
      rw [e]
      exact Finset.sum_nonneg (fun j hj => h0 j (by
        have := Finset.mem_range.mp hj
        omega))
    by_cases hkM : k = M + 1
    · subst hkM; omega
    · have := ih (fun j hj => h0 j (by omega)) (by omega)
      have := h0 (M + 1) (le_refl _)
      omega

/-- The two scans of `mem_get_stats` for one kind of block return, with the fields that
`ExtremesOf` describes. -/
theorem stats_extremes_spec (num : Nat → Int) (M : Nat) :
    ∃ smallest largest, stats_extremes num M (count_blocks num M) = some (smallest, largest) ∧
      ExtremesOf num M (count_blocks num M) smallest largest := by
  have hiff : (∀ k, k ≤ M → 0 ≤ num k) →
      (0 < count_blocks num M ↔ ∃ k, k ≤ M ∧ 0 < num k) := by
    intro h0
    constructor
    · intro hpos
      by_contra hno
      have := count_blocks_nonpos num M (fun j hj => by
        by_contra hc
        exact hno ⟨j, hj, by omega⟩)
      omega
    · rintro ⟨k, hk, hpos⟩
      exact count_blocks_pos num M h0 hk hpos
  unfold stats_extremes
  by_cases h : 0 < count_blocks num M
  · rw [if_pos h]
    cases hd : scan_down num M with
    | none => have := scan_down_none num M hd; omega
    | some hi =>
      obtain ⟨hd1, hd2, hd3⟩ := scan_down_some num M hi hd
      cases hu : scan_up num (M + 1) 0 with
      | none =>
        have := scan_up_none num (M + 1) 0 hu hi (Nat.zero_le _) (by omega)
        omega
      | some lo =>
        obtain ⟨_, hu2, hu3, hu4⟩ := scan_up_some num (M + 1) 0 lo hu
        refine ⟨_, _, rfl, ⟨fun _ => ⟨lo, hi, ?_, hd1, hu3, hd2,
          fun j hj => hu4 j (Nat.zero_le _) hj, hd3, hd, rfl, rfl⟩, fun h1 => by omega, hiff⟩⟩
        by_contra hc
        have := hd3 lo (by omega) (by omega)
        omega
  · rw [if_neg h]
    exact ⟨0, 0, rfl, fun h1 => absurd h1 h, fun _ => ⟨rfl, rfl⟩, hiff⟩

/-- C11 (statistics snapshot): in every state `mem_get_stats` returns (each descending scan
stops at a class in `0 .. max_pow2`); it reads the state and writes only the record it
returns.  The record holds `num_blocks_free` and `num_blocks_used`, the sums of
`num_free[k]` and `num_used[k]` over `k` in `0 .. max_pow2`, and the smallest and largest
payload sizes `2 ^ k - sizeof(Block)` over the classes with a positive counter, or 0 when
the count of blocks is 0. -/
theorem mem_get_stats_snapshot (s : memory_manager_state) :
    ∃ st, mem_get_stats s = some st ∧
      st.num_blocks_free = ∑ k in Finset.range (s.max_pow2 + 1), s.num_free k ∧
      st.num_blocks_used = ∑ k in Finset.range (s.max_pow2 + 1), s.num_used k ∧
      ExtremesOf s.num_free s.max_pow2 st.num_blocks_free st.smallest_block_free
        st.largest_block_free ∧
      ExtremesOf s.num_used s.max_pow2 st.num_blocks_used st.smallest_block_used
        st.largest_block_used := by
  obtain ⟨a, b, e1, h1⟩ := stats_extremes_spec s.num_used s.max_pow2
  obtain ⟨c, d, e2, h2⟩ := stats_extremes_spec s.num_free s.max_pow2
  exact ⟨⟨count_blocks s.num_used s.max_pow2, count_blocks s.num_free s.max_pow2, c, a, d, b⟩,
    by simp only [mem_get_stats, e1, e2], count_blocks_eq_sum _ _, count_blocks_eq_sum _ _,
    h2, h1⟩

/-- Instance of C11 in the state after one `my_malloc(1)` on a region of 64 bytes: one
free and one used block of 32 bytes. -/
theorem mem_get_stats_snapshot_witness :
    mem_get_stats state_after_malloc = some ⟨1, 1, 8, 8, 8, 8⟩ ∧
    ∃ st, mem_get_stats state_after_malloc = some st ∧
      st.num_blocks_free =
        ∑ k in Finset.range (state_after_malloc.max_pow2 + 1), state_after_malloc.num_free k ∧
      st.num_blocks_used =
        ∑ k in Finset.range (state_after_malloc.max_pow2 + 1), state_after_malloc.num_used k ∧
      ExtremesOf state_after_malloc.num_free state_after_malloc.max_pow2 st.num_blocks_free
        st.smallest_block_free st.largest_block_free ∧
      ExtremesOf state_after_malloc.num_used state_after_malloc.max_pow2 st.num_blocks_used
        st.smallest_block_used st.largest_block_used :=
  ⟨by decide, mem_get_stats_snapshot state_after_malloc⟩

/-- The sum of `2 ^ j` over the set bits `j > i` of `L` below bit `n`. -/
theorem sum_bits_above (L i : Nat) :
    ∀ n, ∑ j in (Finset.range n).filter (fun j => i < j ∧ L.testBit j = true), 2 ^ j =
      L % 2 ^ n / 2 ^ (i + 1) * 2 ^ (i + 1) := by
  intro n
  rw [Finset.sum_filter]
  induction n with
  | zero => simp [Nat.mod_one]
  | succ n ih =>
    rw [Finset.sum_range_succ, ih, Nat.mod_pow_succ]
    have hr : L % 2 ^ n < 2 ^ n := Nat.mod_lt _ (by positivity)
    have hbit : L.testBit n = decide (L / 2 ^ n % 2 = 1) := Nat.testBit_to_div_mod
    rcases Nat.mod_two_eq_zero_or_one (L / 2 ^ n) with hb | hb
    · have : L.testBit n = false := by rw [hbit, hb]; rfl
      simp [this, hb]
    · have hset : L.testBit n = true := by rw [hbit, hb]; rfl
      rw [hb, mul_one]
      by_cases hi : i < n
      · rw [if_pos ⟨hi, hset⟩]
        have e : 2 ^ n = 2 ^ (i + 1) * 2 ^ (n - (i + 1)) := two_pow_split (by omega)
        have hdiv : ∀ r, (r + 2 ^ n) / 2 ^ (i + 1) =
            r / 2 ^ (i + 1) + 2 ^ (n - (i + 1)) := by
          intro r
          rw [e]
          exact Nat.add_mul_div_left r (2 ^ (n - (i + 1)))
            (show 0 < 2 ^ (i + 1) by positivity)
        rw [hdiv, add_mul]
        congr 1
        rw [e]
        ring
      · rw [if_neg (fun h => hi h.1), add_zero]
        have hle : 2 ^ (n + 1) ≤ 2 ^ (i + 1) := Nat.pow_le_pow_right (by norm_num) (by omega)
        have h1 : L % 2 ^ n + 2 ^ n < 2 ^ (i + 1) := by
          rw [pow_succ] at hle; omega
        rw [Nat.div_eq_of_lt h1, Nat.div_eq_of_lt (by omega)]

/-- After `mem_init` on `1 ≤ L ≤ 2 ^ 31` bytes `max_pow2` is the largest `M` with
`2 ^ M ≤ L`, every used list is empty and every `num_used[k]` is 0, `num_free[i]` is 1 when
bit `i` of `L` is set and `2 ^ i > sizeof(Block)` and 0 otherwise, and the one free block of
such a class `i` starts at the sum of `2 ^ j` over the set bits `j > i` of `L`. -/
theorem mem_init_decomposition_small (L : Nat) (hL : 1 ≤ L) (hL31 : L ≤ 2 ^ 31) :
    (2 ^ (mem_init L).max_pow2 ≤ L ∧ ∀ m, 2 ^ m ≤ L → m ≤ (mem_init L).max_pow2) ∧
    (∀ k, (mem_init L).num_used k = 0 ∧ (mem_init L).used k = []) ∧
    (∀ i, (mem_init L).num_free i =
      if L.testBit i = true ∧ sizeof_Block < 2 ^ i then 1 else 0) ∧
    (∀ i, (mem_init L).free i =
      if L.testBit i = true ∧ sizeof_Block < 2 ^ i then
        [∑ j in (Finset.range ((mem_init L).max_pow2 + 1)).filter
          (fun j => i < j ∧ L.testBit j = true), 2 ^ j]
      else []) := by
  obtain ⟨_, hM, hu, hnu, hf, hnf, _⟩ := mem_init_spec L (by omega)
  have hL0 : L ≠ 0 := by omega
  refine ⟨⟨by rw [hM]; exact Nat.log2_self_le hL0,
    fun m hm => by rw [hM]; exact (Nat.le_log2 hL0).mpr hm⟩,
    fun k => ⟨hnu k, hu k⟩, hnf, fun i => ?_⟩
  rw [hf, hM, sum_bits_above, Nat.mod_eq_of_lt Nat.lt_log2_self]
  by_cases hc : L.testBit i = true ∧ sizeof_Block < 2 ^ i
  · rw [if_pos hc, if_pos hc, init_offset_small hL31 hc.1]
  · rw [if_neg hc, if_neg hc]

/-- After `mem_init` on `L < 2 ^ 32` bytes with bit 31 set, the free block of a class
`i < 31` starts `2 ^ 32` bytes below the sum of `2 ^ j` over the set bits `j > i` of `L`,
which is before the region; as a `size_t` offset this is the sum plus
`2 ^ 64 - 2 ^ 32`. -/
theorem mem_init_decomposition_wrap (L : Nat) (hL : L < 2 ^ 32)
    (h31 : L.testBit 31 = true) (i : Nat) (hi : i < 31) (hb : L.testBit i = true)
    (hH : sizeof_Block < 2 ^ i) :
    (mem_init L).free i =
      [(∑ j in (Finset.range ((mem_init L).max_pow2 + 1)).filter
          (fun j => i < j ∧ L.testBit j = true), 2 ^ j) + (2 ^ 64 - 2 ^ 32)] := by
  obtain ⟨_, hM, _, _, hf, _, _⟩ := mem_init_spec L hL
  rw [hf, hM, sum_bits_above, Nat.mod_eq_of_lt Nat.lt_log2_self, if_pos ⟨hb, hH⟩,
    init_offset_wrap ⟨h31, hi⟩]

/-- C12 (initial decomposition) does not hold of the code: after `mem_init` on
`2 ^ 31 + 64` bytes bit 6 is set and the set bits above it sum to `2 ^ 31`, but the free
block of class 6 is at the offset `2 ^ 64 - 2 ^ 31`, that is `2 ^ 31` bytes before the
region: the step `mem += (1 << 31)` adds `INT_MIN`. -/
theorem mem_init_block_before_region :
    (1 : Nat) ≤ 2 ^ 31 + 64 ∧ (2 ^ 31 + 64 : Nat) < 2 ^ 32 ∧
    (Nat.testBit (2 ^ 31 + 64) 6 = true ∧ sizeof_Block < 2 ^ 6) ∧
    (mem_init (2 ^ 31 + 64)).max_pow2 = 31 ∧
    (mem_init (2 ^ 31 + 64)).free 31 = [0] ∧
    (∑ j in (Finset.range ((mem_init (2 ^ 31 + 64)).max_pow2 + 1)).filter
      (fun j => 6 < j ∧ Nat.testBit (2 ^ 31 + 64) j = true), 2 ^ j) = 2 ^ 31 ∧
    (mem_init (2 ^ 31 + 64)).free 6 = [2 ^ 64 - 2 ^ 31] ∧
    (mem_init (2 ^ 31 + 64)).free 6 ≠ [2 ^ 31] := by
  have hM : (mem_init (2 ^ 31 + 64)).max_pow2 = 31 := by decide
  refine ⟨by norm_num, by norm_num, ⟨by decide, by decide⟩, hM, by decide, ?_, by decide,
    by decide⟩
  rw [hM, sum_bits_above]
  norm_num

/-- C13 (freeing `NULL` is a no-op): in every state `my_free(NULL)` returns with the whole
state as it was, so `mem_get_stats` reports the same record, with the same
`num_blocks_free`, before and after. -/
theorem my_free_null_unchanged (s : memory_manager_state) :
    my_free s none = some s ∧
    ∀ s1, my_free s none = some s1 → s1 = s ∧ mem_get_stats s1 = mem_get_stats s ∧
      (mem_get_stats s1).map (fun st => st.num_blocks_free) =
        (mem_get_stats s).map (fun st => st.num_blocks_free) := by
  refine ⟨rfl, fun s1 h => ?_⟩
  have : s = s1 := by simpa [my_free] using h
  subst this
  exact ⟨rfl, rfl, rfl⟩

/-- Instance of C13 in the state after one `my_malloc(1)` on a region of 64 bytes. -/
theorem my_free_null_unchanged_witness :
    my_free state_after_malloc none = some state_after_malloc ∧
    ∀ s1, my_free state_after_malloc none = some s1 →
      s1 = state_after_malloc ∧ mem_get_stats s1 = mem_get_stats state_after_malloc ∧
      (mem_get_stats s1).map (fun st => st.num_blocks_free) =
        (mem_get_stats state_after_malloc).map (fun st => st.num_blocks_free) :=
  my_free_null_unchanged state_after_malloc

/-! ## Claims on the blocks of the outstanding allocations and on the lists -/

/-- On a region of at most `2 ^ 31` bytes an initial block ends inside the region. -/
theorem InitBlk.end_le {L i D : Nat} (h : InitBlk L i D) (hL : L ≤ 2 ^ 31) :
    D + 2 ^ i ≤ L := by
  have hbit : L / 2 ^ i % 2 = 1 := by
    have := h.1
    rw [Nat.testBit_to_div_mod] at this
    simpa using this
  have e1 : D + 2 ^ i = L / 2 ^ i * 2 ^ i := by
    rw [h.2.2, init_offset_small hL h.1]
    have : L / 2 ^ (i + 1) = L / 2 ^ i / 2 := by
      rw [pow_succ, Nat.div_div_eq_div_mul]
    rw [this]
    have h3 : L / 2 ^ i = 2 * (L / 2 ^ i / 2) + 1 := by omega
    generalize L / 2 ^ i = q at *
    generalize q / 2 = q2 at *
    subst h3
    rw [pow_succ]; ring
  rw [e1]
  exact Nat.div_mul_le_self L (2 ^ i)

/-- On a region of at most `2 ^ 31` bytes every block of a state with the invariant ends
inside the region. -/
theorem Core.block_end_le {L : Nat} {s : memory_manager_state} (c : Core L s)
    (hL : L ≤ 2 ^ 31) {k d : Nat} (h : IsBlk s k d) : d + 2 ^ k ≤ L := by
  obtain ⟨i, D, hi, _, _, h4⟩ := c.geo.confined k d h
  have := hi.end_le hL
  omega

/-- Along a call sequence every outstanding pointer with requested size `n` is the payload
address of a block on the used list of class `smallest_block(n)`, and the outstanding
pointers are pairwise distinct. -/
theorem ReachSized.sized_inv {L : Nat} {s : memory_manager_state} {al : List (Nat × Nat)}
    (h : ReachSized L s al) :
    Inv L s ∧ (al.map Prod.fst).Nodup ∧
      ∀ p n, (p, n) ∈ al → n ≠ 0 ∧ ∃ d, p = d + sizeof_Block ∧ d ∈ s.used (smallest_block n) := by
  induction h with
  | init hL =>
    exact ⟨mem_init_inv hL, List.nodup_nil, fun p n hp => absurd hp (List.not_mem_nil _)⟩
  | @malloc_ok s s1 al n p _ hm ih =>
    obtain ⟨hinv, hnd, hal⟩ := ih
    rcases my_malloc_result hinv hm with ⟨e, _⟩ | ⟨b, k, e, hn, _, _, _, _, h1, _, _, hb, hu, _⟩
    · exact absurd e (by simp)
    · have hp : p = b + sizeof_Block := by simpa using e
      subst hp
      refine ⟨h1, ?_, ?_⟩
      · rw [List.map_cons]
        refine List.nodup_cons.mpr ⟨?_, hnd⟩
        intro hmem
        obtain ⟨⟨p1, n1⟩, hmem1, e1⟩ := List.mem_map.mp hmem
        simp only at e1
        subst e1
        obtain ⟨_, d, e2, hd⟩ := hal _ _ hmem1
        have : d = b := by omega
        subst this
        exact hb _ hd
      · intro p1 n1 hmem
        rcases List.mem_cons.mp hmem with e1 | hmem1
        · have e2 : p1 = b + sizeof_Block := congrArg Prod.fst e1
          have e3 : n1 = n := congrArg Prod.snd e1
          subst e2; subst e3
          exact ⟨hn, b, rfl, by rw [hu, if_pos rfl]; exact List.mem_cons_self _ _⟩
        · obtain ⟨hn1, d, e2, hd⟩ := hal _ _ hmem1
          refine ⟨hn1, d, e2, ?_⟩
          rw [hu]
          split_ifs with hc
          · rw [hc] at hd ⊢; exact List.mem_cons_of_mem _ hd
          · exact hd
  | @malloc_null s s1 al n _ hm ih =>
    obtain ⟨hinv, hrest⟩ := ih
    rcases my_malloc_result hinv hm with ⟨_, e⟩ | ⟨b, k, e, _⟩
    · rw [e]; exact ⟨hinv, hrest⟩
    · exact absurd e (by simp)
  | @free_ptr s s1 al p n _ hp hf ih =>
    obtain ⟨hinv, hnd, hal⟩ := ih
    obtain ⟨_, d, e0, hd⟩ := hal p n hp
    subst e0
    obtain ⟨s2, e, h2, _, hu, _⟩ := my_free_spec hinv hd
    rw [e] at hf
    have : s2 = s1 := by simpa using hf
    subst this
    have hndal : al.Nodup := List.Nodup.of_map Prod.fst hnd
    refine ⟨h2, hnd.sublist ((List.erase_sublist _ _).map Prod.fst), ?_⟩
    intro p1 n1 hmem
    obtain ⟨hne, hmem1⟩ := (hndal.mem_erase_iff).mp hmem
    obtain ⟨hn1, d1, e1, hd1⟩ := hal _ _ hmem1
    subst e1
    have hdd : d1 ≠ d := by
      intro hc
      subst hc
      exact hne (List.inj_on_of_nodup_map hnd hmem1 hp rfl)
    refine ⟨hn1, d1, rfl, ?_⟩
    rw [hu]
    split_ifs with hc
    · exact (List.mem_erase_of_ne hdd).mpr hd1
    · exact hd1
  | @free_null s s1 al _ hf ih =>
    have : s = s1 := by simpa [my_free] using hf
    subst this
    exact ih

/-- Erasing a pair from a list with pairwise distinct first components erases its first
component from the list of the first components. -/
theorem map_fst_erase {al : List (Nat × Nat)} {p n : Nat} (hnd : (al.map Prod.fst).Nodup)
    (hp : (p, n) ∈ al) : (al.erase (p, n)).map Prod.fst = (al.map Prod.fst).erase p := by
  induction al with
  | nil => rfl
  | cons a rest ihl =>
    by_cases ha : a = (p, n)
    · subst ha
      simp
    · have hnd1 : (rest.map Prod.fst).Nodup := (List.nodup_cons.mp hnd).2
      have hprest : (p, n) ∈ rest := by
        rcases List.mem_cons.mp hp with h1 | h1
        · exact absurd h1.symm ha
        · exact h1
      have hne : a.1 ≠ p := by
        intro hc
        have hnot := (List.nodup_cons.mp hnd).1
        exact hnot (hc ▸ List.mem_map.mpr ⟨(p, n), hprest, rfl⟩)
      rw [List.erase_cons_tail (by simpa using ha), List.map_cons, List.map_cons,
        List.erase_cons_tail (by simpa using hne), ihl hnd1 hprest]

/-- The states of `ReachSized` are states of `Reach`, with the same outstanding pointers. -/
theorem ReachSized.reach {L : Nat} {s : memory_manager_state} {al : List (Nat × Nat)}
    (h : ReachSized L s al) : Reach L s (al.map Prod.fst) := by
  induction h with
  | init hL => exact Reach.init hL
  | malloc_ok _ hm ih => exact Reach.malloc_ok ih hm
  | malloc_null _ hm ih => exact Reach.malloc_null ih hm
  | @free_ptr s s1 al p n h0 hp hf ih =>
    rw [map_fst_erase h0.sized_inv.2.1 hp]
    exact Reach.free_ptr ih (List.mem_map.mpr ⟨(p, n), hp, rfl⟩) hf
  | free_null _ hf ih => exact Reach.free_null ih hf

/-- Every state of `Reach` is a state of `ReachSized`, with the same outstanding
pointers. -/
theorem Reach.sized {L : Nat} {s : memory_manager_state} {out : List Nat}
    (h : Reach L s out) : ∃ al, ReachSized L s al ∧ al.map Prod.fst = out := by
  induction h with
  | init hL => exact ⟨[], ReachSized.init hL, rfl⟩
  | @malloc_ok s s1 out n p _ hm ih =>
    obtain ⟨al, h1, e⟩ := ih
    exact ⟨(p, n) :: al, ReachSized.malloc_ok h1 hm, by rw [List.map_cons, e]⟩
  | malloc_null _ hm ih =>
    obtain ⟨al, h1, e⟩ := ih
    exact ⟨al, ReachSized.malloc_null h1 hm, e⟩
  | @free_ptr s s1 out p _ hp hf ih =>
    obtain ⟨al, h1, e⟩ := ih
    subst e
    obtain ⟨⟨p1, n⟩, hmem, e1⟩ := List.mem_map.mp hp
    simp only at e1
    subst e1
    exact ⟨al.erase (p1, n), ReachSized.free_ptr h1 hmem hf, map_fst_erase h1.sized_inv.2.1 hmem⟩
  | free_null _ hf ih =>
    obtain ⟨al, h1, e⟩ := ih
    exact ⟨al, ReachSized.free_null h1 hf, e⟩

/-- Along every call sequence from `mem_init` on `L < 2 ^ 31` bytes, an outstanding pointer
`p` of a request of `n` bytes is the payload address `d + sizeof(Block)` of a used block of
some class `k` at offset `d`; the bytes `p .. p + n` lie inside the block, which lies inside
the region; the block is disjoint from every free block and from the block of every other
outstanding pointer. -/
theorem allocations_disjoint_small (L : Nat) (s : memory_manager_state)
    (al : List (Nat × Nat)) (h : ReachSized L s al) (hL : L < 2 ^ 31) :
    ∀ p n, (p, n) ∈ al → ∃ k d, d ∈ s.used k ∧ p = d + sizeof_Block ∧
      p + n ≤ d + 2 ^ k ∧ d + 2 ^ k ≤ L ∧
      (∀ k1 d1, d1 ∈ s.free k1 → d + 2 ^ k ≤ d1 ∨ d1 + 2 ^ k1 ≤ d) ∧
      (∀ p1 n1, (p1, n1) ∈ al → p1 ≠ p → ∃ k1 d1, d1 ∈ s.used k1 ∧
        p1 = d1 + sizeof_Block ∧ (d + 2 ^ k ≤ d1 ∨ d1 + 2 ^ k1 ≤ d)) := by
  obtain ⟨hinv, _, hal⟩ := h.sized_inv
  have c := hinv.1
  intro p n hp
  obtain ⟨_, d, e, hd⟩ := hal p n hp
  subst e
  have hend := c.block_end_le (le_of_lt hL) (Or.inr hd)
  have hr : smallest_block n ≤ 30 := by
    by_contra hc
    have := Nat.pow_le_pow_right (show 0 < 2 by norm_num) (show 31 ≤ smallest_block n by omega)
    omega
  have hsz := smallest_block_fits hr
  refine ⟨smallest_block n, d, hd, rfl, by omega, hend, ?_, ?_⟩
  · intro k1 d1 hd1
    by_contra hc
    obtain ⟨e1, e2⟩ := c.geo.disjoint _ _ _ _ (Or.inr hd) (Or.inl hd1) (by omega) (by omega)
    subst e1; subst e2
    exact c.not_free_and_used hd1 hd
  · intro p1 n1 hp1 hne
    obtain ⟨_, d1, e1, hd1⟩ := hal p1 n1 hp1
    subst e1
    refine ⟨smallest_block n1, d1, hd1, rfl, ?_⟩
    by_contra hc
    obtain ⟨_, e2⟩ := c.geo.disjoint _ _ _ _ (Or.inr hd) (Or.inr hd1) (by omega) (by omega)
    exact hne (by rw [e2])

/-- The call sequence `my_malloc(1)`, `my_malloc(1)` on a region of 64 bytes. -/
theorem reach_sized_two : ReachSized 64 state_after_two_mallocs [(24, 1), (56, 1)] :=
  ReachSized.malloc_ok
    (ReachSized.malloc_ok (ReachSized.init (by norm_num))
      (show my_malloc (mem_init 64) 1 = some (some 56, state_after_malloc) from rfl))
    (show my_malloc state_after_malloc 1 = some (some 24, state_after_two_mallocs) from rfl)

/-- After two calls `my_malloc(1)` on a region of 64 bytes, which return the offsets 56 and
24, the two allocations lie in disjoint blocks inside the region. -/
theorem allocations_disjoint_two :
    ReachSized 64 state_after_two_mallocs [(24, 1), (56, 1)] ∧
    ∀ p n, (p, n) ∈ [(24, 1), (56, 1)] → ∃ k d,
      d ∈ state_after_two_mallocs.used k ∧
      p = d + sizeof_Block ∧ p + n ≤ d + 2 ^ k ∧ d + 2 ^ k ≤ 64 ∧
      (∀ k1 d1, d1 ∈ state_after_two_mallocs.free k1 → d + 2 ^ k ≤ d1 ∨ d1 + 2 ^ k1 ≤ d) ∧
      (∀ p1 n1, (p1, n1) ∈ [(24, 1), (56, 1)] → p1 ≠ p → ∃ k1 d1,
        d1 ∈ state_after_two_mallocs.used k1 ∧
        p1 = d1 + sizeof_Block ∧ (d + 2 ^ k ≤ d1 ∨ d1 + 2 ^ k1 ≤ d)) :=
  ⟨reach_sized_two,
    allocations_disjoint_small 64 state_after_two_mallocs [(24, 1), (56, 1)] reach_sized_two
      (by norm_num)⟩

/-- The call `my_malloc(2 ^ 31)` right after `mem_init` on `2 ^ 31` bytes. -/
theorem reach_sized_big :
    ReachSized (2 ^ 31) state_after_big_malloc [(24, 2 ^ 31)] :=
  ReachSized.malloc_ok (ReachSized.init (by norm_num))
    (show my_malloc (mem_init (2 ^ 31)) (2 ^ 31) = some (some 24, state_after_big_malloc)
      from rfl)

/-- The call `my_malloc(1)` right after `mem_init` on `2 ^ 31 + 64` bytes. -/
theorem reach_sized_low :
    ReachSized (2 ^ 31 + 64) state_after_low_malloc [(2 ^ 64 - 2 ^ 31 + 56, 1)] :=
  ReachSized.malloc_ok (ReachSized.init (by norm_num))
    (show my_malloc (mem_init (2 ^ 31 + 64)) 1 =
      some (some (2 ^ 64 - 2 ^ 31 + 56), state_after_low_malloc) from rfl)

/-- C14 (outstanding allocations never overlap) does not hold of the code.  On a region of
`2 ^ 31` bytes `my_malloc(2 ^ 31)` returns offset 24 of the block of class 31 at offset 0:
the `2 ^ 31` bytes from offset 24 end after the block and after the region.  On a region of
`2 ^ 31 + 64` bytes `my_malloc(1)` returns the payload of the block of class 5 at the offset
`2 ^ 64 - 2 ^ 31 + 32`, which is `2 ^ 31 - 32` bytes before the region. -/
theorem allocation_outside_block :
    (ReachSized (2 ^ 31) state_after_big_malloc [(24, 2 ^ 31)] ∧
      smallest_block (2 ^ 31) = 31 ∧ state_after_big_malloc.used 31 = [0] ∧
      ¬ ∃ k d, d ∈ state_after_big_malloc.used k ∧ 24 = d + sizeof_Block ∧
        24 + 2 ^ 31 ≤ d + 2 ^ k ∧ d + 2 ^ k ≤ 2 ^ 31) ∧
    (ReachSized (2 ^ 31 + 64) state_after_low_malloc [(2 ^ 64 - 2 ^ 31 + 56, 1)] ∧
      state_after_low_malloc.used 5 = [2 ^ 64 - 2 ^ 31 + 32] ∧
      ¬ ∃ k d, d ∈ state_after_low_malloc.used k ∧
        2 ^ 64 - 2 ^ 31 + 56 = d + sizeof_Block ∧
        2 ^ 64 - 2 ^ 31 + 56 + 1 ≤ d + 2 ^ k ∧ d + 2 ^ k ≤ 2 ^ 31 + 64) := by
  refine ⟨⟨reach_sized_big, by decide, by decide, ?_⟩, reach_sized_low, by decide, ?_⟩
  · rintro ⟨k, d, _, _, h1, h2⟩
    omega
  · rintro ⟨k, d, _, _, h1, h2⟩
    omega

/-- For `n + sizeof(Block) ≤ 2 ^ 31`, `smallest_block(n)` is the smallest `k` with
`2 ^ k ≥ n + sizeof(Block)`: the bound holds for `k`, every class with the bound is at least
`k`, and `2 ^ (k - 1) < n + sizeof(Block)` when `k > 0`. -/
theorem smallest_block_least_small (n : Nat) (hn : n + sizeof_Block ≤ 2 ^ 31) :
    n + sizeof_Block ≤ 2 ^ smallest_block n ∧
    (∀ k, n + sizeof_Block ≤ 2 ^ k → smallest_block n ≤ k) ∧
    (0 < smallest_block n → 2 ^ (smallest_block n - 1) < n + sizeof_Block) := by
  obtain ⟨h1, h2⟩ := smallest_block_spec n hn
  refine ⟨h1, h2, fun hpos => ?_⟩
  by_contra hc
  have := h2 (smallest_block n - 1) (by omega)
  omega

/-- C15 (size-to-class mapping) does not hold of the code for sizes above
`2 ^ 31 - sizeof(Block)`: for `n + sizeof(Block)` above `2 ^ 31` and below `2 ^ 32`
`smallest_block(n)` is 31, and for `n + sizeof(Block) = 2 ^ 32` it is 33. -/
theorem smallest_block_int_shift :
    (smallest_block (2 ^ 31 - 23) = 31 ∧ 2 ^ 31 < 2 ^ 31 - 23 + sizeof_Block) ∧
    (smallest_block (2 ^ 32 - 25) = 31 ∧ 2 ^ 31 < 2 ^ 32 - 25 + sizeof_Block) ∧
    (smallest_block (2 ^ 32 - 24) = 33 ∧ 2 ^ 32 - 24 + sizeof_Block ≤ 2 ^ 32) := by
  decide

/-- The search loop of `my_malloc` stops at a class from the required one on whose counter
is not 0. -/
theorem find_best_free_found (nf : Nat → Int) (M : Nat) :
    ∀ gap bf k, find_best_free nf M gap bf = some k → bf ≤ k ∧ nf k ≠ 0 := by
  intro gap
  induction gap with
  | zero =>
    intro bf k h
    unfold find_best_free at h
    split_ifs at h with h0
    have : bf = k := by simpa using h
    subst this
    exact ⟨le_refl _, h0⟩
  | succ gap ih =>
    intro bf k h
    unfold find_best_free at h
    split_ifs at h with h0 h1
    · obtain ⟨h2, h3⟩ := ih (bf + 1) k h
      exact ⟨by omega, h3⟩
    · have : bf = k := by simpa using h
      subst this
      exact ⟨le_refl _, h0⟩

/-- C16 (list counts): in a reachable state `num_free[k]` and `num_used[k]` are the lengths
of the free and the used list of class `k`; so every call of `my_malloc` returns, and when
its search stops at class `best`, the list that `pop_free_block` is called on for a class
`j` from the required one up to `best`, in the state after the splits from `best` down to
`j + 1`, is not empty. -/
theorem list_counts (L : Nat) (s : memory_manager_state) (out : List Nat)
    (h : Reach L s out) :
    (∀ k, s.num_free k = (s.free k).length ∧ s.num_used k = (s.used k).length) ∧
    (∀ n, ∃ res s1, my_malloc s n = some (res, s1)) ∧
    (∀ n best, find_best_free s.num_free s.max_pow2 (s.max_pow2 - smallest_block n)
        (smallest_block n) = some best →
      ∀ j, smallest_block n ≤ j → j ≤ best →
        ∃ sj, split_loop j best s = some sj ∧ sj.free j ≠ [] ∧
          pop_free_block sj j ≠ none) := by
  obtain ⟨hinv, _⟩ := h.inv
  refine ⟨fun k => ⟨hinv.1.cnt_free k, hinv.1.cnt_used k⟩, h.malloc_returns, ?_⟩
  intro n best hfind j _ hj2
  obtain ⟨_, hnz⟩ := find_best_free_found _ _ _ _ _ hfind
  obtain ⟨sj, e, hP, _⟩ := InvP.split_down j best s hj2 (hinv.toInvP (hinv.1.free_ne_nil hnz))
  refine ⟨sj, e, hP.2.1, ?_⟩
  obtain ⟨b, rest, hb⟩ := List.exists_cons_of_ne_nil hP.2.1
  simp [pop_free_block, hb]

/-- Instance of C16 in the state after one `my_malloc(1)` on a region of 64 bytes. -/
theorem list_counts_witness :
    Reach 64 state_after_malloc [56] ∧
    ((∀ k, state_after_malloc.num_free k = (state_after_malloc.free k).length ∧
      state_after_malloc.num_used k = (state_after_malloc.used k).length) ∧
    (∀ n, ∃ res s1, my_malloc state_after_malloc n = some (res, s1)) ∧
    (∀ n best, find_best_free state_after_malloc.num_free state_after_malloc.max_pow2
        (state_after_malloc.max_pow2 - smallest_block n) (smallest_block n) = some best →
      ∀ j, smallest_block n ≤ j → j ≤ best →
        ∃ sj, split_loop j best state_after_malloc = some sj ∧ sj.free j ≠ [] ∧
          pop_free_block sj j ≠ none)) :=
  ⟨reach_state_after_malloc, list_counts 64 state_after_malloc [56] reach_state_after_malloc⟩

/-- C17 (class correctness): in a reachable state every block on the free or the used list
of class `k` has header field `size_pow2` equal to `k` and starts at an offset divisible by
`2 ^ k`. -/
theorem class_correct (L : Nat) (s : memory_manager_state) (out : List Nat)
    (h : Reach L s out) :
    ∀ k d, d ∈ s.free k ∨ d ∈ s.used k → s.size_pow2 d = k ∧ 2 ^ k ∣ d := by
  obtain ⟨hinv, _⟩ := h.inv
  intro k d hd
  exact ⟨hinv.1.hdr k d hd, hinv.1.geo.aligned k d hd⟩

/-- Instance of C17 in the state after one `my_malloc(1)` on a region of 64 bytes. -/
theorem class_correct_witness :
    Reach 64 state_after_malloc [56] ∧
    ∀ k d, d ∈ state_after_malloc.free k ∨ d ∈ state_after_malloc.used k →
      state_after_malloc.size_pow2 d = k ∧ 2 ^ k ∣ d :=
  ⟨reach_state_after_malloc, class_correct 64 state_after_malloc [56] reach_state_after_malloc⟩

/-! ## Claims on buddies, the partition of the region and `try_merge` -/

/-- The buddy offset of the lower half of an aligned pair. -/
theorem xor_lower {k a : Nat} (h : 2 ^ (k + 1) ∣ a) : a ^^^ 2 ^ k = a + 2 ^ k := by
  obtain ⟨q, rfl⟩ := h
  apply Nat.eq_of_testBit_eq
  intro j
  rw [Nat.testBit_xor, Nat.testBit_two_pow, Nat.testBit_mul_pow_two]
  rcases Nat.lt_trichotomy j k with hj | hj | hj
  · rw [Nat.add_comm (2 ^ (k + 1) * q) (2 ^ k), Nat.testBit_two_pow_add_gt hj,
      Nat.testBit_mul_pow_two]
    have h1 : ¬ j ≥ k + 1 := by omega
    have h2 : ¬ k = j := by omega
    simp [h1, h2]
  · subst hj
    rw [Nat.add_comm (2 ^ (j + 1) * q) (2 ^ j), Nat.testBit_two_pow_add_eq,
      Nat.testBit_mul_pow_two]
    have h1 : ¬ j ≥ j + 1 := by omega
    simp [h1]
  · have e : 2 ^ (k + 1) * q + 2 ^ k = 2 ^ k * (2 * q + 1) := by rw [pow_succ]; ring
    rw [e, Nat.testBit_mul_pow_two]
    obtain ⟨m, rfl⟩ : ∃ m, j = k + 1 + m := ⟨j - (k + 1), by omega⟩
    have h1 : k + 1 + m ≥ k + 1 := by omega
    have h2 : k + 1 + m ≥ k := by omega
    have h3 : ¬ k = k + 1 + m := by omega
    have h4 : k + 1 + m - (k + 1) = m := by omega
    have h5 : k + 1 + m - k = m + 1 := by omega
    have h6 : (2 * q + 1) / 2 = q := by omega
    simp [h1, h2, h3, h4, h5, Nat.testBit_add_one, h6]

/-- The buddy offset of the upper half of an aligned pair. -/
theorem xor_upper {k a : Nat} (h : 2 ^ (k + 1) ∣ a) : (a + 2 ^ k) ^^^ 2 ^ k = a := by
  rw [← xor_lower h, Nat.xor_assoc, Nat.xor_self, Nat.xor_zero]

/-- For two distinct aligned blocks of class `k`, the test of `try_merge` is the test that
one offset is the other with bit `k` flipped. -/
theorem buddy_iff_xor {k a b : Nat} (ha : 2 ^ k ∣ a) (hb : 2 ^ k ∣ b) (hne : a ≠ b) :
    (2 ^ (k + 1) ∣ min a b ∧ min a b + 2 ^ k = max a b) ↔ b = a ^^^ 2 ^ k := by
  have hpos : 0 < 2 ^ k := by positivity
  rcases lower_or_upper ha with h | ⟨h1, h2⟩
  · rw [xor_lower h]
    constructor
    · rintro ⟨hd, hadj⟩
      rcases le_total a b with hle | hle
      · rw [min_eq_left hle, max_eq_right hle] at hadj; omega
      · rw [min_eq_right hle, max_eq_left hle] at hadj
        rw [min_eq_right hle] at hd
        rw [← hadj] at h
        exact absurd h (not_dvd_add_half hd)
    · intro e
      subst e
      rw [min_eq_left (by omega), max_eq_right (by omega)]
      exact ⟨h, rfl⟩
  · have e : a = a - 2 ^ k + 2 ^ k := by omega
    have hx : a ^^^ 2 ^ k = a - 2 ^ k := by
      conv_lhs => rw [e]
      exact xor_upper h2
    rw [hx]
    constructor
    · rintro ⟨hd, hadj⟩
      rcases le_total a b with hle | hle
      · rw [min_eq_left hle] at hd
        rw [e] at hd
        exact absurd hd (not_dvd_add_half h2)
      · rw [min_eq_right hle, max_eq_left hle] at hadj; omega
    · intro e1
      have hle : b ≤ a := by omega
      rw [min_eq_right hle, max_eq_left hle, e1]
      exact ⟨h2, by omega⟩

/-- C18 (no free buddies between public calls): in a reachable state no two blocks on the
free list of a class `k` have offsets `d` and `d XOR 2 ^ k`. -/
theorem no_free_buddies (L : Nat) (s : memory_manager_state) (out : List Nat)
    (h : Reach L s out) :
    ∀ k d d1, d ∈ s.free k → d1 ∈ s.free k → d1 ≠ d ^^^ 2 ^ k := by
  obtain ⟨hinv, _⟩ := h.inv
  intro k d d1 hd hd1 e
  have hal := hinv.1.geo.aligned k d (Or.inl hd)
  rcases lower_or_upper hal with h1 | ⟨h1, h2⟩
  · rw [xor_lower h1] at e
    subst e
    exact hinv.2 k d hd hd1 h1
  · have e2 : d = d - 2 ^ k + 2 ^ k := by omega
    have hx : d ^^^ 2 ^ k = d - 2 ^ k := by
      conv_lhs => rw [e2]
      exact xor_upper h2
    rw [hx] at e
    subst e
    exact hinv.2 k (d - 2 ^ k) hd1 (by rw [← e2]; exact hd) h2

/-- Instance of C18 in the state after one `my_malloc(1)` on a region of 64 bytes. -/
theorem no_free_buddies_witness :
    Reach 64 state_after_malloc [56] ∧
    ∀ k d d1, d ∈ state_after_malloc.free k → d1 ∈ state_after_malloc.free k →
      d1 ≠ d ^^^ 2 ^ k :=
  ⟨reach_state_after_malloc,
    no_free_buddies 64 state_after_malloc [56] reach_state_after_malloc⟩

/-- The classes of the initial blocks start at 5. -/
theorem class_ge_five {i : Nat} (h : sizeof_Block < 2 ^ i) : 5 ≤ i := by
  by_contra hc
  have : 2 ^ i ≤ 2 ^ 4 := Nat.pow_le_pow_right (by norm_num) (by omega)
  unfold sizeof_Block at h
  omega

theorem sizeof_Block_lt_iff (i : Nat) : sizeof_Block < 2 ^ i ↔ 4 < i := by
  constructor
  · intro h; have := class_ge_five h; omega
  · intro h
    have : 2 ^ 5 ≤ 2 ^ i := Nat.pow_le_pow_right (by norm_num) (by omega)
    unfold sizeof_Block
    omega

/-- The bytes that `mem_init` hands out are the region length with the bits below class 5
cleared. -/
theorem usable_bytes_eq {L : Nat} (hL : L < 2 ^ 32) :
    usable_bytes L = ((L / 2 ^ 5 * 2 ^ 5 : Nat) : Int) := by
  have h := sum_bits_above L 4 MAX_OS_POW2
  have hmod : L % 2 ^ MAX_OS_POW2 = L := Nat.mod_eq_of_lt (by
    unfold MAX_OS_POW2
    exact lt_trans hL (by norm_num))
  rw [hmod, Finset.sum_filter] at h
  rw [← h]
  unfold usable_bytes
  push_cast
  refine Finset.sum_congr rfl (fun i _ => ?_)
  by_cases hb : L.testBit i = true
  · by_cases hi : 4 < i
    · rw [if_pos ⟨hb, (sizeof_Block_lt_iff i).mpr hi⟩, if_pos ⟨hi, hb⟩]
    · rw [if_neg (fun hc => hi ((sizeof_Block_lt_iff i).mp hc.2)), if_neg (fun hc => hi hc.1)]
  · rw [if_neg (fun hc => hb hc.1), if_neg (fun hc => hb hc.2)]

/-- On a region of at most `2 ^ 31` bytes every byte below the usable length lies in an
initial block. -/
theorem init_blocks_cover (L x : Nat) (hL : L ≤ 2 ^ 31) (hx : x < L / 2 ^ 5 * 2 ^ 5) :
    ∃ i D, InitBlk L i D ∧ D ≤ x ∧ x < D + 2 ^ i := by
  have key : ∀ i, 4 ≤ i → L / 2 ^ (i + 1) * 2 ^ (i + 1) ≤ x →
      ∃ j D, InitBlk L j D ∧ D ≤ x ∧ x < D + 2 ^ j := by
    intro i
    induction i with
    | zero => intro h; omega
    | succ i ih =>
      intro hi hc
      by_cases h4 : i + 1 = 4
      · have e : i = 3 := by omega
        subst e
        omega
      · have hstep := cursor_step L i
        have hc1 : L / 2 ^ (i + 2) * 2 ^ (i + 2) ≤ x := hc
        by_cases hlt : x < L / 2 ^ (i + 1) * 2 ^ (i + 1)
        · by_cases hbit : L.testBit (i + 1) = true
          · rw [if_pos hbit] at hstep
            have hoff : init_offset L (i + 1) = L / 2 ^ (i + 2) * 2 ^ (i + 2) :=
              init_offset_small hL hbit
            refine ⟨i + 1, _, ⟨hbit, (sizeof_Block_lt_iff (i + 1)).mpr (by omega), rfl⟩, ?_,
              ?_⟩
            · rw [hoff]; exact hc1
            · rw [hoff]; omega
          · rw [if_neg hbit] at hstep
            omega
        · exact ih (by omega) (by omega)
  have h32 : 2 ^ 5 ≤ L := by
    by_contra hc
    rw [Nat.div_eq_of_lt (by omega)] at hx
    omega
  have hL0 : L ≠ 0 := by omega
  have hlog : 4 ≤ Nat.log2 L := by
    have := (Nat.le_log2 hL0).mpr h32
    omega
  refine key (Nat.log2 L) hlog ?_
  rw [Nat.div_eq_of_lt Nat.lt_log2_self]
  omega

/-- On a region of at most `2 ^ 31` bytes every initial block ends at or below the usable
length. -/
theorem InitBlk.end_le_usable {L i D : Nat} (h : InitBlk L i D) (hL : L ≤ 2 ^ 31) :
    D + 2 ^ i ≤ L / 2 ^ 5 * 2 ^ 5 := by
  have h5 := class_ge_five h.2.1
  -- the end of the block is `L` with the bits below `i` cleared
  have hbit : L / 2 ^ i % 2 = 1 := by
    have := h.1
    rw [Nat.testBit_to_div_mod] at this
    simpa using this
  have e1 : D + 2 ^ i = L / 2 ^ i * 2 ^ i := by
    rw [h.2.2, init_offset_small hL h.1]
    have : L / 2 ^ (i + 1) = L / 2 ^ i / 2 := by
      rw [pow_succ, Nat.div_div_eq_div_mul]
    rw [this]
    have h3 : L / 2 ^ i = 2 * (L / 2 ^ i / 2) + 1 := by omega
    generalize L / 2 ^ i = q at *
    generalize q / 2 = q2 at *
    subst h3
    rw [pow_succ]; ring
  rw [e1]
  have hs : 2 ^ i = 2 ^ 5 * 2 ^ (i - 5) := two_pow_split h5
  rw [hs, ← Nat.div_div_eq_div_mul]
  generalize L / 2 ^ 5 = q
  generalize 2 ^ (i - 5) = c
  calc q / c * (2 ^ 5 * c) = (q / c * c) * 2 ^ 5 := by ring
    _ ≤ q * 2 ^ 5 := Nat.mul_le_mul_right _ (Nat.div_mul_le_self q c)

/-- On a region of at most `2 ^ 31` bytes every block of a state with the invariant ends at
or below the usable length. -/
theorem Core.block_end_le_usable {L : Nat} {s : memory_manager_state} (c : Core L s)
    (hL : L ≤ 2 ^ 31) {k d : Nat} (h : IsBlk s k d) : d + 2 ^ k ≤ L / 2 ^ 5 * 2 ^ 5 := by
  obtain ⟨i, D, hi, _, _, h4⟩ := c.geo.confined k d h
  have := hi.end_le_usable hL
  omega

/-- C19, as stated, fails on a region of 1000 bytes: right after `mem_init` the byte at
offset 992 of the region belongs to no block. -/
theorem partition_misses_tail :
    Reach 1000 (mem_init 1000) [] ∧ 992 < 1000 ∧
    ¬ ∃ k d, IsBlk (mem_init 1000) k d ∧ d ≤ 992 ∧ 992 < d + 2 ^ k := by
  have hr : Reach 1000 (mem_init 1000) [] := Reach.init (by norm_num)
  refine ⟨hr, by norm_num, ?_⟩
  rintro ⟨k, d, hb, _, h2⟩
  have := hr.inv.1.1.block_end_le_usable (by norm_num) hb
  norm_num at this
  omega

/-- C19 (amended): in a state reached from `mem_init` on `L ≤ 2 ^ 31` bytes, every byte
offset below `usable_bytes L`, the sum of `2 ^ i` over the bits `i` set in `L` with
`2 ^ i > sizeof(Block)`, belongs to exactly one block on the free or used lists, a block
is on one list only and once, and the offsets from `usable_bytes L` on, fewer than 32 of
them inside the region, belong to no block. -/
theorem partition_usable (L : Nat) (s : memory_manager_state) (out : List Nat)
    (h : Reach L s out) (hL : L ≤ 2 ^ 31) :
    (∀ x : Nat, (x : Int) < usable_bytes L →
      ∃ k d, IsBlk s k d ∧ d ≤ x ∧ x < d + 2 ^ k ∧
        ∀ k1 d1, IsBlk s k1 d1 → d1 ≤ x → x < d1 + 2 ^ k1 → k1 = k ∧ d1 = d) ∧
    (∀ k, (s.free k ++ s.used k).Nodup) ∧
    (∀ x : Nat, usable_bytes L ≤ (x : Int) →
      ¬ ∃ k d, IsBlk s k d ∧ d ≤ x ∧ x < d + 2 ^ k) ∧
    (usable_bytes L ≤ (L : Int) ∧ (L : Int) - usable_bytes L < 32) := by
  obtain ⟨hinv, _⟩ := h.inv
  have c := hinv.1
  rw [usable_bytes_eq c.len]
  refine ⟨fun x hx => ?_, c.nodup, fun x hx => ?_, ?_⟩
  · have hx1 : x < L / 2 ^ 5 * 2 ^ 5 := by exact_mod_cast hx
    obtain ⟨i, D, hi, h1, h2⟩ := init_blocks_cover L x hL hx1
    obtain ⟨k, d, hb, h3, h4⟩ := c.geo.cover i D hi x h1 h2
    refine ⟨k, d, hb, h3, h4, fun k1 d1 hb1 h5 h6 => ?_⟩
    exact c.geo.disjoint k1 d1 k d hb1 hb (by omega) (by omega)
  · rintro ⟨k, d, hb, _, h2⟩
    have := c.block_end_le_usable hL hb
    have hx1 : L / 2 ^ 5 * 2 ^ 5 ≤ x := by exact_mod_cast hx
    omega
  · have h1 : L / 2 ^ 5 * 2 ^ 5 ≤ L := Nat.div_mul_le_self L _
    have h2 : L < L / 2 ^ 5 * 2 ^ 5 + 2 ^ 5 := by
      have := Nat.div_add_mod L (2 ^ 5)
      have := Nat.mod_lt L (show 0 < 2 ^ 5 by norm_num)
      omega
    constructor
    · exact_mod_cast h1
    · have h3 : (L : Int) < ((L / 2 ^ 5 * 2 ^ 5 : Nat) : Int) + 32 := by exact_mod_cast h2
      omega

/-- Instance of the amended C19 in the state after one `my_malloc(1)` on a region of 64
bytes. -/
theorem partition_usable_witness :
    Reach 64 state_after_malloc [56] ∧ 64 ≤ 2 ^ 31 ∧
    ((∀ x : Nat, (x : Int) < usable_bytes 64 →
      ∃ k d, IsBlk state_after_malloc k d ∧ d ≤ x ∧ x < d + 2 ^ k ∧
        ∀ k1 d1, IsBlk state_after_malloc k1 d1 → d1 ≤ x → x < d1 + 2 ^ k1 →
          k1 = k ∧ d1 = d) ∧
    (∀ k, (state_after_malloc.free k ++ state_after_malloc.used k).Nodup) ∧
    (∀ x : Nat, usable_bytes 64 ≤ (x : Int) →
      ¬ ∃ k d, IsBlk state_after_malloc k d ∧ d ≤ x ∧ x < d + 2 ^ k) ∧
    (usable_bytes 64 ≤ ((64 : Nat) : Int) ∧ ((64 : Nat) : Int) - usable_bytes 64 < 32)) :=
  ⟨reach_state_after_malloc, by norm_num,
    partition_usable 64 state_after_malloc [56] reach_state_after_malloc (by norm_num)⟩

/-- The result of `try_merge` does not depend on the order of its arguments. -/
theorem try_merge_comm (s : memory_manager_state) (a b : Nat) :
    try_merge s b a = try_merge s a b := by
  have hlo : (if a < b then a else b) = if b < a then b else a := by
    split_ifs <;> omega
  have hhi : (if a < b then b else a) = if b < a then a else b := by
    split_ifs <;> omega
  simp only [try_merge, hlo, hhi]

/-- C20 (`try_merge` decides buddyhood): for two distinct blocks on free list `k` with
header class `k` and offsets `a`, `b` divisible by `2 ^ k`, `try_merge` returns true exactly
when `b = a XOR 2 ^ k`, in either order of the arguments.  When it returns true, both
blocks are removed from free list `k`, `num_free[k]` drops by 2, the lower block is at the
head of free list `k + 1` with `size_pow2 = k + 1`, `num_free[k + 1]` grows by 1, and nothing
else changes; when it returns false the state is unchanged. -/
theorem try_merge_decides (s : memory_manager_state) (a b k : Nat) (ha : a ∈ s.free k)
    (hb : b ∈ s.free k) (hne : a ≠ b) (hha : s.size_pow2 a = k) (hhb : s.size_pow2 b = k)
    (hda : 2 ^ k ∣ a) (hdb : 2 ^ k ∣ b) :
    ((try_merge s a b).1 = true ↔ b = a ^^^ 2 ^ k) ∧
    try_merge s b a = try_merge s a b ∧
    ((try_merge s a b).1 = true →
      (try_merge s a b).2.free k = ((s.free k).erase (min a b)).erase (max a b) ∧
      ((try_merge s a b).2.free k).length + 2 = (s.free k).length ∧
      (try_merge s a b).2.num_free k = s.num_free k - 2 ∧
      (try_merge s a b).2.free (k + 1) = min a b :: s.free (k + 1) ∧
      (try_merge s a b).2.size_pow2 (min a b) = k + 1 ∧
      (try_merge s a b).2.num_free (k + 1) = s.num_free (k + 1) + 1 ∧
      (∀ j, j ≠ k → j ≠ k + 1 → (try_merge s a b).2.free j = s.free j ∧
        (try_merge s a b).2.num_free j = s.num_free j) ∧
      (∀ d, d ≠ min a b → (try_merge s a b).2.size_pow2 d = s.size_pow2 d) ∧
      (try_merge s a b).2.used = s.used ∧ (try_merge s a b).2.num_used = s.num_used ∧
      (try_merge s a b).2.mem_size = s.mem_size ∧
      (try_merge s a b).2.max_pow2 = s.max_pow2) ∧
    ((try_merge s a b).1 = false → (try_merge s a b).2 = s) := by
  have hiff := buddy_iff_xor hda hdb hne
  refine ⟨?_, try_merge_comm s a b, ?_, ?_⟩
  · rcases try_merge_spec s a b k hha hhb with ⟨hno, e⟩ | ⟨h1, h2, s1, e, _⟩
    · rw [e]
      exact ⟨fun h => absurd h (by simp), fun h => absurd (hiff.mpr h) hno⟩
    · rw [e]
      exact ⟨fun _ => hiff.mp ⟨h1, h2⟩, fun _ => rfl⟩
  · rcases try_merge_spec s a b k hha hhb with ⟨hno, e⟩ | ⟨h1, h2, s1, e, hm, hM, hu, hnu, hf, hnf, hh⟩
    · rw [e]
      intro h
      exact absurd h (by simp)
    · rw [e]
      intro _
      have hk1 : k ≠ k + 1 := by omega
      have hmin : min a b ∈ s.free k := by
        rcases min_choice a b with h | h <;> rw [h] <;> assumption
      have hmaxne : max a b ≠ min a b := by
        rcases le_total a b with h | h
        · rw [max_eq_right h, min_eq_left h]; exact fun e => hne e.symm
        · rw [max_eq_left h, min_eq_right h]; exact hne
      have hmax : max a b ∈ (s.free k).erase (min a b) := by
        refine (List.mem_erase_of_ne hmaxne).mpr ?_
        rcases max_choice a b with h | h <;> rw [h] <;> assumption
      refine ⟨?_, ?_, ?_, ?_, ?_, ?_, ?_, ?_, hu, hnu, hm, hM⟩
      · show s1.free k = _
        rw [hf, if_neg hk1, if_pos rfl]
      · show (s1.free k).length + 2 = _
        rw [hf, if_neg hk1, if_pos rfl, List.length_erase_of_mem hmax,
          List.length_erase_of_mem hmin]
        have l1 := List.length_pos_of_mem hmin
        have l2 := List.length_pos_of_mem hmax
        rw [List.length_erase_of_mem hmin] at l2
        omega
      · show s1.num_free k = _
        rw [hnf, if_neg hk1, if_pos rfl]
      · show s1.free (k + 1) = _
        rw [hf, if_pos rfl]
      · show s1.size_pow2 (min a b) = _
        rw [hh, if_pos rfl]
      · show s1.num_free (k + 1) = _
        rw [hnf, if_pos rfl]
      · intro j hj1 hj2
        show s1.free j = _ ∧ s1.num_free j = _
        rw [hf, hnf, if_neg hj2, if_neg hj1, if_neg hj2, if_neg hj1]
        exact ⟨rfl, rfl⟩
      · intro d hd
        show s1.size_pow2 d = _
        rw [hh, if_neg hd]
  · rcases try_merge_spec s a b k hha hhb with ⟨hno, e⟩ | ⟨h1, h2, s1, e, _⟩
    · rw [e]; intro _; rfl
    · rw [e]
      intro h
      exact absurd h (by simp)

/-- Instance of C20: the two halves of the block of 64 bytes, at the offsets 32 and 0 on
free list 5. -/
theorem try_merge_decides_witness :
    32 ∈ state_after_split.free 5 ∧ 0 ∈ state_after_split.free 5 ∧ (32 : Nat) ≠ 0 ∧
    state_after_split.size_pow2 32 = 5 ∧ state_after_split.size_pow2 0 = 5 ∧
    2 ^ 5 ∣ 32 ∧ 2 ^ 5 ∣ 0 ∧
    (((try_merge state_after_split 32 0).1 = true ↔ 0 = 32 ^^^ 2 ^ 5) ∧
    try_merge state_after_split 0 32 = try_merge state_after_split 32 0 ∧
    ((try_merge state_after_split 32 0).1 = true →
      (try_merge state_after_split 32 0).2.free 5 =
        ((state_after_split.free 5).erase (min 32 0)).erase (max 32 0) ∧
      ((try_merge state_after_split 32 0).2.free 5).length + 2 =
        (state_after_split.free 5).length ∧
      (try_merge state_after_split 32 0).2.num_free 5 = state_after_split.num_free 5 - 2 ∧
      (try_merge state_after_split 32 0).2.free (5 + 1) =
        min 32 0 :: state_after_split.free (5 + 1) ∧
      (try_merge state_after_split 32 0).2.size_pow2 (min 32 0) = 5 + 1 ∧
      (try_merge state_after_split 32 0).2.num_free (5 + 1) =
        state_after_split.num_free (5 + 1) + 1 ∧
      (∀ j, j ≠ 5 → j ≠ 5 + 1 →
        (try_merge state_after_split 32 0).2.free j = state_after_split.free j ∧
        (try_merge state_after_split 32 0).2.num_free j = state_after_split.num_free j) ∧
      (∀ d, d ≠ min 32 0 →
        (try_merge state_after_split 32 0).2.size_pow2 d = state_after_split.size_pow2 d) ∧
      (try_merge state_after_split 32 0).2.used = state_after_split.used ∧
      (try_merge state_after_split 32 0).2.num_used = state_after_split.num_used ∧
      (try_merge state_after_split 32 0).2.mem_size = state_after_split.mem_size ∧
      (try_merge state_after_split 32 0).2.max_pow2 = state_after_split.max_pow2) ∧
    ((try_merge state_after_split 32 0).1 = false →
      (try_merge state_after_split 32 0).2 = state_after_split)) :=
  ⟨by decide, by decide, by decide, by decide, by decide, by decide, by decide,
    try_merge_decides state_after_split 32 0 5 (by decide) (by decide) (by decide)
      (by decide) (by decide) (by decide) (by decide)⟩

/-- A set bit `i` of `L` and the bits above it sum to at most `L`. -/
theorem bits_above_end_le {L i : Nat} (hb : L.testBit i = true) :
    L / 2 ^ (i + 1) * 2 ^ (i + 1) + 2 ^ i ≤ L := by
  have hbit : L / 2 ^ i % 2 = 1 := by
    have := hb
    rw [Nat.testBit_to_div_mod] at this
    simpa using this
  have e1 : L / 2 ^ (i + 1) * 2 ^ (i + 1) + 2 ^ i = L / 2 ^ i * 2 ^ i := by
    have : L / 2 ^ (i + 1) = L / 2 ^ i / 2 := by
      rw [pow_succ, Nat.div_div_eq_div_mul]
    rw [this]
    have h3 : L / 2 ^ i = 2 * (L / 2 ^ i / 2) + 1 := by omega
    generalize L / 2 ^ i = q at *
    generalize q / 2 = q2 at *
    subst h3
    rw [pow_succ]; ring
  rw [e1]
  exact Nat.div_mul_le_self L (2 ^ i)

/-- An initial block lies inside the region, or before it with an offset from
`2 ^ 64 - 2 ^ 32` on and an end below `2 ^ 64`. -/
theorem InitBlk.side {L i D : Nat} (h : InitBlk L i D) (hL : L < 2 ^ 32) :
    D + 2 ^ i ≤ L ∨ (2 ^ 64 - 2 ^ 32 ≤ D ∧ D + 2 ^ i < 2 ^ 64) := by
  have hend := bits_above_end_le h.1
  by_cases hw : L.testBit 31 = true ∧ i < 31
  · right
    rw [h.2.2, init_offset_wrap hw]
    omega
  · left
    rw [h.2.2, init_offset_low hw]
    exact hend

/-- Two blocks of one class on different sides of `state.memory` do not follow one another
in either order, so `try_merge` refuses them whichever of the two its pointer comparison
takes for the lower one: comparing the offsets there gives the result of comparing the
addresses. -/
theorem Core.no_merge_across {L : Nat} {s : memory_manager_state} (c : Core L s)
    {k a b : Nat} (ha : IsBlk s k a) (hb : IsBlk s k b) (h1 : a < 2 ^ 63)
    (h2 : 2 ^ 63 ≤ b) :
    a + 2 ^ k ≠ b ∧ (b + 2 ^ k) % 2 ^ 64 ≠ a ∧
      try_merge s a b = (false, s) ∧ try_merge s b a = (false, s) := by
  have hlen := c.len
  obtain ⟨i, D, hi, _, h3, h4⟩ := c.geo.confined k a ha
  obtain ⟨i1, D1, hi1, _, h5, h6⟩ := c.geo.confined k b hb
  have hpos : 0 < 2 ^ k := by positivity
  have hae : a + 2 ^ k < 2 ^ 32 := by
    rcases hi.side hlen with h | h
    · omega
    · omega
  have hbe : b + 2 ^ k < 2 ^ 64 := by
    rcases hi1.side hlen with h | h
    · omega
    · omega
  have hadj : a + 2 ^ k ≠ b := by omega
  have hmin : min a b = a := min_eq_left (by omega)
  have hmax : max a b = b := max_eq_right (by omega)
  refine ⟨hadj, by rw [Nat.mod_eq_of_lt hbe]; omega, ?_, ?_⟩
  · rcases try_merge_spec s a b k (c.hdr k a ha) (c.hdr k b hb) with h | h
    · exact h.2
    · have h7 := h.2.1
      rw [hmin, hmax] at h7
      exact absurd h7 hadj
  · rcases try_merge_spec s b a k (c.hdr k b hb) (c.hdr k a ha) with h | h
    · exact h.2
    · have h7 := h.2.1
      rw [min_comm, max_comm, hmin, hmax] at h7
      exact absurd h7 hadj

/-- A block of class 30 of a region below `2 ^ 32` bytes is at offset 0 or `2 ^ 30`, or it
is the initial block of class 30 at `2 ^ 31` bytes before a region of `2 ^ 31 + 2 ^ 30`
bytes or more. -/
theorem Core.class_30_offset {L : Nat} {s : memory_manager_state} (c : Core L s) {a : Nat}
    (ha : IsBlk s 30 a) : a = 0 ∨ a = 2 ^ 30 ∨ a = 2 ^ 64 - 2 ^ 31 := by
  have hlen := c.len
  obtain ⟨i, D, hi, hk, h3, h4⟩ := c.geo.confined 30 a ha
  obtain ⟨q, hq⟩ := c.geo.aligned 30 a ha
  have hend := bits_above_end_le hi.1
  have hi31 : i ≤ 31 := by
    have h1 := hi.le_log2
    have h2 := log2_lt_32 hlen
    omega
  by_cases hw : L.testBit 31 = true ∧ i < 31
  · right; right
    have hD := hi.2.2
    rw [init_offset_wrap hw] at hD
    have h31 : 2 ^ 31 ≤ L / 2 ^ (i + 1) * 2 ^ (i + 1) := by
      have h5 := bits_above_order (i := i) hw.1 hw.2
      have h6 : L / 2 ^ (31 + 1) * 2 ^ (31 + 1) = 0 := by
        rw [Nat.div_eq_of_lt (by simpa using hlen)]; simp
      omega
    omega
  · have hD := hi.2.2
    rw [init_offset_low hw] at hD
    by_cases hb31 : L.testBit 31 = true
    · have hi1 : i = 31 := by
        by_contra hc
        exact hw ⟨hb31, by omega⟩
      subst hi1
      have h6 : L / 2 ^ (31 + 1) * 2 ^ (31 + 1) = 0 := by
        rw [Nat.div_eq_of_lt (by simpa using hlen)]; simp
      omega
    · have hL31 : L < 2 ^ 31 := by
        by_contra hc
        have hge : 2 ^ 31 ≤ L := by omega
        have h7 : L / 2 ^ 31 = 1 := by omega
        have : L.testBit 31 = true := by
          rw [Nat.testBit_to_div_mod, h7]
          rfl
        exact hb31 this
      omega

/-- On a block of class 30 the modulus `1 << 31` of `try_merge`, which is `INT_MIN` as a
`size_t`, gives the test `properly_aligned` the value that the modulus `2 ^ 31` gives it. -/
theorem Core.modulus_class_30 {L : Nat} {s : memory_manager_state} (c : Core L s) {a : Nat}
    (ha : IsBlk s 30 a) : (a % shl_int (30 + 1) == 0) = (a % 2 ^ (30 + 1) == 0) := by
  rw [shl_int_31]
  rcases c.class_30_offset ha with h | h | h <;> subst h <;> decide

end MyMem
